import Mathlib

/-!
# Index resolution of `libndarray` (`npy_index.c`)

A shallow embedding of `NpyArray_SliceSteps`, `NpyArray_IndexDealloc`,
`count_non_new`, `NpyArray_IndexBind`, `NpyArray_IndexExpandBool` and
`NpyArray_IndexToDimsEtc`, followed by the properties proved about them.

Conventions of the embedding

* `npy_intp` and `int` values are mathematical integers (`Int`).  The binder
  and the resolver are embedded with exact arithmetic, which is what the C code
  computes as long as no intermediate result leaves the 64-bit range.
* `NpyArray_SliceSteps` is a pure function of three `npy_intp` values whose
  intermediate results do leave that range on some inputs.  It is embedded
  twice: `NpyArray_SliceSteps64` computes as the machine does (every sum and
  difference reduced modulo `2^64` into `[-2^63, 2^63)`, a quotient that C does
  not define being `none`), and `NpyArray_SliceSteps` computes on exact
  integers.  The two agree wherever the difference `stop - start` is computed
  without overflow (`SliceSteps64_eq`), in particular on the slices the binder
  emits (`SliceSteps64_bound_slice`).
* A C array passed as pointer plus length (`indexes`/`n`, `dimensions`/`nd`)
  is a `List`; its length is the list's length.
* `out_indexes` together with the counter `result` is the list of the entries
  written so far: `out_indexes[result] = e; result++` appends `e`, and `result`
  is the length of that list.  The capacity `NPY_MAXDIMS` of the buffers is not
  modelled.
* Reference counts are explicit state: a map from the identity of an array
  object to its count.
* Behaviour that is undefined in C (reading `dimensions` out of range,
  dereferencing a `NULL` handle, reading an entry the non-zero finder did not
  write) is the distinguished outcome `Outcome.undefined`.
* The outputs `dimensions` and `strides` of the resolver, written together at
  the counter `nd_new`, are two lists of the same length; a slice of step zero,
  for which the slice length divides by zero, is `Result.undefined`.
-/

namespace NpyIndexing

/-! ## Data model -/

/-- The part of an `NpyArray` object the index code reads: its identity (the
key of its reference count), its per-dimension sizes and strides.  The rank
`nd` is the number of sizes. -/
structure NpyArray where
  id : Nat
  dimensions : List Int
  strides : List Int
deriving DecidableEq, Repr

/-- The field `nd` of an array object. -/
def NpyArray.nd (a : NpyArray) : Int := (a.dimensions.length : Int)

/-- The tagged union `NpyIndex`: one constructor per `NPY_INDEX_*` tag.  An
array handle is a pointer and may be `NULL` (`none`), which is what
`NpyArray_IndexDealloc` leaves behind.  The payload of a string index is never
read by this file and is left out. -/
inductive NpyIndex where
  | intp (val : Int)
  | bool (flag : Bool)
  | slice (start stop step : Int)
  | slice_nostop (start step : Int)
  | string
  | ellipsis
  | newaxis
  | intp_array (a : Option NpyArray)
  | bool_array (a : Option NpyArray)
deriving DecidableEq, Repr

/-- The error conditions the index code reports.  `NonZeroFailed` stands for
whatever error a failing `NpyArray_NonZero` has set. -/
inductive IndexError where
  | UnsupportedIndexKind
  | TooManyIndices
  | InvalidIndex
  | ArrayIndicesNotAllowed
  | UnboundIndexKind
  | NonZeroFailed
deriving DecidableEq, Repr

/-- Reference counts, by array identity. -/
abbrev RefCounts := Nat → Int

/-- Modelled from the spec: the macro `Npy_INCREF` of `npy_object.h` (not in
the sources at hand) acquires one strong reference to the handle. -/
def Npy_INCREF (rc : RefCounts) (a : NpyArray) : RefCounts :=
  fun h => if h = a.id then rc h + 1 else rc h

/-- Modelled from the spec: the macro `Npy_DECREF` of `npy_object.h` (not in
the sources at hand) releases one strong reference to the handle. -/
def Npy_DECREF (rc : RefCounts) (a : NpyArray) : RefCounts :=
  fun h => if h = a.id then rc h - 1 else rc h

/-- What a call does: it returns a value, it returns `-1` with an error set, or
its behaviour is undefined in C.  The first two carry the reference counts on
return. -/
inductive Outcome (α : Type) where
  | ok (val : α) (rc : RefCounts)
  | error (e : IndexError) (rc : RefCounts)
  | undefined

/-- The value returned, when the call succeeds. -/
def Outcome.value? {α : Type} : Outcome α → Option α
  | .ok v _ => some v
  | _ => none

/-- The error set, when the call returns `-1`. -/
def Outcome.error? {α : Type} : Outcome α → Option IndexError
  | .error e _ => some e
  | _ => none

/-- The reference counts on return. -/
def Outcome.rc? {α : Type} : Outcome α → Option RefCounts
  | .ok _ rc => some rc
  | .error _ rc => some rc
  | .undefined => none

/-- The outcome with the value returned replaced by its image under `f`. -/
def Outcome.map {α β : Type} (f : α → β) : Outcome α → Outcome β
  | .ok v rc => .ok (f v) rc
  | .error e rc => .error e rc
  | .undefined => .undefined

/-- The reference count of the array with identity `h` on return. -/
def Outcome.rcAt {α : Type} (o : Outcome α) (h : Nat) : Option Int :=
  o.rc?.map (fun rc => rc h)

/-! ## `NpyArray_SliceSteps` -/

/-- The function `NpyArray_SliceSteps` on exact integers: the number of
elements of a bound slice, given its fields `start`, `stop` and `step`.  The C
operator `/` on integers truncates toward zero (`Int.tdiv`).  This is what the
C function computes where no intermediate result leaves the range of
`npy_intp`; `NpyArray_SliceSteps64` is the function on the machine type.  For
`step = 0` the C code divides by zero, which is undefined; the value of the
model there means nothing and no property below is stated for it. -/
def NpyArray_SliceSteps (start stop step : Int) : Int :=
  if (step < 0 ∧ stop ≥ start) ∨ (step > 0 ∧ start ≥ stop) then
    0
  else if step < 0 then
    (stop - start + 1).tdiv step + 1
  else
    (stop - start - 1).tdiv step + 1

/-- The least value of the 64-bit type `npy_intp`, `-2^63`. -/
def NPY_MIN_INTP : Int := -9223372036854775808

/-- The largest value of the 64-bit type `npy_intp`, `2^63 - 1`. -/
def NPY_MAX_INTP : Int := 9223372036854775807

/-- The integer is a value of the type `npy_intp`. -/
def isIntp (x : Int) : Prop := NPY_MIN_INTP ≤ x ∧ x ≤ NPY_MAX_INTP

/-- The value a 64-bit two's-complement register holds for the exact result
`x` of a sum or a difference: `x` reduced modulo `2^64` into `[-2^63, 2^63)`. -/
def wrapIntp (x : Int) : Int :=
  (x + 9223372036854775808) % 18446744073709551616 - 9223372036854775808

/-- The C operator `/` on two `npy_intp` values: truncating division; `none`
where C leaves it undefined, which is a divisor of zero and the quotient of the
least value by `-1`, which is not a value of the type. -/
def divIntp (a b : Int) : Option Int :=
  if b = 0 ∨ (a = NPY_MIN_INTP ∧ b = -1) then none else some (a.tdiv b)

/-- The function `NpyArray_SliceSteps` as the machine computes it on the 64-bit
type `npy_intp`: the comparisons are exact, every sum and difference is
reduced by `wrapIntp`, the quotient is `divIntp`. -/
def NpyArray_SliceSteps64 (start stop step : Int) : Option Int :=
  if (step < 0 ∧ stop ≥ start) ∨ (step > 0 ∧ start ≥ stop) then
    some 0
  else if step < 0 then
    (divIntp (wrapIntp (wrapIntp (stop - start) + 1)) step).map
      (fun q => wrapIntp (q + 1))
  else
    (divIntp (wrapIntp (wrapIntp (stop - start) - 1)) step).map
      (fun q => wrapIntp (q + 1))

/-! ## `NpyArray_IndexDealloc` -/

/-- The function `NpyArray_IndexDealloc(indexes, n)`: walks the first `n` entries, releases
the handle of every `NPY_INDEX_INTP_ARRAY` and `NPY_INDEX_BOOL_ARRAY` entry and
sets it to `NULL`.  Returns the list as it is left and the new reference
counts; `none` is undefined behaviour (`Npy_DECREF` of a `NULL` handle, or `n`
larger than the list). -/
def NpyArray_IndexDealloc :
    List NpyIndex → Nat → RefCounts → Option (List NpyIndex × RefCounts)
  | l, 0, rc => some (l, rc)
  | [], _ + 1, _ => none
  | .intp_array (some a) :: l, n + 1, rc =>
    (NpyArray_IndexDealloc l n (Npy_DECREF rc a)).map
      (fun r => (.intp_array none :: r.1, r.2))
  | .intp_array none :: _, _ + 1, _ => none
  | .bool_array (some a) :: l, n + 1, rc =>
    (NpyArray_IndexDealloc l n (Npy_DECREF rc a)).map
      (fun r => (.bool_array none :: r.1, r.2))
  | .bool_array none :: _, _ + 1, _ => none
  | e :: l, n + 1, rc =>
    (NpyArray_IndexDealloc l n rc).map (fun r => (e :: r.1, r.2))

/-! ## `count_non_new` -/

/-- The function `count_non_new`: the number of entries that are not `NPY_INDEX_NEWAXIS`, a
boolean array counting as its rank.  `none` is undefined behaviour (reading
`->nd` through a `NULL` handle). -/
def count_non_new : List NpyIndex → Option Int
  | [] => some 0
  | .newaxis :: l => count_non_new l
  | .bool_array (some a) :: l => (count_non_new l).map (fun r => a.nd + r)
  | .bool_array none :: _ => none
  | _ :: l => (count_non_new l).map (fun r => 1 + r)

/-! ## `NpyArray_IndexBind` -/

/-- The local variables of the loop of `NpyArray_IndexBind`: the entries
written to `out_indexes` so far and the counter `n_new`. -/
structure BindState where
  out : List NpyIndex
  n_new : Int
deriving DecidableEq, Repr

/-- The counter `result`: the number of entries written so far. -/
def BindState.result (st : BindState) : Int := (st.out.length : Int)

/-- The state after `out_indexes[result] = e; result++`. -/
def BindState.push (st : BindState) (e : NpyIndex) : BindState :=
  { st with out := st.out ++ [e] }

/-- The read `dimensions[i]`; `none` when `i` is out of range. -/
def readDim (dimensions : List Int) (i : Int) : Option Int :=
  if i < 0 then none else dimensions[i.toNat]?

/-- The failure path `NpyArray_IndexDealloc(out_indexes, result); return -1;`
with error `e` set. -/
def deallocFail (e : IndexError) (st : BindState) (rc : RefCounts) :
    Outcome BindState :=
  match NpyArray_IndexDealloc st.out st.out.length rc with
  | some r => .error e r.2
  | none => .undefined

/-- The loop `for (j=0; j<n2; j++)` of the ellipsis case: each round writes the
full slice of the next source dimension. -/
def fillSlices (dimensions : List Int) (rc : RefCounts) :
    Nat → BindState → Outcome BindState
  | 0, st => .ok st rc
  | k + 1, st =>
    match readDim dimensions (st.result - st.n_new) with
    | none => .undefined
    | some d => fillSlices dimensions rc k (st.push (.slice 0 d 1))

/-- The three `if`s on `slice->start` of the `NPY_INDEX_SLICE` case. -/
def bindSliceStart (dim start step : Int) : Int :=
  let s1 := if start < 0 then start + dim else start
  let s2 := if s1 < 0 then (if step < 0 then 0 - 1 else 0) else s1
  if s2 ≥ dim then (if step < 0 then dim - 1 else dim) else s2

/-- The three `if`s on `slice->stop` of the `NPY_INDEX_SLICE` case. -/
def bindSliceStop (dim stop : Int) : Int :=
  let e1 := if stop < 0 then stop + dim else stop
  let e2 := if e1 < 0 then -1 else e1
  if e2 > dim then dim else e2

/-- The computation of `oslice->start` in the `NPY_INDEX_SLICE_NOSTOP` case. -/
def bindNoStopStart (dim start step : Int) : Int :=
  let s1 := if start < 0 then start + dim else start
  let s2 := if s1 < 0 then (if step < 0 then 0 - 1 else 0) else s1
  if s2 ≥ dim then (if step < 0 then dim - 1 else dim) else s2

/-- The computation of `oslice->stop` in the `NPY_INDEX_SLICE_NOSTOP` case. -/
def bindNoStopStop (dim step : Int) : Int :=
  if step > 0 then dim else -1

/-- The value of `index.boolean` converted to `npy_intp`. -/
def boolVal (flag : Bool) : Int := if flag then 1 else 0

/-- The `NPY_INDEX_INTP` / `NPY_INDEX_BOOL` case once `val` is read from the
entry.  The "Invalid index." return does not call `NpyArray_IndexDealloc`. -/
def bindScalar (dimensions : List Int) (st : BindState) (rc : RefCounts)
    (v : Int) : Outcome BindState :=
  if st.result ≥ (dimensions.length : Int) + st.n_new then
    deallocFail .TooManyIndices st rc
  else
    match readDim dimensions (st.result - st.n_new) with
    | none => .undefined
    | some dim =>
      let val := if v < 0 then v + dim else v
      if val < 0 ∨ val ≥ dim then
        .error .InvalidIndex rc
      else
        .ok (st.push (.intp val)) rc

/-- One round of the loop of `NpyArray_IndexBind`: the `switch` on the entry
`idx = indexes[i]`, where `rest` is `indexes[i+1 .. n-1]`.  The external
`NpyArray_NonZero` is the parameter `nonZero`: it fails (`none`) or returns the
coordinate arrays it has written to `index_arrays`; the reference the caller
then owns to each of them is counted when the array is written to the output.
The `default:` label is not reachable: the nine tags all have a case. -/
def bindEntry (nonZero : NpyArray → Option (List NpyArray))
    (dimensions : List Int) (st : BindState) (rc : RefCounts) (idx : NpyIndex)
    (rest : List NpyIndex) : Outcome BindState :=
  let nd : Int := (dimensions.length : Int)
  match idx with
  | .string => .error .UnsupportedIndexKind rc
  | .ellipsis =>
    match count_non_new rest with
    | none => .undefined
    | some c =>
      let n2 := nd + st.n_new - c - st.result
      if n2 < 0 then deallocFail .TooManyIndices st rc
      else fillSlices dimensions rc n2.toNat st
  | .bool_array none => .undefined
  | .bool_array (some b) =>
    if st.result + b.nd ≥ nd + st.n_new then
      deallocFail .TooManyIndices st rc
    else
      match nonZero b with
      | none => deallocFail .NonZeroFailed st rc
      | some arrs =>
        if (arrs.length : Int) < b.nd then .undefined
        else
          let written := arrs.take b.nd.toNat
          .ok { st with out := st.out ++ written.map (fun a => .intp_array (some a)) }
            (written.foldl Npy_INCREF rc)
  | .slice start stop step =>
    if st.result ≥ nd + st.n_new then
      deallocFail .TooManyIndices st rc
    else
      match readDim dimensions (st.result - st.n_new) with
      | none => .undefined
      | some dim =>
        .ok (st.push (.slice (bindSliceStart dim start step)
                             (bindSliceStop dim stop) step)) rc
  | .slice_nostop start step =>
    if st.result ≥ nd + st.n_new then
      deallocFail .TooManyIndices st rc
    else
      match readDim dimensions (st.result - st.n_new) with
      | none => .undefined
      | some dim =>
        .ok (st.push (.slice (bindNoStopStart dim start step)
                             (bindNoStopStop dim step) step)) rc
  | .intp v => bindScalar dimensions st rc v
  | .bool flag => bindScalar dimensions st rc (boolVal flag)
  | .intp_array a =>
    if st.result ≥ nd + st.n_new then
      deallocFail .TooManyIndices st rc
    else
      match a with
      | none => .undefined
      | some arr => .ok (st.push (.intp_array (some arr))) (Npy_INCREF rc arr)
  | .newaxis =>
    .ok { out := st.out ++ [.newaxis], n_new := st.n_new + 1 } rc

/-- The loop `for (i=0; i<n; i++)` of `NpyArray_IndexBind`, from the state `st`
and the reference counts `rc`, over the entries still to be read. -/
def bindLoop (nonZero : NpyArray → Option (List NpyArray))
    (dimensions : List Int) :
    BindState → RefCounts → List NpyIndex → Outcome BindState
  | st, rc, [] => .ok st rc
  | st, rc, idx :: rest =>
    match bindEntry nonZero dimensions st rc idx rest with
    | .ok st1 rc1 => bindLoop nonZero dimensions st1 rc1 rest
    | .error e rc1 => .error e rc1
    | .undefined => .undefined

/-- The function `NpyArray_IndexBind(indexes, n, dimensions, nd, out_indexes)`, called with
the reference counts `rc`.  On success the value is the bound index list left
in `out_indexes`; the C function returns its length. -/
def NpyArray_IndexBind (nonZero : NpyArray → Option (List NpyArray))
    (indexes : List NpyIndex) (dimensions : List Int) (rc : RefCounts) :
    Outcome (List NpyIndex) :=
  (bindLoop nonZero dimensions { out := [], n_new := 0 } rc indexes).map (fun st => st.out)

/-! ## `NpyArray_IndexExpandBool` -/

/-- One round of the loop of `NpyArray_IndexExpandBool`: the `switch` on the
entry `idx = indexes[i]`, with `out` the entries written so far.  The case
`NPY_INDEX_BOOL` has no `break`: after writing the `NPY_INDEX_INTP` entry it
runs into the `default:` statements, which copy the entry itself. -/
def expandEntry (nonZero : NpyArray → Option (List NpyArray))
    (out : List NpyIndex) (rc : RefCounts) (idx : NpyIndex) :
    Outcome (List NpyIndex) :=
  match idx with
  | .bool_array none => .undefined
  | .bool_array (some b) =>
    match nonZero b with
    | none =>
      match NpyArray_IndexDealloc out out.length rc with
      | some r => .error .NonZeroFailed r.2
      | none => .undefined
    | some arrs =>
      if (arrs.length : Int) < b.nd then .undefined
      else
        let written := arrs.take b.nd.toNat
        .ok (out ++ written.map (fun a => .intp_array (some a)))
          (written.foldl Npy_INCREF rc)
  | .intp_array none => .undefined
  | .intp_array (some a) => .ok (out ++ [.intp_array (some a)]) (Npy_INCREF rc a)
  | .bool flag => .ok (out ++ [.intp (boolVal flag)] ++ [.bool flag]) rc
  | e => .ok (out ++ [e]) rc

/-- The loop `for (i=0; i<n; i++)` of `NpyArray_IndexExpandBool`. -/
def expandLoop (nonZero : NpyArray → Option (List NpyArray)) :
    List NpyIndex → RefCounts → List NpyIndex → Outcome (List NpyIndex)
  | out, rc, [] => .ok out rc
  | out, rc, idx :: rest =>
    match expandEntry nonZero out rc idx with
    | .ok out1 rc1 => expandLoop nonZero out1 rc1 rest
    | .error e rc1 => .error e rc1
    | .undefined => .undefined

/-- The function `NpyArray_IndexExpandBool(indexes, n, out_indexes)`, called
with the reference counts `rc`.  On success the value is the list left in
`out_indexes`; the C function returns its length. -/
def NpyArray_IndexExpandBool (nonZero : NpyArray → Option (List NpyArray))
    (indexes : List NpyIndex) (rc : RefCounts) : Outcome (List NpyIndex) :=
  expandLoop nonZero [] rc indexes

/-! ## `NpyArray_IndexToDimsEtc` -/

/-- What a call that leaves the reference counts alone does: it returns a
value, it returns `-1` with an error set, or it does something the C source
does not define as a return (undefined behaviour, or the `default:` label, which
starts with `assert(NPY_FALSE)`). -/
inductive Result (α : Type) where
  | ok (val : α)
  | error (e : IndexError)
  | undefined
deriving DecidableEq, Repr

/-- The value returned, when the call succeeds. -/
def Result.value? {α : Type} : Result α → Option α
  | .ok v => some v
  | _ => none

/-- The error set, when the call returns `-1`. -/
def Result.error? {α : Type} : Result α → Option IndexError
  | .error e => some e
  | _ => none

/-- The local variables of `NpyArray_IndexToDimsEtc`: the counter `iDim`, the
entries written to the outputs `dimensions` and `strides` (both at index
`nd_new`, which is then incremented), and `offset`. -/
structure ResolveState where
  iDim : Nat
  dimensions : List Int
  strides : List Int
  offset : Int
deriving DecidableEq, Repr

/-- The counter `nd_new`: the number of output dimensions written so far. -/
def ResolveState.nd_new (st : ResolveState) : Int := (st.dimensions.length : Int)

/-- One round of the first loop of `NpyArray_IndexToDimsEtc`: the `switch` on
the entry.  A slice of step zero makes `NpyArray_SliceSteps` divide by zero;
`NPY_INDEX_BOOL` has no case and reaches the `default:` label. -/
def resolveEntry (array : NpyArray) (allow_arrays : Bool) (st : ResolveState)
    (idx : NpyIndex) : Result ResolveState :=
  match idx with
  | .intp v =>
    if (st.iDim : Int) ≥ array.nd then .error .TooManyIndices
    else
      match array.strides[st.iDim]? with
      | none => .undefined
      | some s => .ok { st with offset := st.offset + s * v, iDim := st.iDim + 1 }
  | .slice start stop step =>
    if (st.iDim : Int) ≥ array.nd then .error .TooManyIndices
    else if step = 0 then .undefined
    else
      match array.strides[st.iDim]? with
      | none => .undefined
      | some s =>
        .ok { iDim := st.iDim + 1,
              dimensions := st.dimensions ++ [NpyArray_SliceSteps start stop step],
              strides := st.strides ++ [step * s],
              offset := st.offset + s * start }
  | .intp_array _ =>
    if allow_arrays then
      if (st.iDim : Int) ≥ array.nd then .error .TooManyIndices
      else .ok { st with iDim := st.iDim + 1 }
    else .error .ArrayIndicesNotAllowed
  | .newaxis =>
    .ok { st with dimensions := st.dimensions ++ [1], strides := st.strides ++ [0] }
  | .slice_nostop _ _ => .error .UnboundIndexKind
  | .bool_array _ => .error .UnboundIndexKind
  | .ellipsis => .error .UnboundIndexKind
  | .string => .error .UnsupportedIndexKind
  | .bool _ => .undefined

/-- The loop `for (i=0; i<n; i++)` of `NpyArray_IndexToDimsEtc`. -/
def resolveLoop (array : NpyArray) (allow_arrays : Bool) :
    ResolveState → List NpyIndex → Result ResolveState
  | st, [] => .ok st
  | st, idx :: rest =>
    match resolveEntry array allow_arrays st idx with
    | .ok st1 => resolveLoop array allow_arrays st1 rest
    | .error e => .error e
    | .undefined => .undefined

/-- The loop `for (; iDim<array->nd; iDim++)` of `NpyArray_IndexToDimsEtc`,
with `k` rounds left: each round appends the size and the stride of source
dimension `iDim`. -/
def resolveRest (array : NpyArray) : Nat → ResolveState → Result ResolveState
  | 0, st => .ok st
  | k + 1, st =>
    match array.dimensions[st.iDim]?, array.strides[st.iDim]? with
    | some d, some s =>
      resolveRest array k
        { st with iDim := st.iDim + 1, dimensions := st.dimensions ++ [d],
                  strides := st.strides ++ [s] }
    | _, _ => .undefined

/-- The function `NpyArray_IndexToDimsEtc(array, indexes, n, dimensions,
strides, offset_ptr, allow_arrays)`.  On success the value holds the outputs
`dimensions` and `strides` and the offset written to `offset_ptr`; the C
function returns `nd_new`, the length of `dimensions`. -/
def NpyArray_IndexToDimsEtc (array : NpyArray) (indexes : List NpyIndex)
    (allow_arrays : Bool) : Result ResolveState :=
  match resolveLoop array allow_arrays
      { iDim := 0, dimensions := [], strides := [], offset := 0 } indexes with
  | .ok st => resolveRest array (array.dimensions.length - st.iDim) st
  | .error e => .error e
  | .undefined => .undefined

/-! ## The slice rules in the words of the specification -/

/-- The rule for `start` as the specification words it: add `dim` if negative;
if still negative, `0` (or `-1` if `step < 0`); if `≥ dim`, `dim` (or `dim-1`
if `step < 0`). -/
def specSliceStart (dim start step : Int) : Int :=
  let s := if start < 0 then start + dim else start
  if s < 0 then (if step < 0 then -1 else 0)
  else if s ≥ dim then (if step < 0 then dim - 1 else dim)
  else s

/-- The rule for `stop` as the specification words it: add `dim` if negative;
if still negative, `-1`; if `> dim`, `dim`. -/
def specSliceStop (dim stop : Int) : Int :=
  let e := if stop < 0 then stop + dim else stop
  if e < 0 then -1
  else if e > dim then dim
  else e

/-! ## Vocabulary of the properties -/

/-- The handle of the entry, if it has one, is not `NULL`. -/
def NpyIndex.live : NpyIndex → Bool
  | .intp_array none => false
  | .bool_array none => false
  | _ => true

/-- The number of `NewAxis` entries of an index list. -/
def countNewAxis (l : List NpyIndex) : Nat := l.count .newaxis

/-- The number of entries that are neither `Ellipsis` nor `NewAxis`, a boolean
array counting as its rank. -/
def countConsuming : List NpyIndex → Int
  | [] => 0
  | .newaxis :: l => countConsuming l
  | .ellipsis :: l => countConsuming l
  | .bool_array (some a) :: l => a.nd + countConsuming l
  | _ :: l => 1 + countConsuming l

/-- The full slices `Slice(0, dimensions[d], 1)` for `d = c, ..., c + k - 1`. -/
def fullSlices (dimensions : List Int) (c k : Nat) : List NpyIndex :=
  ((dimensions.drop c).take k).map (fun d => NpyIndex.slice 0 d 1)

/-- An entry of a bound index list that consumes a source dimension of size
`dim`: an `Integer` in `[0, dim)`, a `Slice` with `start` and `stop` in
`[-1, dim]`, or an `IntegerArray`. -/
def isBoundEntry (dim : Int) : NpyIndex → Bool
  | .intp v => decide (0 ≤ v ∧ v < dim)
  | .slice start stop _ =>
    decide (-1 ≤ start ∧ start ≤ dim ∧ -1 ≤ stop ∧ stop ≤ dim)
  | .intp_array _ => true
  | _ => false

/-- A bound index list over the source dimensions `dims`: every entry is a
`NewAxis` or a bound entry for the dimension it consumes, the `j`-th entry
other than `NewAxis` consuming dimension `j`. -/
def isBoundList : List NpyIndex → List Int → Bool
  | [], _ => true
  | .newaxis :: l, dims => isBoundList l dims
  | _ :: _, [] => false
  | e :: l, d :: dims => isBoundEntry d e && isBoundList l dims

/-- The value of a scalar index (`Integer` or `Boolean`) before wraparound. -/
def scalarVal : NpyIndex → Option Int
  | .intp v => some v
  | .bool flag => some (boolVal flag)
  | _ => none

/-- The non-zero finder succeeds on the mask of the entry, with one coordinate
array for each of its dimensions. -/
def finderSucceeds (nonZero : NpyArray → Option (List NpyArray)) (idx : NpyIndex) : Prop :=
  ∀ b, idx = .bool_array (some b) →
    ∃ arrs, nonZero b = some arrs ∧ b.nd ≤ (arrs.length : Int)

/-- The invariant of the loop of `NpyArray_IndexBind`: no entry written has a
`NULL` handle, `n_new` is the number of `NewAxis` entries written, and the
number of other entries written is at most the rank. -/
def BindInv (dims : List Int) (st : BindState) : Prop :=
  (∀ e ∈ st.out, e.live = true) ∧
  st.n_new = (countNewAxis st.out : Int) ∧
  st.result - st.n_new ≤ (dims.length : Int)

/-- What one successful round of the loop has done: it has appended a run `w`
of entries without `NULL` handle, with a `NewAxis` only for a `NewAxis`, stayed
within the rank, written bound entries for the dimensions they consume, and
consumed the dimensions `count_non_new` attributes to the entry (for an
ellipsis: all but those the rest of the list needs). -/
def StepPost (dims : List Int) (st : BindState) (idx : NpyIndex)
    (rest : List NpyIndex) (st1 : BindState) : Prop :=
  ∃ w : List NpyIndex,
    st1.out = st.out ++ w ∧
    st1.n_new = st.n_new + (countNewAxis w : Int) ∧
    (∀ e ∈ w, e.live = true) ∧
    countNewAxis w = countNewAxis [idx] ∧
    st.result - st.n_new + ((w.length : Int) - (countNewAxis w : Int)) ≤ (dims.length : Int) ∧
    ((∀ d ∈ dims, 0 ≤ d) →
      isBoundList w (dims.drop (st.out.length - countNewAxis st.out)) = true) ∧
    (idx ≠ .ellipsis →
      count_non_new [idx] = some ((w.length : Int) - (countNewAxis w : Int))) ∧
    (idx = .ellipsis →
      count_non_new rest
        = some ((dims.length : Int) - (st.result - st.n_new) - (w.length : Int)))

/-- The type tags `NPY_INDEX_*` of an index entry. -/
inductive NpyIndexType where
  | NPY_INDEX_INTP
  | NPY_INDEX_BOOL
  | NPY_INDEX_SLICE
  | NPY_INDEX_SLICE_NOSTOP
  | NPY_INDEX_STRING
  | NPY_INDEX_ELLIPSIS
  | NPY_INDEX_NEWAXIS
  | NPY_INDEX_INTP_ARRAY
  | NPY_INDEX_BOOL_ARRAY
deriving DecidableEq, Repr

/-- The field `type` of an index entry. -/
def NpyIndex.type : NpyIndex → NpyIndexType
  | .intp _ => .NPY_INDEX_INTP
  | .bool _ => .NPY_INDEX_BOOL
  | .slice _ _ _ => .NPY_INDEX_SLICE
  | .slice_nostop _ _ => .NPY_INDEX_SLICE_NOSTOP
  | .string => .NPY_INDEX_STRING
  | .ellipsis => .NPY_INDEX_ELLIPSIS
  | .newaxis => .NPY_INDEX_NEWAXIS
  | .intp_array _ => .NPY_INDEX_INTP_ARRAY
  | .bool_array _ => .NPY_INDEX_BOOL_ARRAY

/-- The identity of the array an `IntegerArray` or `BooleanArray` entry holds a
reference to. -/
def NpyIndex.handleId? : NpyIndex → Option Nat
  | .intp_array (some a) => some a.id
  | .bool_array (some a) => some a.id
  | _ => none

/-- The entry with its handle, if it has one, set to `NULL`. -/
def NpyIndex.clearHandle : NpyIndex → NpyIndex
  | .intp_array _ => .intp_array none
  | .bool_array _ => .bool_array none
  | e => e

/-- The number of entries of the list that hold a reference to the array of
identity `h`. -/
def countHandle (h : Nat) (l : List NpyIndex) : Nat :=
  l.countP (fun e => e.handleId? == some h)

/-- An entry the resolver takes in basic indexing: an `Integer`, a `Slice` of
step other than zero, or a `NewAxis`. -/
def NpyIndex.isBasic : NpyIndex → Bool
  | .intp _ => true
  | .slice _ _ step => decide (step ≠ 0)
  | .newaxis => true
  | _ => false

/-- The number of `Integer` entries of an index list. -/
def countIntp (l : List NpyIndex) : Nat :=
  l.countP (fun e => match e with
    | .intp _ => true
    | _ => false)

/-- The number of `Slice` entries of an index list. -/
def countSlices (l : List NpyIndex) : Nat :=
  l.countP (fun e => match e with
    | .slice _ _ _ => true
    | _ => false)

/-- The output dimensions the specification gives for the entries of a bound
list, in list order: the slice length for each `Slice`, `1` for each
`NewAxis`. -/
def viewDims : List NpyIndex → List Int
  | [] => []
  | .slice start stop step :: l => NpyArray_SliceSteps start stop step :: viewDims l
  | .newaxis :: l => 1 :: viewDims l
  | _ :: l => viewDims l

/-- The output strides the specification gives for the entries of a bound list,
in list order, `str` being the strides of the source dimensions not yet
consumed: `step * stride` for each `Slice`, `0` for each `NewAxis`; an `Integer`
and a `Slice` consume the first stride of `str`. -/
def viewStrides : List Int → List NpyIndex → List Int
  | _, [] => []
  | str, .slice _ _ step :: l => step * str.headD 0 :: viewStrides str.tail l
  | str, .newaxis :: l => 0 :: viewStrides str l
  | str, .intp _ :: l => viewStrides str.tail l
  | str, _ :: l => viewStrides str l

/-- The offset the specification gives for a bound list, `str` being the
strides of the source dimensions not yet consumed: `stride * value` for each
`Integer` plus `stride * start` for each `Slice`. -/
def viewOffset : List Int → List NpyIndex → Int
  | _, [] => 0
  | str, .intp v :: l => str.headD 0 * v + viewOffset str.tail l
  | str, .slice start _ _ :: l => str.headD 0 * start + viewOffset str.tail l
  | str, _ :: l => viewOffset str l

/-- An entry that consumes a source dimension in the resolver: an `Integer`, a
`Slice` or an `IntegerArray`. -/
def NpyIndex.usesDim : NpyIndex → Bool
  | .intp _ => true
  | .slice _ _ _ => true
  | .intp_array _ => true
  | _ => false

/-- The error that entry `i` of the list makes the resolver report, in the
words of the specification, when `before` source dimensions of an array of rank
`nd` are consumed ahead of the list: a string is unsupported; an ellipsis, an
open-stop slice and a boolean array are unbound; an integer array is not
allowed unless `allow_arrays`; an entry that consumes a dimension is one too
many when the consuming entries before it already number `nd`.  A `NewAxis`
reports nothing. -/
def offence (allow_arrays : Bool) (nd before : Nat) (l : List NpyIndex) (i : Nat) :
    Option IndexError :=
  match l[i]? with
  | some .string => some .UnsupportedIndexKind
  | some .ellipsis => some .UnboundIndexKind
  | some (.slice_nostop _ _) => some .UnboundIndexKind
  | some (.bool_array _) => some .UnboundIndexKind
  | some (.intp_array _) =>
    if allow_arrays = false then some .ArrayIndicesNotAllowed
    else if (l.take i).countP NpyIndex.usesDim + before = nd then some .TooManyIndices
    else none
  | some (.intp _) =>
    if (l.take i).countP NpyIndex.usesDim + before = nd then some .TooManyIndices else none
  | some (.slice _ _ _) =>
    if (l.take i).countP NpyIndex.usesDim + before = nd then some .TooManyIndices else none
  | _ => none

/-- An entry that is neither an `IntegerArray` nor a `BooleanArray`. -/
def NpyIndex.isPlain : NpyIndex → Bool
  | .intp_array _ => false
  | .bool_array _ => false
  | _ => true

/-- The step of the entry, if it is a `Slice` or a `SliceOpenStop`, is not
zero. -/
def NpyIndex.stepNonzero : NpyIndex → Bool
  | .slice _ _ step => decide (step ≠ 0)
  | .slice_nostop _ step => decide (step ≠ 0)
  | _ => true

/-- The number of scalar (`Integer` or `Boolean`) entries of an index list. -/
def countScalars (l : List NpyIndex) : Nat :=
  l.countP (fun e => (scalarVal e).isSome)

/-- A bound entry that stays inside a source dimension of size `dim`: an
`Integer` in `[0, dim)`, or a `Slice` that starts at `0` or later and stops at
`dim` or before when ascending, and starts before `dim` and stops at `-1` or
later when descending. -/
def isViewEntry (dim : Int) : NpyIndex → Bool
  | .intp v => decide (0 ≤ v ∧ v < dim)
  | .slice start stop step =>
    decide ((0 < step → 0 ≤ start ∧ stop ≤ dim) ∧ (step < 0 → start < dim ∧ -1 ≤ stop))
  | _ => false

/-- A list of `NewAxis` entries and of entries that stay inside the source
dimensions they consume, the `j`-th entry other than `NewAxis` consuming
dimension `j`. -/
def isViewList : List NpyIndex → List Int → Bool
  | [], _ => true
  | .newaxis :: l, dims => isViewList l dims
  | _ :: _, [] => false
  | e :: l, d :: dims => isViewEntry d e && isViewList l dims

/-- The sum of the products of the entries of two lists, position by
position. -/
def dot (a b : List Int) : Int := (List.zipWith (fun x y => x * y) a b).sum

/-- A multi-index inside a shape: as many coordinates as the shape has sizes,
each at least zero and less than its size. -/
def inShape (j shape : List Int) : Prop :=
  List.Forall₂ (fun x d => 0 ≤ x ∧ x < d) j shape

/-- The states in which the loop of `NpyArray_IndexBind` starts a round or
ends, from the state `st` over the entries still to be read. -/
def bindStates (nonZero : NpyArray → Option (List NpyArray)) (dimensions : List Int) :
    BindState → RefCounts → List NpyIndex → List BindState
  | st, _, [] => [st]
  | st, rc, idx :: rest =>
    st :: (match bindEntry nonZero dimensions st rc idx rest with
      | .ok st1 rc1 => bindStates nonZero dimensions st1 rc1 rest
      | _ => [])

/-- What a successful round on an entry that is no array has appended: basic
entries if the step of the entry is not zero, one `Integer` exactly for a
scalar, and entries that stay inside the dimensions they consume. -/
def PlainPost (dims : List Int) (st : BindState) (idx : NpyIndex) (st1 : BindState) : Prop :=
  ∃ w : List NpyIndex,
    st1.out = st.out ++ w ∧
    (idx.stepNonzero = true → ∀ e ∈ w, e.isBasic = true) ∧
    countIntp w = countScalars [idx] ∧
    ((∀ d ∈ dims, 0 ≤ d) →
      isViewList w (dims.drop (st.out.length - countNewAxis st.out)) = true)

/-- The non-zero finder, whenever it succeeds on a mask, has written one
coordinate array for each dimension of the mask. -/
def finderSound (nonZero : NpyArray → Option (List NpyArray)) : Prop :=
  ∀ b arrs, nonZero b = some arrs → b.nd ≤ (arrs.length : Int)

/-! ## The model on the examples of the specification -/

example : NpyArray_SliceSteps 2 5 1 = 3 := by decide
example : NpyArray_SliceSteps64 2 5 1 = some 3 := by decide
example : NpyArray_SliceSteps64 4 (-1) (-1) = some 5 := by decide
example : NpyArray_SliceSteps64 (-2) 9223372036854775807 1
    = some (-9223372036854775807) := by decide
example : NpyArray_SliceSteps64 9223372036854775807 (-2) (-1) = none := by decide
example : NpyArray_SliceSteps64 0 5 0 = none := by decide
example : NpyArray_SliceSteps 4 (-1) (-1) = 5 := by decide
example :
    (NpyArray_IndexBind (fun _ => none) [.intp 1, .ellipsis, .intp 0] [2, 3, 4, 5]
      (fun _ => 0)).value? = some [.intp 1, .slice 0 3 1, .slice 0 4 1, .intp 0] := by
  decide
example :
    (NpyArray_IndexBind (fun _ => none) [.intp (-4)] [3] (fun _ => 0)).error?
      = some .InvalidIndex := by decide
example :
    (NpyArray_IndexBind (fun _ => none) [.intp_array (some ⟨7, [2], [1]⟩), .intp 5] [3, 3]
      (fun _ => 1)).rcAt 7 = some 2 := by decide
example :
    NpyArray_IndexToDimsEtc ⟨1, [5], [8]⟩ [.newaxis, .slice 0 5 1] false
      = .ok { iDim := 1, dimensions := [1, 5], strides := [0, 8], offset := 0 } := by
  decide
example :
    NpyArray_IndexToDimsEtc ⟨1, [2, 3, 4, 5], [60, 20, 5, 1]⟩
        [.intp 1, .slice 0 3 1, .slice 0 4 1, .intp 0] false
      = .ok { iDim := 4, dimensions := [3, 4], strides := [20, 5], offset := 60 } := by
  decide
example :
    (NpyArray_IndexExpandBool (fun _ => none) [.bool true] (fun _ => 0)).value?
      = some [.intp 1, .bool true] := by decide
example :
    (NpyArray_IndexBind (fun _ => none) [.intp 2, .intp 0, .intp 0] [3, 1]
      (fun _ => 0)).error? = some .TooManyIndices := by decide
example :
    (NpyArray_IndexBind (fun _ => none) [.intp 0, .intp 2, .intp 0] [3, 1]
      (fun _ => 0)).error? = some .InvalidIndex := by decide

/-! ## Slice length -/

/-- Truncating division of a non-positive by a negative integer is floor
division of the absolute values. -/
theorem tdiv_neg_neg_eq (a b : Int) (ha : a ≤ 0) (hb : b < 0) :
    a.tdiv b = (-a) / (-b) := by
  have h1 : a.tdiv b = (-(-a)).tdiv (-(-b)) := by simp
  rw [h1, Int.neg_tdiv_neg, Int.tdiv_eq_ediv (by omega) (by omega)]

/-- For an ascending slice the count is positive exactly below the bound. -/
theorem SliceSteps_lt_iff_pos (start stop step : Int) (hstep : 0 < step) (k : Nat) :
    (k : Int) < NpyArray_SliceSteps start stop step ↔ start + k * step < stop := by
  have hk : (0 : Int) ≤ k * step := mul_nonneg (Int.ofNat_nonneg k) hstep.le
  unfold NpyArray_SliceSteps
  by_cases h : start ≥ stop
  · rw [if_pos (Or.inr ⟨hstep, h⟩)]
    constructor <;> intro h1 <;> omega
  · rw [if_neg (by omega), if_neg (by omega),
      Int.tdiv_eq_ediv (by omega) hstep.le, Int.lt_add_one_iff,
      Int.le_ediv_iff_mul_le hstep]
    constructor <;> intro h1 <;> omega

/-- For a descending slice the count is positive exactly above the bound. -/
theorem SliceSteps_lt_iff_neg (start stop step : Int) (hstep : step < 0) (k : Nat) :
    (k : Int) < NpyArray_SliceSteps start stop step ↔ start + k * step > stop := by
  have hk : (k : Int) * step ≤ 0 :=
    mul_nonpos_of_nonneg_of_nonpos (Int.ofNat_nonneg k) hstep.le
  unfold NpyArray_SliceSteps
  by_cases h : stop ≥ start
  · rw [if_pos (Or.inl ⟨hstep, h⟩)]
    constructor <;> intro h1 <;> omega
  · rw [if_neg (by omega), if_pos hstep,
      tdiv_neg_neg_eq _ _ (by omega) hstep, Int.lt_add_one_iff,
      Int.le_ediv_iff_mul_le (by omega)]
    have h2 : (k : Int) * -step = -(k * step) := by ring
    rw [h2]
    constructor <;> intro h1 <;> omega

/-- A set of naturals cut off below an integer bound has that many elements. -/
theorem ncard_of_lt_iff (P : Nat → Prop) (L : Int)
    (h : ∀ k : Nat, (k : Int) < L ↔ P k) : Set.ncard {k : Nat | P k} = L.toNat := by
  have hset : {k : Nat | P k} = ((Finset.range L.toNat : Finset Nat) : Set Nat) := by
    ext k
    simp only [Set.mem_setOf_eq, Finset.coe_range, Set.mem_Iio]
    rw [← h k]
    omega
  rw [hset, Set.ncard_coe_Finset, Finset.card_range]

/-- On exact integers, for every start, stop and every step other than zero,
`NpyArray_SliceSteps` is non-negative; when the step is positive, the naturals
`k` below it are exactly those with `start + k*step < stop`, and it is the
number of such `k`; when the step is negative, the same with
`start + k*step > stop`. -/
theorem SliceSteps_counts_steps (start stop step : Int) (hstep : step ≠ 0) :
    0 ≤ NpyArray_SliceSteps start stop step ∧
    (0 < step →
      (∀ k : Nat, (k : Int) < NpyArray_SliceSteps start stop step ↔
        start + k * step < stop) ∧
      Set.ncard {k : Nat | start + k * step < stop}
        = (NpyArray_SliceSteps start stop step).toNat) ∧
    (step < 0 →
      (∀ k : Nat, (k : Int) < NpyArray_SliceSteps start stop step ↔
        start + k * step > stop) ∧
      Set.ncard {k : Nat | start + k * step > stop}
        = (NpyArray_SliceSteps start stop step).toNat) := by
  refine ⟨?_, ?_, ?_⟩
  · by_contra hneg
    rcases lt_or_gt_of_ne hstep with hs | hs
    · have h0 := (SliceSteps_lt_iff_neg start stop step hs 0).2
      have h1 := (SliceSteps_lt_iff_neg start stop step hs 0).1
      by_cases hc : start + ((0 : Nat) : Int) * step > stop
      · have := h0 hc
        omega
      · unfold NpyArray_SliceSteps at hneg
        rw [if_pos (Or.inl ⟨hs, by simpa using hc⟩)] at hneg
        omega
    · by_cases hc : start + ((0 : Nat) : Int) * step < stop
      · have := (SliceSteps_lt_iff_pos start stop step hs 0).2 hc
        omega
      · unfold NpyArray_SliceSteps at hneg
        rw [if_pos (Or.inr ⟨hs, by simpa using hc⟩)] at hneg
        omega
  · intro hs
    exact ⟨SliceSteps_lt_iff_pos start stop step hs,
      ncard_of_lt_iff _ _ (SliceSteps_lt_iff_pos start stop step hs)⟩
  · intro hs
    exact ⟨SliceSteps_lt_iff_neg start stop step hs,
      ncard_of_lt_iff _ _ (SliceSteps_lt_iff_neg start stop step hs)⟩

/-- On exact integers, at `start = 7, stop = 0, step = -3`: the values 7, 4, 1
are visited. -/
theorem SliceSteps_counts_steps_witness :
    NpyArray_SliceSteps 7 0 (-3) = 3 ∧
    (0 ≤ NpyArray_SliceSteps 7 0 (-3) ∧
    ((0 : Int) < -3 →
      (∀ k : Nat, (k : Int) < NpyArray_SliceSteps 7 0 (-3) ↔
        (7 : Int) + k * (-3) < 0) ∧
      Set.ncard {k : Nat | (7 : Int) + k * (-3) < 0}
        = (NpyArray_SliceSteps 7 0 (-3)).toNat) ∧
    ((-3 : Int) < 0 →
      (∀ k : Nat, (k : Int) < NpyArray_SliceSteps 7 0 (-3) ↔
        (7 : Int) + k * (-3) > 0) ∧
      Set.ncard {k : Nat | (7 : Int) + k * (-3) > 0}
        = (NpyArray_SliceSteps 7 0 (-3)).toNat)) :=
  ⟨by decide, SliceSteps_counts_steps 7 0 (-3) (by decide)⟩

/-- A value of the type `npy_intp` is held unchanged. -/
theorem wrapIntp_of_isIntp (x : Int) (h : isIntp x) : wrapIntp x = x := by
  unfold isIntp NPY_MIN_INTP NPY_MAX_INTP at h
  unfold wrapIntp
  omega

/-- Whatever the exact result, the value held is a value of the type. -/
theorem isIntp_wrapIntp (x : Int) : isIntp (wrapIntp x) := by
  unfold isIntp NPY_MIN_INTP NPY_MAX_INTP wrapIntp
  omega

/-- Where the function does not return at once, and the difference
`stop - start` is a value of `npy_intp` other than the least one, the machine
computes the exact result, which is a value of `npy_intp`. -/
theorem SliceSteps64_eq (start stop step : Int) (hstep : step ≠ 0)
    (hfit : ((step < 0 ∧ stop ≥ start) ∨ (step > 0 ∧ start ≥ stop)) ∨
      (NPY_MIN_INTP < stop - start ∧ stop - start ≤ NPY_MAX_INTP)) :
    NpyArray_SliceSteps64 start stop step = some (NpyArray_SliceSteps start stop step) ∧
    NpyArray_SliceSteps start stop step ≤ NPY_MAX_INTP := by
  unfold NpyArray_SliceSteps64 NpyArray_SliceSteps
  by_cases h0 : (step < 0 ∧ stop ≥ start) ∨ (step > 0 ∧ start ≥ stop)
  · rw [if_pos h0, if_pos h0]
    exact ⟨rfl, by unfold NPY_MAX_INTP; omega⟩
  · have hd : NPY_MIN_INTP < stop - start ∧ stop - start ≤ NPY_MAX_INTP :=
      hfit.resolve_left h0
    rw [if_neg h0, if_neg h0]
    unfold NPY_MIN_INTP NPY_MAX_INTP at hd
    have hw : wrapIntp (stop - start) = stop - start :=
      wrapIntp_of_isIntp _ (by unfold isIntp NPY_MIN_INTP NPY_MAX_INTP; omega)
    by_cases hs : step < 0
    · have hlt : stop < start := by omega
      have hw1 : wrapIntp (stop - start + 1) = stop - start + 1 :=
        wrapIntp_of_isIntp _ (by unfold isIntp NPY_MIN_INTP NPY_MAX_INTP; omega)
      have hq : (stop - start + 1).tdiv step = (-(stop - start + 1)) / (-step) :=
        tdiv_neg_neg_eq _ _ (by omega) hs
      have hq0 : 0 ≤ (-(stop - start + 1)) / (-step) :=
        Int.ediv_nonneg (by omega) (by omega)
      have hq1 : (-(stop - start + 1)) / (-step) ≤ -(stop - start + 1) :=
        Int.ediv_le_self _ (by omega)
      have hw2 : wrapIntp ((stop - start + 1).tdiv step + 1)
          = (stop - start + 1).tdiv step + 1 :=
        wrapIntp_of_isIntp _ (by unfold isIntp NPY_MIN_INTP NPY_MAX_INTP; omega)
      rw [if_pos hs, if_pos hs, hw, hw1, divIntp,
        if_neg (by unfold NPY_MIN_INTP; omega), Option.map_some', hw2]
      exact ⟨rfl, by unfold NPY_MAX_INTP; omega⟩
    · have hpos : 0 < step := by omega
      have hlt : start < stop := by omega
      have hw1 : wrapIntp (stop - start - 1) = stop - start - 1 :=
        wrapIntp_of_isIntp _ (by unfold isIntp NPY_MIN_INTP NPY_MAX_INTP; omega)
      have hq : (stop - start - 1).tdiv step = (stop - start - 1) / step :=
        Int.tdiv_eq_ediv (by omega) hpos.le
      have hq0 : 0 ≤ (stop - start - 1) / step := Int.ediv_nonneg (by omega) hpos.le
      have hq1 : (stop - start - 1) / step ≤ stop - start - 1 :=
        Int.ediv_le_self _ (by omega)
      have hw2 : wrapIntp ((stop - start - 1).tdiv step + 1)
          = (stop - start - 1).tdiv step + 1 :=
        wrapIntp_of_isIntp _ (by unfold isIntp NPY_MIN_INTP NPY_MAX_INTP; omega)
      rw [if_neg hs, if_neg hs, hw, hw1, divIntp,
        if_neg (by unfold NPY_MIN_INTP; omega), Option.map_some', hw2]
      exact ⟨rfl, by unfold NPY_MAX_INTP; omega⟩

/-- C1, as the claim states it, fails on the 64-bit type: for start `-2`, stop
`2^63 - 1` and step `1` the difference `stop - start` overflows and the
function returns `-(2^63 - 1)`, a negative value, while `2^63 + 1` values lie
before the stop. -/
theorem SliceSteps_overflow_counterexample :
    NpyArray_SliceSteps64 (-2) 9223372036854775807 1 = some (-9223372036854775807) ∧
    ¬ ∀ (start stop step : Int), isIntp start → isIntp stop → isIntp step → step ≠ 0 →
        ∃ L : Int, NpyArray_SliceSteps64 start stop step = some L ∧ 0 ≤ L ∧
          (0 < step → Set.ncard {k : Nat | start + k * step < stop} = L.toNat) ∧
          (step < 0 → Set.ncard {k : Nat | start + k * step > stop} = L.toNat) := by
  refine ⟨by decide, fun h => ?_⟩
  obtain ⟨L, hL, h0, _⟩ := h (-2) 9223372036854775807 1
    (by unfold isIntp NPY_MIN_INTP NPY_MAX_INTP; omega)
    (by unfold isIntp NPY_MIN_INTP NPY_MAX_INTP; omega)
    (by unfold isIntp NPY_MIN_INTP NPY_MAX_INTP; omega) (by omega)
  have h1 : NpyArray_SliceSteps64 (-2) 9223372036854775807 1
      = some (-9223372036854775807) := by decide
  rw [h1, Option.some.injEq] at hL
  omega

/-- C1, amended: for every start, stop and step other than zero such that the
difference `stop - start` is a value of `npy_intp` other than the least one
(`-2^63 < stop - start < 2^63`), the 64-bit `NpyArray_SliceSteps` returns a
value `L` with `0 ≤ L ≤ 2^63 - 1`; when the step is positive, the naturals `k`
below `L` are exactly those with `start + k*step < stop`, and `L` is the number
of such `k`; when the step is negative, the same with
`start + k*step > stop`. -/
theorem SliceSteps64_counts_steps (start stop step : Int) (hstep : step ≠ 0)
    (hfit : NPY_MIN_INTP < stop - start ∧ stop - start ≤ NPY_MAX_INTP) :
    ∃ L : Int, NpyArray_SliceSteps64 start stop step = some L ∧
      0 ≤ L ∧ L ≤ NPY_MAX_INTP ∧
      (0 < step →
        (∀ k : Nat, (k : Int) < L ↔ start + k * step < stop) ∧
        Set.ncard {k : Nat | start + k * step < stop} = L.toNat) ∧
      (step < 0 →
        (∀ k : Nat, (k : Int) < L ↔ start + k * step > stop) ∧
        Set.ncard {k : Nat | start + k * step > stop} = L.toNat) := by
  obtain ⟨heq, hmax⟩ := SliceSteps64_eq start stop step hstep (Or.inr hfit)
  refine ⟨NpyArray_SliceSteps start stop step, heq,
    (SliceSteps_counts_steps start stop step hstep).1, hmax, ?_, ?_⟩
  · intro hs
    exact ⟨SliceSteps_lt_iff_pos start stop step hs,
      ncard_of_lt_iff _ _ (SliceSteps_lt_iff_pos start stop step hs)⟩
  · intro hs
    exact ⟨SliceSteps_lt_iff_neg start stop step hs,
      ncard_of_lt_iff _ _ (SliceSteps_lt_iff_neg start stop step hs)⟩

/-- C1, amended, for `Slice(7, 0, -3)`, which visits 7, 4 and 1: the 64-bit
function returns 3. -/
theorem SliceSteps64_counts_steps_witness :
    NpyArray_SliceSteps64 7 0 (-3) = some 3 ∧
    (NPY_MIN_INTP < (0 : Int) - 7 ∧ (0 : Int) - 7 ≤ NPY_MAX_INTP) ∧
    ∃ L : Int, NpyArray_SliceSteps64 7 0 (-3) = some L ∧
      0 ≤ L ∧ L ≤ NPY_MAX_INTP ∧
      ((0 : Int) < -3 →
        (∀ k : Nat, (k : Int) < L ↔ (7 : Int) + k * (-3) < 0) ∧
        Set.ncard {k : Nat | (7 : Int) + k * (-3) < 0} = L.toNat) ∧
      ((-3 : Int) < 0 →
        (∀ k : Nat, (k : Int) < L ↔ (7 : Int) + k * (-3) > 0) ∧
        Set.ncard {k : Nat | (7 : Int) + k * (-3) > 0} = L.toNat) :=
  ⟨by decide, by decide,
    SliceSteps64_counts_steps 7 0 (-3) (by decide) (by decide)⟩

/-! ## Binding one slice or one scalar -/

/-- A successful read of `dimensions` is a read inside the list. -/
theorem readDim_some_iff (dims : List Int) (i d : Int) :
    readDim dims i = some d ↔
      0 ≤ i ∧ i < (dims.length : Int) ∧ dims[i.toNat]? = some d := by
  unfold readDim
  by_cases hi : i < 0
  · simp [hi]
  · simp only [hi, if_false]
    constructor
    · intro h
      have hlt := (List.getElem?_eq_some_iff.1 h).1
      exact ⟨by omega, by omega, h⟩
    · exact fun h => h.2.2

/-- Where `dimensions` can be read, the "too many indices" test is passed. -/
theorem not_full_of_readDim {dims : List Int} {st : BindState} {d : Int}
    (h : readDim dims (st.result - st.n_new) = some d) :
    ¬ st.result ≥ (dims.length : Int) + st.n_new := by
  have := (readDim_some_iff _ _ _).1 h
  omega

/-- On a dimension of size at least zero the code's three tests on `start`
compute the specification's rule. -/
theorem bindSliceStart_eq_spec (dim start step : Int) (hdim : 0 ≤ dim) :
    bindSliceStart dim start step = specSliceStart dim start step := by
  unfold bindSliceStart specSliceStart
  simp only []
  split_ifs <;> omega

/-- On a dimension of size at least zero the code's three tests on `stop`
compute the specification's rule. -/
theorem bindSliceStop_eq_spec (dim stop : Int) (hdim : 0 ≤ dim) :
    bindSliceStop dim stop = specSliceStop dim stop := by
  unfold bindSliceStop specSliceStop
  simp only []
  split_ifs <;> omega

/-- The bound `start` of an ascending slice lies in `[0, dim]`, that of a
descending slice in `[-1, dim-1]`. -/
theorem bindSliceStart_bounds (dim start step : Int) (hdim : 0 ≤ dim) :
    (0 ≤ step → 0 ≤ bindSliceStart dim start step ∧ bindSliceStart dim start step ≤ dim) ∧
    (step < 0 → -1 ≤ bindSliceStart dim start step ∧ bindSliceStart dim start step ≤ dim - 1) := by
  unfold bindSliceStart
  simp only []
  constructor <;> intro hs <;> split_ifs <;> omega

/-- The bound `stop` lies in `[-1, dim]`. -/
theorem bindSliceStop_bounds (dim stop : Int) (hdim : 0 ≤ dim) :
    -1 ≤ bindSliceStop dim stop ∧ bindSliceStop dim stop ≤ dim := by
  unfold bindSliceStop
  simp only []
  split_ifs <;> omega

/-- On the slice the binder emits for a dimension whose size is a non-negative
value of `npy_intp`, the 64-bit `NpyArray_SliceSteps` computes the exact
result: no intermediate result overflows. -/
theorem SliceSteps64_bound_slice (dim start stop step : Int) (hdim : 0 ≤ dim)
    (hmax : dim ≤ NPY_MAX_INTP) (hstep : step ≠ 0) :
    NpyArray_SliceSteps64 (bindSliceStart dim start step) (bindSliceStop dim stop) step
      = some (NpyArray_SliceSteps (bindSliceStart dim start step)
          (bindSliceStop dim stop) step) := by
  have hs := bindSliceStart_bounds dim start step hdim
  have he := bindSliceStop_bounds dim stop hdim
  refine (SliceSteps64_eq _ _ step hstep ?_).1
  unfold NPY_MIN_INTP NPY_MAX_INTP at *
  by_cases hneg : step < 0
  · have := hs.2 hneg
    by_cases h : bindSliceStop dim stop ≥ bindSliceStart dim start step
    · exact Or.inl (Or.inl ⟨hneg, h⟩)
    · exact Or.inr ⟨by omega, by omega⟩
  · have := hs.1 (by omega)
    by_cases h : bindSliceStart dim start step ≥ bindSliceStop dim stop
    · exact Or.inl (Or.inr ⟨by omega, h⟩)
    · exact Or.inr ⟨by omega, by omega⟩

/-- What the `NPY_INDEX_SLICE` case does where `dimensions` can be read. -/
theorem bindEntry_slice (nz : NpyArray → Option (List NpyArray)) (dims : List Int)
    (st : BindState) (rc : RefCounts) (rest : List NpyIndex) (dim start stop step : Int)
    (hread : readDim dims (st.result - st.n_new) = some dim) :
    bindEntry nz dims st rc (.slice start stop step) rest
      = .ok (st.push (.slice (bindSliceStart dim start step)
          (bindSliceStop dim stop) step)) rc := by
  simp only [bindEntry, if_neg (not_full_of_readDim hread), hread]

/-- C2: where the source dimension read has size `dim ≥ 0`, the
`NPY_INDEX_SLICE` case emits `Slice(start', stop', step)` with `start'` and
`stop'` given by the specification's clamping rules; `Slice(2, 10, 1)` on a
dimension of size 5 binds to `Slice(2, 5, 1)`, of length 3. -/
theorem bind_slice_clamps (nz : NpyArray → Option (List NpyArray)) (dims : List Int)
    (st : BindState) (rc : RefCounts) (rest : List NpyIndex) (dim start stop step : Int)
    (hdim : 0 ≤ dim) (hread : readDim dims (st.result - st.n_new) = some dim) :
    bindEntry nz dims st rc (.slice start stop step) rest
        = .ok (st.push (.slice (specSliceStart dim start step)
            (specSliceStop dim stop) step)) rc ∧
    (NpyArray_IndexBind nz [.slice 2 10 1] [5] rc).value? = some [.slice 2 5 1] ∧
    NpyArray_SliceSteps 2 5 1 = 3 := by
  refine ⟨?_, rfl, by decide⟩
  rw [bindEntry_slice nz dims st rc rest dim start stop step hread,
    bindSliceStart_eq_spec dim start step hdim, bindSliceStop_eq_spec dim stop hdim]

/-- C2 at the second dimension of sizes `[4, 6]`, for `Slice(-2, 100, 2)`. -/
theorem bind_slice_clamps_witness :
    bindEntry (fun _ => none) [4, 6] ⟨[.intp 1], 0⟩ (fun _ => 0) (.slice (-2) 100 2) []
        = .ok (BindState.push ⟨[.intp 1], 0⟩ (.slice (specSliceStart 6 (-2) 2)
            (specSliceStop 6 100) 2)) (fun _ => 0) ∧
    (NpyArray_IndexBind (fun _ => none) [.slice 2 10 1] [5] (fun _ => 0)).value?
        = some [.slice 2 5 1] ∧
    NpyArray_SliceSteps 2 5 1 = 3 :=
  bind_slice_clamps (fun _ => none) [4, 6] ⟨[.intp 1], 0⟩ (fun _ => 0) [] 6 (-2) 100 2
    (by decide) (by decide)

/-- C3: where the source dimension read has size `dim ≥ 0` and the step is not
zero, the slice `(s, e, step)` the `NPY_INDEX_SLICE` case emits has a length
`L = NpyArray_SliceSteps(s, e, step)` of at most `dim`, and every index
`s + k*step` with `0 ≤ k < L` lies in `[0, dim)`; `Slice(-1, -100, -1)` on a
dimension of size 5 binds to `Slice(4, -1, -1)`, of length 5. -/
theorem bound_slice_stays_in_dimension (nz : NpyArray → Option (List NpyArray))
    (dims : List Int) (st : BindState) (rc : RefCounts) (rest : List NpyIndex)
    (dim start stop step : Int) (hdim : 0 ≤ dim) (hstep : step ≠ 0)
    (hread : readDim dims (st.result - st.n_new) = some dim) :
    (∃ s e : Int,
      bindEntry nz dims st rc (.slice start stop step) rest
        = .ok (st.push (.slice s e step)) rc ∧
      NpyArray_SliceSteps s e step ≤ dim ∧
      ∀ k : Int, 0 ≤ k → k < NpyArray_SliceSteps s e step →
        0 ≤ s + k * step ∧ s + k * step < dim) ∧
    (NpyArray_IndexBind nz [.slice (-1) (-100) (-1)] [5] rc).value?
        = some [.slice 4 (-1) (-1)] ∧
    NpyArray_SliceSteps 4 (-1) (-1) = 5 := by
  refine ⟨⟨bindSliceStart dim start step, bindSliceStop dim stop,
    bindEntry_slice nz dims st rc rest dim start stop step hread, ?_⟩, rfl, by decide⟩
  have hS := bindSliceStart_bounds dim start step hdim
  have hE := bindSliceStop_bounds dim stop hdim
  generalize bindSliceStart dim start step = s at hS ⊢
  generalize bindSliceStop dim stop = e at hE ⊢
  have hvisit : ∀ k : Int, 0 ≤ k → k < NpyArray_SliceSteps s e step →
      0 ≤ s + k * step ∧ s + k * step < dim := by
    intro k hk0 hkL
    have hcast : ((k.toNat : Nat) : Int) = k := Int.toNat_of_nonneg hk0
    rcases lt_or_gt_of_ne hstep with hs | hs
    · have h1 := (SliceSteps_lt_iff_neg s e step hs k.toNat).1 (by rw [hcast]; exact hkL)
      rw [hcast] at h1
      have h2 : k * step ≤ 0 := mul_nonpos_of_nonneg_of_nonpos hk0 hs.le
      have := hS.2 hs
      omega
    · have h1 := (SliceSteps_lt_iff_pos s e step hs k.toNat).1 (by rw [hcast]; exact hkL)
      rw [hcast] at h1
      have h2 : 0 ≤ k * step := mul_nonneg hk0 hs.le
      have := hS.1 hs.le
      omega
  refine ⟨?_, hvisit⟩
  by_contra hgt
  have hL : 0 ≤ NpyArray_SliceSteps s e step - 1 := by omega
  have hv := hvisit (NpyArray_SliceSteps s e step - 1) hL (by omega)
  rcases lt_or_gt_of_ne hstep with hs | hs
  · have h3 : (NpyArray_SliceSteps s e step - 1) * step
        ≤ (NpyArray_SliceSteps s e step - 1) * (-1) :=
      mul_le_mul_of_nonneg_left (by omega) hL
    have := hS.2 hs
    omega
  · have h3 : (NpyArray_SliceSteps s e step - 1) * 1
        ≤ (NpyArray_SliceSteps s e step - 1) * step :=
      mul_le_mul_of_nonneg_left (by omega) hL
    omega

/-- C3 at the second dimension of sizes `[4, 6]`, for `Slice(-2, -100, -3)`. -/
theorem bound_slice_stays_in_dimension_witness :
    (∃ s e : Int,
      bindEntry (fun _ => none) [4, 6] ⟨[.intp 1], 0⟩ (fun _ => 0)
          (.slice (-2) (-100) (-3)) []
        = .ok (BindState.push ⟨[.intp 1], 0⟩ (.slice s e (-3))) (fun _ => 0) ∧
      NpyArray_SliceSteps s e (-3) ≤ 6 ∧
      ∀ k : Int, 0 ≤ k → k < NpyArray_SliceSteps s e (-3) →
        0 ≤ s + k * (-3) ∧ s + k * (-3) < 6) ∧
    (NpyArray_IndexBind (fun _ => none) [.slice (-1) (-100) (-1)] [5] (fun _ => 0)).value?
        = some [.slice 4 (-1) (-1)] ∧
    NpyArray_SliceSteps 4 (-1) (-1) = 5 :=
  bound_slice_stays_in_dimension (fun _ => none) [4, 6] ⟨[.intp 1], 0⟩ (fun _ => 0) []
    6 (-2) (-100) (-3) (by decide) (by decide) (by decide)

/-- What the `NPY_INDEX_INTP` / `NPY_INDEX_BOOL` case does with the value `v`
where `dimensions` can be read. -/
theorem bindScalar_eq (dims : List Int) (st : BindState) (rc : RefCounts) (dim v : Int)
    (hread : readDim dims (st.result - st.n_new) = some dim) :
    bindScalar dims st rc v
      = if -dim ≤ v ∧ v < dim then
          .ok (st.push (.intp (if v < 0 then v + dim else v))) rc
        else .error .InvalidIndex rc := by
  simp only [bindScalar, if_neg (not_full_of_readDim hread), hread]
  split_ifs <;> first | rfl | (exfalso; omega)

/-- C4: where the source dimension read has size `dim`, binding `Integer(v)`,
or a `Boolean` of value `v`, succeeds exactly when `-dim ≤ v < dim`; it then
emits `Integer(v)` for `v ≥ 0` and `Integer(v + dim)` for `v < 0`, and
otherwise fails with `InvalidIndex`.  `Integer(-1)` on a dimension of size 3
gives 2, `Integer(-4)` fails with `InvalidIndex`. -/
theorem bind_scalar_wraps_or_fails (nz : NpyArray → Option (List NpyArray))
    (dims : List Int) (st : BindState) (rc : RefCounts) (rest : List NpyIndex)
    (dim v : Int) (flag : Bool)
    (hread : readDim dims (st.result - st.n_new) = some dim) :
    (bindEntry nz dims st rc (.intp v) rest
      = if -dim ≤ v ∧ v < dim then
          .ok (st.push (.intp (if v < 0 then v + dim else v))) rc
        else .error .InvalidIndex rc) ∧
    (bindEntry nz dims st rc (.bool flag) rest
      = if -dim ≤ boolVal flag ∧ boolVal flag < dim then
          .ok (st.push (.intp (if boolVal flag < 0 then boolVal flag + dim
            else boolVal flag))) rc
        else .error .InvalidIndex rc) ∧
    (NpyArray_IndexBind nz [.intp (-1)] [3] rc).value? = some [.intp 2] ∧
    (NpyArray_IndexBind nz [.intp (-4)] [3] rc).error? = some .InvalidIndex :=
  ⟨bindScalar_eq dims st rc dim v hread,
    bindScalar_eq dims st rc dim (boolVal flag) hread, rfl, rfl⟩

/-- C4 at the second dimension of sizes `[4, 6]`, for `Integer(-6)` and
`Boolean(true)`. -/
theorem bind_scalar_wraps_or_fails_witness :
    (bindEntry (fun _ => none) [4, 6] ⟨[.intp 1], 0⟩ (fun _ => 0) (.intp (-6)) []
      = if -6 ≤ (-6 : Int) ∧ (-6 : Int) < 6 then
          .ok (BindState.push ⟨[.intp 1], 0⟩
            (.intp (if (-6 : Int) < 0 then -6 + 6 else -6))) (fun _ => 0)
        else .error .InvalidIndex (fun _ => 0)) ∧
    (bindEntry (fun _ => none) [4, 6] ⟨[.intp 1], 0⟩ (fun _ => 0) (.bool true) []
      = if -6 ≤ boolVal true ∧ boolVal true < 6 then
          .ok (BindState.push ⟨[.intp 1], 0⟩
            (.intp (if boolVal true < 0 then boolVal true + 6 else boolVal true)))
            (fun _ => 0)
        else .error .InvalidIndex (fun _ => 0)) ∧
    (NpyArray_IndexBind (fun _ => none) [.intp (-1)] [3] (fun _ => 0)).value?
      = some [.intp 2] ∧
    (NpyArray_IndexBind (fun _ => none) [.intp (-4)] [3] (fun _ => 0)).error?
      = some .InvalidIndex :=
  bind_scalar_wraps_or_fails (fun _ => none) [4, 6] ⟨[.intp 1], 0⟩ (fun _ => 0) []
    6 (-6) true (by decide)

/-! ## The loop of the binder -/

/-- Reading `dimensions` at a natural number. -/
theorem readDim_natCast (dims : List Int) (c : Nat) :
    readDim dims (c : Int) = dims[c]? := by
  simp [readDim]

/-- Releasing the first `n` entries of a list without `NULL` handles is
defined. -/
theorem dealloc_defined (l : List NpyIndex) :
    ∀ (n : Nat) (rc : RefCounts), (∀ e ∈ l, e.live = true) → n ≤ l.length →
      ∃ r, NpyArray_IndexDealloc l n rc = some r := by
  induction l with
  | nil =>
    intro n rc _ hn
    have : n = 0 := by simpa using hn
    subst this
    exact ⟨_, rfl⟩
  | cons e l ih =>
    intro n rc hl hn
    cases n with
    | zero => exact ⟨(e :: l, rc), by simp [NpyArray_IndexDealloc]⟩
    | succ n =>
      have hl1 : ∀ x ∈ l, x.live = true := fun x hx => hl x (List.mem_cons_of_mem _ hx)
      have hn1 : n ≤ l.length := by simpa using hn
      have he : e.live = true := hl e (List.mem_cons_self _ _)
      cases e with
      | intp_array a =>
        cases a with
        | none => simp [NpyIndex.live] at he
        | some a =>
          obtain ⟨r, hr⟩ := ih n (Npy_DECREF rc a) hl1 hn1
          simp [NpyArray_IndexDealloc, hr]
      | bool_array a =>
        cases a with
        | none => simp [NpyIndex.live] at he
        | some a =>
          obtain ⟨r, hr⟩ := ih n (Npy_DECREF rc a) hl1 hn1
          simp [NpyArray_IndexDealloc, hr]
      | _ =>
        obtain ⟨r, hr⟩ := ih n rc hl1 hn1
        simp [NpyArray_IndexDealloc, hr]

/-- The failure path returns the error when the entries written have no `NULL`
handle. -/
theorem deallocFail_error (e : IndexError) (st : BindState) (rc : RefCounts)
    (hl : ∀ x ∈ st.out, x.live = true) :
    ∃ rc1, deallocFail e st rc = .error e rc1 := by
  obtain ⟨r, hr⟩ := dealloc_defined st.out st.out.length rc hl le_rfl
  exact ⟨r.2, by simp [deallocFail, hr]⟩

/-- The fill loop of the ellipsis case writes the full slices of the next `k`
source dimensions. -/
theorem fillSlices_spec (dims : List Int) (rc : RefCounts) :
    ∀ (k : Nat) (st : BindState) (c : Nat), st.result - st.n_new = (c : Int) →
      c + k ≤ dims.length →
      fillSlices dims rc k st = .ok ⟨st.out ++ fullSlices dims c k, st.n_new⟩ rc := by
  intro k
  induction k with
  | zero =>
    intro st c _ _
    simp [fillSlices, fullSlices]
  | succ k ih =>
    intro st c hc hk
    have hlt : c < dims.length := by omega
    have hread : readDim dims (st.result - st.n_new) = some dims[c] := by
      rw [hc, readDim_natCast, List.getElem?_eq_getElem hlt]
    have hc1 : (st.push (.slice 0 dims[c] 1)).result - (st.push (.slice 0 dims[c] 1)).n_new
        = ((c + 1 : Nat) : Int) := by
      simp only [BindState.push, BindState.result, List.length_append, List.length_singleton,
        Nat.cast_add, Nat.cast_one] at hc ⊢
      omega
    rw [fillSlices, hread]
    simp only []
    rw [ih _ (c + 1) hc1 (by omega)]
    simp only [BindState.push, fullSlices, List.append_assoc, List.singleton_append]
    rw [List.drop_eq_getElem_cons hlt]
    rfl

/-- The failure path does not return a value. -/
theorem deallocFail_ne_ok (e : IndexError) (st st1 : BindState) (rc rc1 : RefCounts) :
    deallocFail e st rc ≠ .ok st1 rc1 := by
  unfold deallocFail
  split <;> simp

/-- Under the invariant the source dimension in turn is the number of entries
written that are not `NewAxis`. -/
theorem bindInv_consumed {dims : List Int} {st : BindState} (h : BindInv dims st) :
    st.result - st.n_new = ((st.out.length - countNewAxis st.out : Nat) : Int) := by
  have hle : countNewAxis st.out ≤ st.out.length := List.count_le_length _ _
  rw [h.2.1, BindState.result]
  omega

/-- A bound list starting with an entry other than `NewAxis`. -/
theorem isBoundList_cons (e : NpyIndex) (l : List NpyIndex) (d : Int) (ds : List Int)
    (hne : e ≠ .newaxis) :
    isBoundList (e :: l) (d :: ds) = (isBoundEntry d e && isBoundList l ds) := by
  cases e <;> first | rfl | exact absurd rfl hne

/-- The success of a case that writes the single entry `e` for the source
dimension in turn. -/
theorem stepPost_single {dims : List Int} {st : BindState} {idx : NpyIndex}
    (rest : List NpyIndex) {dim : Int} (e : NpyIndex) (hinv : BindInv dims st)
    (hread : readDim dims (st.result - st.n_new) = some dim)
    (hl : e.live = true) (hne : e ≠ .newaxis)
    (hb : 0 ≤ dim → isBoundEntry dim e = true)
    (hidx : idx ≠ .ellipsis) (hnew : idx ≠ .newaxis)
    (hcnt : count_non_new [idx] = some 1) :
    StepPost dims st idx rest (st.push e) := by
  have hc := bindInv_consumed hinv
  have h0 : countNewAxis [e] = 0 := by
    simp only [countNewAxis]
    exact List.count_eq_zero.2 (by simpa using hne.symm)
  have hr := (readDim_some_iff _ _ _).1 hread
  have h1 : countNewAxis [idx] = 0 := by
    simp only [countNewAxis]
    exact List.count_eq_zero.2 (by simpa using hnew.symm)
  refine ⟨[e], rfl, by simp [BindState.push, h0], by simpa using hl, by rw [h0, h1],
    ?_, ?_, ?_, ?_⟩
  · simp only [h0, List.length_singleton]
    omega
  · intro hd
    rw [hc, Int.toNat_ofNat] at hr
    obtain ⟨hlt, hget⟩ := List.getElem?_eq_some_iff.1 hr.2.2
    rw [List.drop_eq_getElem_cons hlt, isBoundList_cons _ _ _ _ hne, hget,
      hb (hd dim (hget ▸ List.getElem_mem hlt))]
    rfl
  · intro _
    simp [h0, hcnt]
  · intro h
    exact absurd h hidx

/-- The count of `count_non_new` is not negative. -/
theorem count_non_new_nonneg : ∀ (l : List NpyIndex) (m : Int),
    count_non_new l = some m → 0 ≤ m := by
  intro l
  induction l with
  | nil =>
    intro m h
    simp only [count_non_new, Option.some.injEq] at h
    omega
  | cons e l ih =>
    intro m h
    cases e with
    | newaxis => exact ih m h
    | bool_array a =>
      cases a with
      | none => simp [count_non_new] at h
      | some a =>
        simp only [count_non_new, Option.map_eq_some'] at h
        obtain ⟨r, hr, hm⟩ := h
        have := ih r hr
        have hnd : 0 ≤ a.nd := by simp [NpyArray.nd]
        omega
    | _ =>
      simp only [count_non_new, Option.map_eq_some'] at h
      obtain ⟨r, hr, hm⟩ := h
      have := ih r hr
      omega

/-- A list without `NewAxis` counts none. -/
theorem countNewAxis_eq_zero (w : List NpyIndex) (h : ∀ e ∈ w, e ≠ .newaxis) :
    countNewAxis w = 0 := by
  simp only [countNewAxis]
  exact List.count_eq_zero.2 (fun hmem => h _ hmem rfl)

/-- The number of full slices written. -/
theorem fullSlices_length (dims : List Int) (c k : Nat) (h : c + k ≤ dims.length) :
    (fullSlices dims c k).length = k := by
  simp only [fullSlices, List.length_map, List.length_take, List.length_drop]
  omega

/-- Every entry of a run of full slices is a slice. -/
theorem mem_fullSlices (dims : List Int) (c k : Nat) (e : NpyIndex)
    (h : e ∈ fullSlices dims c k) : ∃ d, e = .slice 0 d 1 := by
  simp only [fullSlices, List.mem_map] at h
  obtain ⟨d, _, hd⟩ := h
  exact ⟨d, hd.symm⟩

/-- Full slices over dimensions of size at least zero are bound entries. -/
theorem isBoundList_take_slices : ∀ (ds : List Int) (k : Nat), (∀ d ∈ ds, 0 ≤ d) →
    isBoundList ((ds.take k).map (fun d => NpyIndex.slice 0 d 1)) ds = true := by
  intro ds
  induction ds with
  | nil => intro k _; simp [isBoundList]
  | cons d ds ih =>
    intro k hd
    cases k with
    | zero => simp [isBoundList]
    | succ k =>
      have h0 : 0 ≤ d := hd d (List.mem_cons_self _ _)
      have := ih k (fun x hx => hd x (List.mem_cons_of_mem _ hx))
      simp only [List.take_succ_cons, List.map_cons, isBoundList, isBoundEntry, this,
        Bool.and_true, decide_eq_true_eq]
      omega

/-- Integer arrays are bound entries of any dimension. -/
theorem isBoundList_arrays : ∀ (l : List NpyArray) (ds : List Int), l.length ≤ ds.length →
    isBoundList (l.map (fun a => NpyIndex.intp_array (some a))) ds = true := by
  intro l
  induction l with
  | nil => intro ds _; simp [isBoundList]
  | cons a l ih =>
    intro ds h
    cases ds with
    | nil => simp at h
    | cons d ds =>
      have := ih ds (by simpa using h)
      simp [isBoundList, isBoundEntry, this]

/-- The success of the scalar case. -/
theorem bindScalar_ok {dims : List Int} {st st1 : BindState} {rc rc1 : RefCounts} {v : Int}
    (h : bindScalar dims st rc v = .ok st1 rc1) :
    ∃ dim val, readDim dims (st.result - st.n_new) = some dim ∧ 0 ≤ val ∧ val < dim ∧
      st1 = st.push (.intp val) ∧ rc1 = rc := by
  cases hread : readDim dims (st.result - st.n_new) with
  | none =>
    unfold bindScalar at h
    rw [hread] at h
    split at h
    · exact absurd h (deallocFail_ne_ok _ _ _ _ _)
    · simp at h
  | some dim =>
    rw [bindScalar_eq dims st rc dim v hread] at h
    split at h
    · rename_i hv
      simp only [Outcome.ok.injEq] at h
      refine ⟨dim, _, rfl, ?_, ?_, h.1.symm, h.2.symm⟩ <;> split_ifs <;> omega
    · simp at h

/-- The bound `start` of an open-stop slice lies in `[-1, dim]`. -/
theorem bindNoStopStart_bounds (dim start step : Int) (hdim : 0 ≤ dim) :
    -1 ≤ bindNoStopStart dim start step ∧ bindNoStopStart dim start step ≤ dim := by
  unfold bindNoStopStart
  simp only []
  split_ifs <;> omega

/-- Every successful round of the loop, started under the invariant, does what
`StepPost` says. -/
theorem bindEntry_stepPost {nz : NpyArray → Option (List NpyArray)} {dims : List Int}
    {st st1 : BindState} {rc rc1 : RefCounts} {idx : NpyIndex} (rest : List NpyIndex)
    (hinv : BindInv dims st) (h : bindEntry nz dims st rc idx rest = .ok st1 rc1) :
    StepPost dims st idx rest st1 := by
  cases idx with
  | intp v =>
    obtain ⟨dim, val, hread, h0, h1, hst, _⟩ :=
      bindScalar_ok (show bindScalar dims st rc v = _ from h)
    subst hst
    exact stepPost_single rest _ hinv hread rfl (by simp)
      (fun _ => by simp [isBoundEntry, h0, h1]) (by simp) (by simp) rfl
  | bool flag =>
    obtain ⟨dim, val, hread, h0, h1, hst, _⟩ :=
      bindScalar_ok (show bindScalar dims st rc (boolVal flag) = _ from h)
    subst hst
    exact stepPost_single rest _ hinv hread rfl (by simp)
      (fun _ => by simp [isBoundEntry, h0, h1]) (by simp) (by simp) rfl
  | slice start stop step =>
    simp only [bindEntry] at h
    split at h
    · exact absurd h (deallocFail_ne_ok _ _ _ _ _)
    · split at h
      · simp at h
      · rename_i dim hread
        simp only [Outcome.ok.injEq] at h
        obtain ⟨hst, _⟩ := h
        subst hst
        refine stepPost_single rest _ hinv hread rfl (by simp) (fun hd => ?_) (by simp) (by simp) rfl
        have hS := bindSliceStart_bounds dim start step hd
        have hE := bindSliceStop_bounds dim stop hd
        simp only [isBoundEntry, decide_eq_true_eq]
        rcases lt_or_le step 0 with hs | hs
        · have := hS.2 hs
          omega
        · have := hS.1 hs
          omega
  | slice_nostop start step =>
    simp only [bindEntry] at h
    split at h
    · exact absurd h (deallocFail_ne_ok _ _ _ _ _)
    · split at h
      · simp at h
      · rename_i dim hread
        simp only [Outcome.ok.injEq] at h
        obtain ⟨hst, _⟩ := h
        subst hst
        refine stepPost_single rest _ hinv hread rfl (by simp) (fun hd => ?_) (by simp) (by simp) rfl
        have hS := bindNoStopStart_bounds dim start step hd
        simp only [isBoundEntry, decide_eq_true_eq, bindNoStopStop]
        split_ifs <;> omega
  | string => simp [bindEntry] at h
  | ellipsis =>
    simp only [bindEntry] at h
    split at h
    · simp at h
    · rename_i m hm
      split at h
      · exact absurd h (deallocFail_ne_ok _ _ _ _ _)
      · rename_i hn2
        have hm0 := count_non_new_nonneg rest m hm
        have hc := bindInv_consumed hinv
        have hk : (st.out.length - countNewAxis st.out)
            + ((dims.length : Int) + st.n_new - m - st.result).toNat ≤ dims.length := by
          omega
        rw [fillSlices_spec dims rc _ st _ hc hk] at h
        simp only [Outcome.ok.injEq] at h
        obtain ⟨hst, _⟩ := h
        subst hst
        have hlen := fullSlices_length dims _ _ hk
        have hnone : ∀ e ∈ fullSlices dims (st.out.length - countNewAxis st.out)
            ((dims.length : Int) + st.n_new - m - st.result).toNat, e ≠ .newaxis := by
          intro e he
          obtain ⟨d, rfl⟩ := mem_fullSlices _ _ _ _ he
          simp
        have h0 := countNewAxis_eq_zero _ hnone
        refine ⟨_, rfl, by rw [h0]; simp, ?_, by rw [h0]; rfl, ?_, ?_, ?_, ?_⟩
        · intro e he
          obtain ⟨d, rfl⟩ := mem_fullSlices _ _ _ _ he
          rfl
        · rw [h0, hlen]
          omega
        · intro hd
          exact isBoundList_take_slices _ _ (fun d hmem => hd d (List.mem_of_mem_drop hmem))
        · intro hne
          exact absurd rfl hne
        · intro _
          rw [hm, hlen]
          congr 1
          omega
  | newaxis =>
    simp only [bindEntry, Outcome.ok.injEq] at h
    obtain ⟨hst, _⟩ := h
    subst hst
    have h1 : countNewAxis [NpyIndex.newaxis] = 1 := rfl
    refine ⟨[.newaxis], rfl, by simp [h1], by simp [NpyIndex.live], rfl, ?_, ?_, ?_, ?_⟩
    · have := hinv.2.2
      simp only [h1, List.length_singleton]
      omega
    · intro _
      simp [isBoundList]
    · intro _
      simp [h1, count_non_new]
    · intro hne
      simp at hne
  | intp_array a =>
    simp only [bindEntry] at h
    split at h
    · exact absurd h (deallocFail_ne_ok _ _ _ _ _)
    · rename_i hfull
      cases a with
      | none => simp at h
      | some arr =>
        simp only [Outcome.ok.injEq] at h
        obtain ⟨hst, _⟩ := h
        subst hst
        have hc := bindInv_consumed hinv
        have hread : readDim dims (st.result - st.n_new)
            = some (dims.getD (st.out.length - countNewAxis st.out) 0) := by
          rw [hc, readDim_natCast, List.getD_eq_getElem?_getD]
          have hlt : st.out.length - countNewAxis st.out < dims.length := by omega
          simp [List.getElem?_eq_getElem hlt]
        exact stepPost_single rest _ hinv hread rfl (by simp) (fun _ => rfl) (by simp) (by simp) rfl
  | bool_array a =>
    cases a with
    | none => simp [bindEntry] at h
    | some b =>
      simp only [bindEntry] at h
      split at h
      · exact absurd h (deallocFail_ne_ok _ _ _ _ _)
      · rename_i hfull
        split at h
        · exact absurd h (deallocFail_ne_ok _ _ _ _ _)
        · rename_i arrs harrs
          split at h
          · simp at h
          · rename_i hlen
            simp only [Outcome.ok.injEq] at h
            obtain ⟨hst, _⟩ := h
            subst hst
            have hc := bindInv_consumed hinv
            have hnd : b.nd = (b.dimensions.length : Int) := rfl
            have hnone : ∀ e ∈ (arrs.take b.nd.toNat).map
                (fun a => NpyIndex.intp_array (some a)), e ≠ .newaxis := by
              intro e he
              simp only [List.mem_map] at he
              obtain ⟨a, _, rfl⟩ := he
              simp
            have h0 := countNewAxis_eq_zero _ hnone
            have hwl : ((arrs.take b.nd.toNat).map
                (fun a => NpyIndex.intp_array (some a))).length = b.dimensions.length := by
              simp only [List.length_map, List.length_take]
              omega
            refine ⟨_, rfl, by rw [h0]; simp, ?_, by rw [h0]; rfl, ?_, ?_, ?_, ?_⟩
            · intro e he
              simp only [List.mem_map] at he
              obtain ⟨a, _, rfl⟩ := he
              rfl
            · rw [h0, hwl]
              omega
            · intro _
              apply isBoundList_arrays
              simp only [List.length_take, List.length_drop]
              omega
            · intro _
              rw [h0, hwl]
              simp [count_non_new, hnd]
            · intro hne
              simp at hne

/-- A list whose first entry needs a dimension is not bound over no
dimension. -/
theorem isBoundList_cons_nil (e : NpyIndex) (l : List NpyIndex) (hne : e ≠ .newaxis) :
    isBoundList (e :: l) [] = false := by
  cases e <;> first | rfl | exact absurd rfl hne

/-- A bound list stays bound when a run bound over the remaining dimensions is
appended. -/
theorem isBoundList_append : ∀ (l w : List NpyIndex) (dims : List Int),
    isBoundList l dims = true →
    isBoundList w (dims.drop (l.length - countNewAxis l)) = true →
    isBoundList (l ++ w) dims = true := by
  intro l
  induction l with
  | nil => intro w dims _ hw; simpa [countNewAxis] using hw
  | cons e l ih =>
    intro w dims hl hw
    have hle : countNewAxis l ≤ l.length := List.count_le_length _ _
    by_cases hne : e = .newaxis
    · subst hne
      have hcnt : countNewAxis (.newaxis :: l) = countNewAxis l + 1 := by
        simp [countNewAxis]
      rw [hcnt] at hw
      simp only [List.length_cons, Nat.add_sub_add_right] at hw
      simp only [List.cons_append, isBoundList] at hl ⊢
      exact ih w dims hl hw
    · have hcnt : countNewAxis (e :: l) = countNewAxis l := by
        simp only [countNewAxis]
        exact List.count_cons_of_ne (fun h => hne h.symm) _
      cases dims with
      | nil => rw [isBoundList_cons_nil e l hne] at hl; simp at hl
      | cons d ds =>
        rw [isBoundList_cons e l d ds hne, Bool.and_eq_true] at hl
        rw [hcnt] at hw
        have hsub : (e :: l).length - countNewAxis l = (l.length - countNewAxis l) + 1 := by
          simp only [List.length_cons]
          omega
        rw [hsub, List.drop_succ_cons] at hw
        rw [List.cons_append, isBoundList_cons e (l ++ w) d ds hne, Bool.and_eq_true]
        exact ⟨hl.1, ih w ds hl.2 hw⟩

/-- A successful round keeps the invariant, and keeps the list bound. -/
theorem stepPost_keeps {dims : List Int} {st st1 : BindState} {idx : NpyIndex}
    {rest : List NpyIndex} (hinv : BindInv dims st) (h : StepPost dims st idx rest st1) :
    BindInv dims st1 ∧
    st1.n_new = st.n_new + (countNewAxis [idx] : Int) ∧
    ((∀ d ∈ dims, 0 ≤ d) → isBoundList st.out dims = true →
      isBoundList st1.out dims = true) := by
  obtain ⟨w, hout, hnew, hlive, hcnt, hle, hbound, _, _⟩ := h
  refine ⟨⟨?_, ?_, ?_⟩, by rw [hnew, hcnt], ?_⟩
  · intro e he
    rw [hout, List.mem_append] at he
    exact he.elim (hinv.1 e) (hlive e)
  · rw [hnew, hout, hinv.2.1]
    simp [countNewAxis]
  · rw [hnew]
    simp only [BindState.result, hout, List.length_append, Nat.cast_add] at hle ⊢
    omega
  · intro hd hb
    rw [hout]
    exact isBoundList_append _ _ _ hb (hbound hd)

/-- A loop that succeeds on a non-empty list has succeeded on its first
entry. -/
theorem bindLoop_cons_ok {nz : NpyArray → Option (List NpyArray)} {dims : List Int}
    {st st1 : BindState} {rc rc1 : RefCounts} {idx : NpyIndex} {rest : List NpyIndex}
    (h : bindLoop nz dims st rc (idx :: rest) = .ok st1 rc1) :
    ∃ st2 rc2, bindEntry nz dims st rc idx rest = .ok st2 rc2 ∧
      bindLoop nz dims st2 rc2 rest = .ok st1 rc1 := by
  rw [bindLoop] at h
  split at h
  · rename_i st2 rc2 hstep
    exact ⟨st2, rc2, hstep, h⟩
  · simp at h
  · simp at h

/-- A loop that succeeds keeps the invariant, has counted the `NewAxis` entries
it has read, and has kept the list bound. -/
theorem bindLoop_ok_keeps (nz : NpyArray → Option (List NpyArray)) (dims : List Int) :
    ∀ (rest : List NpyIndex) (st st1 : BindState) (rc rc1 : RefCounts),
      BindInv dims st → bindLoop nz dims st rc rest = .ok st1 rc1 →
      BindInv dims st1 ∧
      st1.n_new = st.n_new + (countNewAxis rest : Int) ∧
      ((∀ d ∈ dims, 0 ≤ d) → isBoundList st.out dims = true →
        isBoundList st1.out dims = true) := by
  intro rest
  induction rest with
  | nil =>
    intro st st1 rc rc1 hinv h
    simp only [bindLoop, Outcome.ok.injEq] at h
    obtain ⟨rfl, _⟩ := h
    exact ⟨hinv, by simp [countNewAxis], fun _ hb => hb⟩
  | cons idx rest ih =>
    intro st st1 rc rc1 hinv h
    obtain ⟨st2, rc2, hstep, hloop⟩ := bindLoop_cons_ok h
    obtain ⟨hinv2, hnew2, hb2⟩ := stepPost_keeps hinv (bindEntry_stepPost rest hinv hstep)
    obtain ⟨hinv1, hnew1, hb1⟩ := ih st2 st1 rc2 rc1 hinv2 hloop
    refine ⟨hinv1, ?_, fun hd hb => hb1 hd (hb2 hd hb)⟩
    rw [hnew1, hnew2]
    have : countNewAxis (idx :: rest) = countNewAxis [idx] + countNewAxis rest := by
      simp only [countNewAxis]
      rw [← List.count_append]
      rfl
    rw [this]
    push_cast
    ring

/-- The invariant holds when the loop starts. -/
theorem bindInv_init (dims : List Int) : BindInv dims { out := [], n_new := 0 } := by
  refine ⟨by simp, by simp [countNewAxis], ?_⟩
  simp [BindState.result]

/-! ## Ellipsis expansion -/

/-- Only the ellipsis case looks at the rest of the list. -/
theorem bindEntry_rest (nz : NpyArray → Option (List NpyArray)) (dims : List Int)
    (st : BindState) (rc : RefCounts) (idx : NpyIndex) (r1 r2 : List NpyIndex)
    (h : idx ≠ .ellipsis) :
    bindEntry nz dims st rc idx r1 = bindEntry nz dims st rc idx r2 := by
  cases idx with
  | ellipsis => exact absurd rfl h
  | bool_array a => cases a <;> rfl
  | _ => rfl

/-- The loop over a prefix without ellipsis, followed by the loop over the
rest. -/
theorem bindLoop_append (nz : NpyArray → Option (List NpyArray)) (dims : List Int) :
    ∀ (pre : List NpyIndex) (st : BindState) (rc : RefCounts) (post : List NpyIndex),
      .ellipsis ∉ pre →
      bindLoop nz dims st rc (pre ++ post)
        = match bindLoop nz dims st rc pre with
          | .ok st1 rc1 => bindLoop nz dims st1 rc1 post
          | .error e rc1 => .error e rc1
          | .undefined => .undefined := by
  intro pre
  induction pre with
  | nil => intro st rc post _; rfl
  | cons idx pre ih =>
    intro st rc post hno
    have hidx : idx ≠ .ellipsis := fun h => hno (h ▸ List.mem_cons_self _ _)
    have hpre : .ellipsis ∉ pre := fun h => hno (List.mem_cons_of_mem _ h)
    rw [List.cons_append, bindLoop, bindLoop,
      bindEntry_rest nz dims st rc idx (pre ++ post) pre hidx]
    cases bindEntry nz dims st rc idx pre with
    | ok st2 rc2 => exact ih st2 rc2 post hpre
    | error e rc2 => rfl
    | undefined => rfl

/-- The entries of a run of full slices, one by one. -/
theorem fullSlices_getElem? (dims : List Int) (c k j : Nat) (hj : j < k)
    (h : c + k ≤ dims.length) :
    (fullSlices dims c k)[j]? = some (.slice 0 (dims.getD (c + j) 0) 1) := by
  have hlt : c + j < dims.length := by omega
  simp [fullSlices, List.getElem?_take, hj, List.getElem?_drop,
    List.getElem?_eq_getElem hlt, List.getD_eq_getElem?_getD]

/-- C5: let the entries before an ellipsis hold no ellipsis and be bound with
`c` source dimensions consumed, and let `m` be the count `count_non_new` gives
for the entries after it.  If `nd - c - m ≥ 0`, the binder goes on with the
rest of the list after having written, for the ellipsis, exactly `nd - c - m`
entries, the `j`-th being `Slice(0, dimensions[c + j], 1)`; if `nd - c - m < 0`
the call fails with `TooManyIndices`.  `[Integer(1), Ellipsis, Integer(0)]` on
sizes `[2,3,4,5]` binds to `[Integer(1), Slice(0,3,1), Slice(0,4,1),
Integer(0)]`. -/
theorem ellipsis_expands_to_full_slices (nz : NpyArray → Option (List NpyArray))
    (dims : List Int) (pre post : List NpyIndex) (rc0 rc : RefCounts) (st : BindState)
    (m : Int)
    (hpre : bindLoop nz dims { out := [], n_new := 0 } rc0 pre = .ok st rc)
    (hno : NpyIndex.ellipsis ∉ pre)
    (hm : count_non_new post = some m) :
    (0 ≤ (dims.length : Int) - (st.result - st.n_new) - m →
      NpyArray_IndexBind nz (pre ++ .ellipsis :: post) dims rc0
        = (bindLoop nz dims
            { out := st.out ++ fullSlices dims (st.result - st.n_new).toNat
                ((dims.length : Int) - (st.result - st.n_new) - m).toNat,
              n_new := st.n_new } rc post).map (fun s => s.out) ∧
      ((fullSlices dims (st.result - st.n_new).toNat
          ((dims.length : Int) - (st.result - st.n_new) - m).toNat).length : Int)
        = (dims.length : Int) - (st.result - st.n_new) - m ∧
      ∀ j : Nat, (j : Int) < (dims.length : Int) - (st.result - st.n_new) - m →
        (fullSlices dims (st.result - st.n_new).toNat
          ((dims.length : Int) - (st.result - st.n_new) - m).toNat)[j]?
          = some (.slice 0 (dims.getD ((st.result - st.n_new).toNat + j) 0) 1)) ∧
    ((dims.length : Int) - (st.result - st.n_new) - m < 0 →
      (NpyArray_IndexBind nz (pre ++ .ellipsis :: post) dims rc0).error?
        = some .TooManyIndices) ∧
    (NpyArray_IndexBind nz [.intp 1, .ellipsis, .intp 0] [2, 3, 4, 5] rc0).value?
      = some [.intp 1, .slice 0 3 1, .slice 0 4 1, .intp 0] := by
  have hinv := (bindLoop_ok_keeps nz dims pre _ st rc0 rc (bindInv_init dims) hpre).1
  have hc := bindInv_consumed hinv
  have hm0 := count_non_new_nonneg post m hm
  have hrun : bindLoop nz dims { out := [], n_new := 0 } rc0 (pre ++ .ellipsis :: post)
      = bindLoop nz dims st rc (.ellipsis :: post) := by
    rw [bindLoop_append nz dims pre _ rc0 _ hno, hpre]
  refine ⟨fun h0 => ?_, fun hneg => ?_, rfl⟩
  · have hk : (st.out.length - countNewAxis st.out)
        + ((dims.length : Int) - (st.result - st.n_new) - m).toNat ≤ dims.length := by
      omega
    have htoNat : (st.result - st.n_new).toNat = st.out.length - countNewAxis st.out := by
      omega
    refine ⟨?_, ?_, ?_⟩
    · have hn2 : (dims.length : Int) + st.n_new - m - st.result
          = (dims.length : Int) - (st.result - st.n_new) - m := by ring
      rw [NpyArray_IndexBind, hrun, bindLoop]
      simp only [bindEntry, hm, hn2, if_neg (not_lt.2 h0)]
      rw [htoNat, fillSlices_spec dims rc _ st _ hc hk]
    · rw [htoNat, fullSlices_length dims _ _ hk]
      omega
    · intro j hj
      rw [htoNat]
      exact fullSlices_getElem? dims _ _ j (by omega) hk
  · obtain ⟨rc1, hfail⟩ := deallocFail_error .TooManyIndices st rc hinv.1
    have hn2 : (dims.length : Int) + st.n_new - m - st.result < 0 := by omega
    rw [NpyArray_IndexBind, hrun, bindLoop]
    simp only [bindEntry, hm, if_pos hn2, hfail]
    rfl

/-- C5 for `[NewAxis, Integer(1), Ellipsis, Integer(0)]` on sizes `[2,3,4,5]`:
one dimension is consumed before the ellipsis, one entry follows it. -/
theorem ellipsis_expands_to_full_slices_witness :
    (0 ≤ (([2, 3, 4, 5] : List Int).length : Int)
        - (BindState.result ⟨[.newaxis, .intp 1], 1⟩ - 1) - 1 →
      NpyArray_IndexBind (fun _ => none) ([.newaxis, .intp 1] ++ .ellipsis :: [.intp 0])
          [2, 3, 4, 5] (fun _ => 0)
        = (bindLoop (fun _ => none) [2, 3, 4, 5]
            { out := [.newaxis, .intp 1] ++ fullSlices [2, 3, 4, 5]
                (BindState.result ⟨[.newaxis, .intp 1], 1⟩ - 1).toNat
                ((([2, 3, 4, 5] : List Int).length : Int)
                  - (BindState.result ⟨[.newaxis, .intp 1], 1⟩ - 1) - 1).toNat,
              n_new := 1 } (fun _ => 0) [.intp 0]).map (fun s => s.out) ∧
      ((fullSlices [2, 3, 4, 5] (BindState.result ⟨[.newaxis, .intp 1], 1⟩ - 1).toNat
          ((([2, 3, 4, 5] : List Int).length : Int)
            - (BindState.result ⟨[.newaxis, .intp 1], 1⟩ - 1) - 1).toNat).length : Int)
        = (([2, 3, 4, 5] : List Int).length : Int)
            - (BindState.result ⟨[.newaxis, .intp 1], 1⟩ - 1) - 1 ∧
      ∀ j : Nat, (j : Int) < (([2, 3, 4, 5] : List Int).length : Int)
          - (BindState.result ⟨[.newaxis, .intp 1], 1⟩ - 1) - 1 →
        (fullSlices [2, 3, 4, 5] (BindState.result ⟨[.newaxis, .intp 1], 1⟩ - 1).toNat
          ((([2, 3, 4, 5] : List Int).length : Int)
            - (BindState.result ⟨[.newaxis, .intp 1], 1⟩ - 1) - 1).toNat)[j]?
          = some (.slice 0 (([2, 3, 4, 5] : List Int).getD
              ((BindState.result ⟨[.newaxis, .intp 1], 1⟩ - 1).toNat + j) 0) 1)) ∧
    ((([2, 3, 4, 5] : List Int).length : Int)
        - (BindState.result ⟨[.newaxis, .intp 1], 1⟩ - 1) - 1 < 0 →
      (NpyArray_IndexBind (fun _ => none) ([.newaxis, .intp 1] ++ .ellipsis :: [.intp 0])
          [2, 3, 4, 5] (fun _ => 0)).error?
        = some .TooManyIndices) ∧
    (NpyArray_IndexBind (fun _ => none) [.intp 1, .ellipsis, .intp 0] [2, 3, 4, 5]
        (fun _ => 0)).value?
      = some [.intp 1, .slice 0 3 1, .slice 0 4 1, .intp 0] :=
  ellipsis_expands_to_full_slices (fun _ => none) [2, 3, 4, 5] [.newaxis, .intp 1]
    [.intp 0] (fun _ => 0) (fun _ => 0) ⟨[.newaxis, .intp 1], 1⟩ 1 rfl (by decide) rfl

/-! ## The number of entries written -/

/-- The count of a list is the count of its first entry plus the count of the
rest. -/
theorem count_non_new_cons (idx : NpyIndex) (rest : List NpyIndex) (a : Int)
    (h : count_non_new [idx] = some a) :
    count_non_new (idx :: rest) = (count_non_new rest).map (fun r => a + r) := by
  cases idx with
  | newaxis =>
    simp only [count_non_new, Option.some.injEq] at h ⊢
    subst h
    cases count_non_new rest <;> simp
  | bool_array b =>
    cases b with
    | none => simp [count_non_new] at h
    | some b =>
      simp only [count_non_new, Option.map_some', Option.some.injEq] at h ⊢
      subst h
      cases count_non_new rest <;> simp
  | _ =>
    simp only [count_non_new, Option.map_some', Option.some.injEq] at h ⊢
    subst h
    cases count_non_new rest <;> simp

/-- The source dimensions consumed after a successful round. -/
theorem stepPost_consumed {dims : List Int} {st st1 : BindState} {idx : NpyIndex}
    {rest : List NpyIndex} (h : StepPost dims st idx rest st1) :
    (idx ≠ .ellipsis → ∃ a, count_non_new [idx] = some a ∧
      st1.result - st1.n_new = st.result - st.n_new + a) ∧
    (idx = .ellipsis → ∃ r, count_non_new rest = some r ∧
      st1.result - st1.n_new + r = (dims.length : Int)) := by
  obtain ⟨w, hout, hnew, _, hcnt, _, _, hne, hell⟩ := h
  have hres : st1.result = st.result + (w.length : Int) := by
    simp [BindState.result, hout]
  constructor
  · intro hidx
    exact ⟨_, hne hidx, by rw [hres, hnew]; ring⟩
  · intro hidx
    refine ⟨_, hell hidx, ?_⟩
    have h0 : countNewAxis w = 0 := by rw [hcnt, hidx]; rfl
    rw [hres, hnew, h0]
    push_cast
    ring

/-- Once the dimensions still free are exactly those the rest of the list
needs, a loop that succeeds ends with every source dimension consumed. -/
theorem bindLoop_ok_exact (nz : NpyArray → Option (List NpyArray)) (dims : List Int) :
    ∀ (rest : List NpyIndex) (st st1 : BindState) (rc rc1 : RefCounts) (m : Int),
      BindInv dims st → count_non_new rest = some m →
      st.result - st.n_new + m = (dims.length : Int) →
      bindLoop nz dims st rc rest = .ok st1 rc1 →
      st1.result - st1.n_new = (dims.length : Int) := by
  intro rest
  induction rest with
  | nil =>
    intro st st1 rc rc1 m _ hm hsum h
    simp only [bindLoop, Outcome.ok.injEq] at h
    obtain ⟨rfl, _⟩ := h
    simp only [count_non_new, Option.some.injEq] at hm
    omega
  | cons idx rest ih =>
    intro st st1 rc rc1 m hinv hm hsum h
    obtain ⟨st2, rc2, hstep, hloop⟩ := bindLoop_cons_ok h
    have hpost := bindEntry_stepPost rest hinv hstep
    have hinv2 := (stepPost_keeps hinv hpost).1
    by_cases hidx : idx = .ellipsis
    · obtain ⟨r, hr, hsum2⟩ := (stepPost_consumed hpost).2 hidx
      exact ih st2 st1 rc2 rc1 r hinv2 hr hsum2 hloop
    · obtain ⟨a, ha, hc2⟩ := (stepPost_consumed hpost).1 hidx
      rw [count_non_new_cons idx rest a ha, Option.map_eq_some'] at hm
      obtain ⟨r, hr, hmr⟩ := hm
      exact ih st2 st1 rc2 rc1 r hinv2 hr (by omega) hloop

/-- A loop that succeeds on a list holding an ellipsis ends with every source
dimension consumed. -/
theorem bindLoop_ok_ellipsis (nz : NpyArray → Option (List NpyArray)) (dims : List Int) :
    ∀ (rest : List NpyIndex) (st st1 : BindState) (rc rc1 : RefCounts),
      BindInv dims st → NpyIndex.ellipsis ∈ rest →
      bindLoop nz dims st rc rest = .ok st1 rc1 →
      st1.result - st1.n_new = (dims.length : Int) := by
  intro rest
  induction rest with
  | nil => intro st st1 rc rc1 _ hmem; simp at hmem
  | cons idx rest ih =>
    intro st st1 rc rc1 hinv hmem h
    obtain ⟨st2, rc2, hstep, hloop⟩ := bindLoop_cons_ok h
    have hpost := bindEntry_stepPost rest hinv hstep
    have hinv2 := (stepPost_keeps hinv hpost).1
    by_cases hidx : idx = .ellipsis
    · obtain ⟨r, hr, hsum2⟩ := (stepPost_consumed hpost).2 hidx
      exact bindLoop_ok_exact nz dims rest st2 st1 rc2 rc1 r hinv2 hr hsum2 hloop
    · have hmem2 : NpyIndex.ellipsis ∈ rest := by
        rcases List.mem_cons.1 hmem with h1 | h1
        · exact absurd h1.symm hidx
        · exact h1
      exact ih st2 st1 rc2 rc1 hinv2 hmem2 hloop

/-- A loop that succeeds on a list without ellipsis has consumed the source
dimensions `count_non_new` counts. -/
theorem bindLoop_ok_plain (nz : NpyArray → Option (List NpyArray)) (dims : List Int) :
    ∀ (rest : List NpyIndex) (st st1 : BindState) (rc rc1 : RefCounts),
      BindInv dims st → NpyIndex.ellipsis ∉ rest →
      bindLoop nz dims st rc rest = .ok st1 rc1 →
      ∃ m, count_non_new rest = some m ∧
        st1.result - st1.n_new = st.result - st.n_new + m := by
  intro rest
  induction rest with
  | nil =>
    intro st st1 rc rc1 _ _ h
    simp only [bindLoop, Outcome.ok.injEq] at h
    obtain ⟨rfl, _⟩ := h
    exact ⟨0, rfl, by omega⟩
  | cons idx rest ih =>
    intro st st1 rc rc1 hinv hno h
    obtain ⟨st2, rc2, hstep, hloop⟩ := bindLoop_cons_ok h
    have hpost := bindEntry_stepPost rest hinv hstep
    have hinv2 := (stepPost_keeps hinv hpost).1
    have hidx : idx ≠ .ellipsis := fun h => hno (h ▸ List.mem_cons_self _ _)
    obtain ⟨a, ha, hc2⟩ := (stepPost_consumed hpost).1 hidx
    obtain ⟨m, hm, hc1⟩ := ih st2 st1 rc2 rc1 hinv2
      (fun h => hno (List.mem_cons_of_mem _ h)) hloop
    exact ⟨a + m, by rw [count_non_new_cons idx rest a ha, hm]; rfl, by omega⟩

/-- A successful call is a successful loop from the initial state. -/
theorem IndexBind_ok {nz : NpyArray → Option (List NpyArray)} {indexes : List NpyIndex}
    {dims : List Int} {rc rc1 : RefCounts} {out : List NpyIndex}
    (h : NpyArray_IndexBind nz indexes dims rc = .ok out rc1) :
    ∃ st, bindLoop nz dims { out := [], n_new := 0 } rc indexes = .ok st rc1 ∧
      st.out = out := by
  unfold NpyArray_IndexBind at h
  cases hl : bindLoop nz dims { out := [], n_new := 0 } rc indexes with
  | ok st rc2 =>
    rw [hl] at h
    simp only [Outcome.map, Outcome.ok.injEq] at h
    exact ⟨st, by rw [h.2], h.1⟩
  | error e rc2 => rw [hl] at h; simp [Outcome.map] at h
  | undefined => rw [hl] at h; simp [Outcome.map] at h

/-- C6, as the claim states it, fails: `[Integer(0)]` binds against the sizes
`[2, 3]` to a list of one entry, while the rank plus the number of `NewAxis`
entries is two. -/
theorem IndexBind_length_counterexample :
    ¬ ∀ (nz : NpyArray → Option (List NpyArray)) (indexes : List NpyIndex)
        (dims : List Int) (rc rc1 : RefCounts) (out : List NpyIndex),
        NpyArray_IndexBind nz indexes dims rc = .ok out rc1 →
        (out.length : Int) = (dims.length : Int) + (countNewAxis indexes : Int) := by
  intro h
  have := h (fun _ => none) [.intp 0] [2, 3] (fun _ => 0) (fun _ => 0) [.intp 0] rfl
  simp [countNewAxis] at this

/-- C6, amended: when `NpyArray_IndexBind` succeeds, the number of entries it
has written is at most the rank plus the number of `NewAxis` entries of the
input; it is equal to it when the input holds an ellipsis, and without ellipsis
it is the number of `NewAxis` entries plus the count `count_non_new` gives for
the input. -/
theorem IndexBind_length (nz : NpyArray → Option (List NpyArray))
    (indexes : List NpyIndex) (dims : List Int) (rc rc1 : RefCounts)
    (out : List NpyIndex)
    (h : NpyArray_IndexBind nz indexes dims rc = .ok out rc1) :
    (out.length : Int) ≤ (dims.length : Int) + (countNewAxis indexes : Int) ∧
    (NpyIndex.ellipsis ∈ indexes →
      (out.length : Int) = (dims.length : Int) + (countNewAxis indexes : Int)) ∧
    (NpyIndex.ellipsis ∉ indexes →
      ∃ m, count_non_new indexes = some m ∧
        (out.length : Int) = m + (countNewAxis indexes : Int)) := by
  obtain ⟨st, hloop, rfl⟩ := IndexBind_ok h
  obtain ⟨hinv, hnew, _⟩ := bindLoop_ok_keeps nz dims indexes _ st rc rc1 (bindInv_init dims) hloop
  have hle := hinv.2.2
  simp only [BindState.result, zero_add] at hle hnew
  refine ⟨by omega, fun hmem => ?_, fun hno => ?_⟩
  · have := bindLoop_ok_ellipsis nz dims indexes _ st rc rc1 (bindInv_init dims) hmem hloop
    simp only [BindState.result] at this
    omega
  · obtain ⟨m, hm, hc⟩ := bindLoop_ok_plain nz dims indexes _ st rc rc1 (bindInv_init dims)
      hno hloop
    simp only [BindState.result, List.length_nil, Nat.cast_zero, sub_self, zero_add] at hc
    exact ⟨m, hm, by omega⟩

/-- C6, amended, for `[NewAxis, Ellipsis, Integer(-1)]` on sizes `[2, 3, 4]`. -/
theorem IndexBind_length_witness :
    (([.newaxis, .slice 0 2 1, .slice 0 3 1, .intp 3] : List NpyIndex).length : Int)
      ≤ (([2, 3, 4] : List Int).length : Int)
        + (countNewAxis [.newaxis, .ellipsis, .intp (-1)] : Int) ∧
    (NpyIndex.ellipsis ∈ [NpyIndex.newaxis, .ellipsis, .intp (-1)] →
      (([.newaxis, .slice 0 2 1, .slice 0 3 1, .intp 3] : List NpyIndex).length : Int)
        = (([2, 3, 4] : List Int).length : Int)
          + (countNewAxis [.newaxis, .ellipsis, .intp (-1)] : Int)) ∧
    (NpyIndex.ellipsis ∉ [NpyIndex.newaxis, .ellipsis, .intp (-1)] →
      ∃ m, count_non_new [.newaxis, .ellipsis, .intp (-1)] = some m ∧
        (([.newaxis, .slice 0 2 1, .slice 0 3 1, .intp 3] : List NpyIndex).length : Int)
          = m + (countNewAxis [.newaxis, .ellipsis, .intp (-1)] : Int)) :=
  IndexBind_length (fun _ => none) [.newaxis, .ellipsis, .intp (-1)] [2, 3, 4]
    (fun _ => 0) (fun _ => 0) [.newaxis, .slice 0 2 1, .slice 0 3 1, .intp 3] rfl

/-! ## The output is a bound index list -/

/-- In a bound list the `j`-th entry other than `NewAxis` is a bound entry for
dimension `j`. -/
theorem isBoundList_entries : ∀ (l : List NpyIndex) (dims : List Int),
    isBoundList l dims = true →
    ∀ (j : Nat) (e : NpyIndex), (l.filter (fun x => x != .newaxis))[j]? = some e →
      ∃ dim, dims[j]? = some dim ∧ isBoundEntry dim e = true := by
  intro l
  induction l with
  | nil => intro dims _ j e h; simp at h
  | cons x l ih =>
    intro dims hb j e h
    by_cases hx : x = .newaxis
    · subst hx
      simp only [isBoundList] at hb
      have hf : (NpyIndex.newaxis :: l).filter (fun x => x != .newaxis)
          = l.filter (fun x => x != .newaxis) := by simp
      rw [hf] at h
      exact ih dims hb j e h
    · have hf : (x :: l).filter (fun x => x != .newaxis)
          = x :: l.filter (fun x => x != .newaxis) := by simp [hx]
      rw [hf] at h
      cases dims with
      | nil => rw [isBoundList_cons_nil x l hx] at hb; simp at hb
      | cons d ds =>
        rw [isBoundList_cons x l d ds hx, Bool.and_eq_true] at hb
        cases j with
        | zero =>
          simp only [List.getElem?_cons_zero, Option.some.injEq] at h
          subst h
          exact ⟨d, by simp, hb.1⟩
        | succ j =>
          simp only [List.getElem?_cons_succ] at h
          obtain ⟨dim, hd, he⟩ := ih ds hb.2 j e h
          exact ⟨dim, by simpa using hd, he⟩

/-- C7: when `NpyArray_IndexBind` succeeds against dimension sizes that are all
at least zero, its output is a bound index list: every entry is a `NewAxis`, or
it is an `Integer` with value in `[0, dim)`, a `Slice` with `start` and `stop`
in `[-1, dim]`, or an `IntegerArray`, where `dim` is the size of dimension `j`
for the `j`-th entry other than `NewAxis`. -/
theorem IndexBind_output_is_bound (nz : NpyArray → Option (List NpyArray))
    (indexes : List NpyIndex) (dims : List Int) (rc rc1 : RefCounts)
    (out : List NpyIndex) (hdims : ∀ d ∈ dims, 0 ≤ d)
    (h : NpyArray_IndexBind nz indexes dims rc = .ok out rc1) :
    isBoundList out dims = true ∧
    ∀ (j : Nat) (e : NpyIndex), (out.filter (fun x => x != .newaxis))[j]? = some e →
      ∃ dim, dims[j]? = some dim ∧ isBoundEntry dim e = true := by
  obtain ⟨st, hloop, rfl⟩ := IndexBind_ok h
  have hb := (bindLoop_ok_keeps nz dims indexes _ st rc rc1 (bindInv_init dims) hloop).2.2
    hdims rfl
  exact ⟨hb, isBoundList_entries st.out dims hb⟩

/-- C7 for `[Slice(-1, -100, -1), NewAxis, Boolean(true), Ellipsis]` on sizes
`[5, 2, 3]`. -/
theorem IndexBind_output_is_bound_witness :
    isBoundList [.slice 4 (-1) (-1), .newaxis, .intp 1, .slice 0 3 1] [5, 2, 3] = true ∧
    ∀ (j : Nat) (e : NpyIndex),
      (([.slice 4 (-1) (-1), .newaxis, .intp 1, .slice 0 3 1] : List NpyIndex).filter
        (fun x => x != .newaxis))[j]? = some e →
      ∃ dim, ([5, 2, 3] : List Int)[j]? = some dim ∧ isBoundEntry dim e = true :=
  IndexBind_output_is_bound (fun _ => none)
    [.slice (-1) (-100) (-1), .newaxis, .bool true, .ellipsis] [5, 2, 3]
    (fun _ => 0) (fun _ => 0) [.slice 4 (-1) (-1), .newaxis, .intp 1, .slice 0 3 1]
    (by decide) rfl

/-! ## Too many indices -/

/-- The count of a list without `NULL` handle is defined. -/
theorem count_non_new_defined : ∀ (l : List NpyIndex), (∀ e ∈ l, e.live = true) →
    ∃ m, count_non_new l = some m := by
  intro l
  induction l with
  | nil => intro _; exact ⟨0, rfl⟩
  | cons e l ih =>
    intro hl
    obtain ⟨m, hm⟩ := ih (fun x hx => hl x (List.mem_cons_of_mem _ hx))
    have he := hl e (List.mem_cons_self _ _)
    cases e with
    | bool_array a =>
      cases a with
      | none => simp [NpyIndex.live] at he
      | some a => exact ⟨_, by simp only [count_non_new, hm]; rfl⟩
    | newaxis => exact ⟨m, by simp [count_non_new, hm]⟩
    | _ => exact ⟨_, by simp only [count_non_new, hm]; rfl⟩

/-- Under the invariant, past the "too many indices" test `dimensions` can be
read, and what is read is one of the sizes. -/
theorem readDim_of_not_full {dims : List Int} {st : BindState} (hinv : BindInv dims st)
    (h : ¬ st.result ≥ (dims.length : Int) + st.n_new) :
    ∃ dim, readDim dims (st.result - st.n_new) = some dim ∧ dim ∈ dims := by
  have hc := bindInv_consumed hinv
  have hlt : st.out.length - countNewAxis st.out < dims.length := by omega
  refine ⟨dims[st.out.length - countNewAxis st.out], ?_, List.getElem_mem hlt⟩
  rw [hc, readDim_natCast, List.getElem?_eq_getElem hlt]

/-- A round of the loop on a well-formed entry other than a string succeeds,
or fails with `TooManyIndices`, or fails with `InvalidIndex` on a scalar that
is out of range for one of the sizes. -/
theorem bindEntry_outcomes (nz : NpyArray → Option (List NpyArray)) (dims : List Int)
    (st : BindState) (rc : RefCounts) (idx : NpyIndex) (rest : List NpyIndex)
    (hinv : BindInv dims st) (hstr : idx ≠ .string) (hlive : idx.live = true)
    (hrest : ∀ e ∈ rest, e.live = true) (hnz : finderSucceeds nz idx) :
    (∃ st1 rc1, bindEntry nz dims st rc idx rest = .ok st1 rc1) ∨
    (∃ rc1, bindEntry nz dims st rc idx rest = .error .TooManyIndices rc1) ∨
    (∃ rc1, bindEntry nz dims st rc idx rest = .error .InvalidIndex rc1 ∧
      ∃ v, scalarVal idx = some v ∧ ∃ d ∈ dims, ¬ (-d ≤ v ∧ v < d)) := by
  have hfail := deallocFail_error .TooManyIndices st rc hinv.1
  have hscalar : ∀ v, scalarVal idx = some v →
      bindEntry nz dims st rc idx rest = bindScalar dims st rc v →
      (∃ st1 rc1, bindEntry nz dims st rc idx rest = .ok st1 rc1) ∨
      (∃ rc1, bindEntry nz dims st rc idx rest = .error .TooManyIndices rc1) ∨
      (∃ rc1, bindEntry nz dims st rc idx rest = .error .InvalidIndex rc1 ∧
        ∃ v, scalarVal idx = some v ∧ ∃ d ∈ dims, ¬ (-d ≤ v ∧ v < d)) := by
    intro v hv heq
    rw [heq]
    by_cases hfull : st.result ≥ (dims.length : Int) + st.n_new
    · right; left
      obtain ⟨rc1, h1⟩ := hfail
      exact ⟨rc1, by rw [bindScalar, if_pos hfull, h1]⟩
    · obtain ⟨dim, hread, hmem⟩ := readDim_of_not_full hinv hfull
      rw [bindScalar_eq dims st rc dim v hread]
      by_cases hr : -dim ≤ v ∧ v < dim
      · left; exact ⟨_, _, by rw [if_pos hr]⟩
      · right; right
        exact ⟨rc, by rw [if_neg hr], v, hv, dim, hmem, hr⟩
  cases idx with
  | string => exact absurd rfl hstr
  | intp v => exact hscalar v rfl rfl
  | bool flag => exact hscalar (boolVal flag) rfl rfl
  | newaxis => left; exact ⟨_, _, rfl⟩
  | slice start stop step =>
    by_cases hfull : st.result ≥ (dims.length : Int) + st.n_new
    · right; left
      obtain ⟨rc1, h1⟩ := hfail
      exact ⟨rc1, by simp only [bindEntry, if_pos hfull, h1]⟩
    · obtain ⟨dim, hread, _⟩ := readDim_of_not_full hinv hfull
      left
      exact ⟨_, _, by simp only [bindEntry, if_neg hfull, hread]; rfl⟩
  | slice_nostop start step =>
    by_cases hfull : st.result ≥ (dims.length : Int) + st.n_new
    · right; left
      obtain ⟨rc1, h1⟩ := hfail
      exact ⟨rc1, by simp only [bindEntry, if_pos hfull, h1]⟩
    · obtain ⟨dim, hread, _⟩ := readDim_of_not_full hinv hfull
      left
      exact ⟨_, _, by simp only [bindEntry, if_neg hfull, hread]; rfl⟩
  | intp_array a =>
    cases a with
    | none => simp [NpyIndex.live] at hlive
    | some arr =>
      by_cases hfull : st.result ≥ (dims.length : Int) + st.n_new
      · right; left
        obtain ⟨rc1, h1⟩ := hfail
        exact ⟨rc1, by simp only [bindEntry, if_pos hfull, h1]⟩
      · left
        exact ⟨_, _, by simp only [bindEntry, if_neg hfull]; rfl⟩
  | bool_array a =>
    cases a with
    | none => simp [NpyIndex.live] at hlive
    | some b =>
      obtain ⟨arrs, harrs, hlen⟩ := hnz b rfl
      by_cases hfull : st.result + b.nd ≥ (dims.length : Int) + st.n_new
      · right; left
        obtain ⟨rc1, h1⟩ := hfail
        exact ⟨rc1, by simp only [bindEntry, if_pos hfull, h1]⟩
      · left
        exact ⟨_, _, by simp only [bindEntry, if_neg hfull, harrs, if_neg (not_lt.2 hlen)]; rfl⟩
  | ellipsis =>
    obtain ⟨m, hm⟩ := count_non_new_defined rest hrest
    have hm0 := count_non_new_nonneg rest m hm
    have hc := bindInv_consumed hinv
    by_cases hn2 : (dims.length : Int) + st.n_new - m - st.result < 0
    · right; left
      obtain ⟨rc1, h1⟩ := hfail
      exact ⟨rc1, by simp only [bindEntry, hm, if_pos hn2, h1]⟩
    · left
      have hk : (st.out.length - countNewAxis st.out)
          + ((dims.length : Int) + st.n_new - m - st.result).toNat ≤ dims.length := by
        omega
      exact ⟨_, _, by
        simp only [bindEntry, hm, if_neg hn2]
        exact fillSlices_spec dims rc _ st _ hc hk⟩

/-- The loop on a well-formed list without string succeeds, or fails with
`TooManyIndices`, or fails with `InvalidIndex` on a scalar of the list that is
out of range for one of the sizes. -/
theorem bindLoop_outcomes (nz : NpyArray → Option (List NpyArray)) (dims : List Int) :
    ∀ (rest : List NpyIndex) (st : BindState) (rc : RefCounts),
      BindInv dims st → NpyIndex.string ∉ rest → (∀ e ∈ rest, e.live = true) →
      (∀ e ∈ rest, finderSucceeds nz e) →
      (∃ st1 rc1, bindLoop nz dims st rc rest = .ok st1 rc1) ∨
      (∃ rc1, bindLoop nz dims st rc rest = .error .TooManyIndices rc1) ∨
      (∃ rc1, bindLoop nz dims st rc rest = .error .InvalidIndex rc1 ∧
        ∃ e ∈ rest, ∃ v, scalarVal e = some v ∧ ∃ d ∈ dims, ¬ (-d ≤ v ∧ v < d)) := by
  intro rest
  induction rest with
  | nil => intro st rc _ _ _ _; left; exact ⟨st, rc, rfl⟩
  | cons idx rest ih =>
    intro st rc hinv hstr hlive hnz
    have hstr1 : idx ≠ .string := fun h => hstr (h ▸ List.mem_cons_self _ _)
    have hrest : ∀ e ∈ rest, e.live = true := fun e he => hlive e (List.mem_cons_of_mem _ he)
    rcases bindEntry_outcomes nz dims st rc idx rest hinv hstr1
        (hlive idx (List.mem_cons_self _ _)) hrest (hnz idx (List.mem_cons_self _ _)) with
      ⟨st2, rc2, h2⟩ | ⟨rc2, h2⟩ | ⟨rc2, h2, v, hv, d, hd, hr⟩
    · have hinv2 := (stepPost_keeps hinv (bindEntry_stepPost rest hinv h2)).1
      rcases ih st2 rc2 hinv2 (fun h => hstr (List.mem_cons_of_mem _ h)) hrest
          (fun e he => hnz e (List.mem_cons_of_mem _ he)) with
        ⟨st1, rc1, h1⟩ | ⟨rc1, h1⟩ | ⟨rc1, h1, e, he, hrange⟩
      · left; exact ⟨st1, rc1, by rw [bindLoop, h2]; exact h1⟩
      · right; left; exact ⟨rc1, by rw [bindLoop, h2]; exact h1⟩
      · right; right
        exact ⟨rc1, by rw [bindLoop, h2]; exact h1, e, List.mem_cons_of_mem _ he, hrange⟩
    · right; left; exact ⟨rc2, by rw [bindLoop, h2]⟩
    · right; right
      exact ⟨rc2, by rw [bindLoop, h2], idx, List.mem_cons_self _ _, v, hv, d, hd, hr⟩

/-- The count of the entries that are neither `Ellipsis` nor `NewAxis`, by
first entry. -/
theorem countConsuming_cons (idx : NpyIndex) (rest : List NpyIndex) :
    (idx = .ellipsis → countConsuming (idx :: rest) = countConsuming rest) ∧
    (∀ a, idx ≠ .ellipsis → count_non_new [idx] = some a →
      countConsuming (idx :: rest) = a + countConsuming rest) := by
  constructor
  · intro h
    subst h
    rfl
  · intro a hne h
    cases idx with
    | ellipsis => exact absurd rfl hne
    | bool_array b =>
      cases b with
      | none => simp [count_non_new] at h
      | some b =>
        simp only [count_non_new, Option.map_some', Option.some.injEq] at h
        subst h
        simp [countConsuming]
    | newaxis =>
      simp only [count_non_new, Option.some.injEq] at h
      subst h
      simp [countConsuming]
    | _ =>
      simp only [count_non_new, Option.map_some', Option.some.injEq] at h
      subst h
      simp [countConsuming]

/-- A successful round does not give back a source dimension. -/
theorem stepPost_mono {dims : List Int} {st st1 : BindState} {idx : NpyIndex}
    {rest : List NpyIndex} (h : StepPost dims st idx rest st1) :
    st.result - st.n_new ≤ st1.result - st1.n_new := by
  obtain ⟨w, hout, hnew, _, _, _, _, _, _⟩ := h
  have hle : countNewAxis w ≤ w.length := List.count_le_length _ _
  simp only [BindState.result, hout, hnew, List.length_append, Nat.cast_add]
  omega

/-- A loop that succeeds had room for every entry that is neither `Ellipsis`
nor `NewAxis`. -/
theorem bindLoop_ok_room (nz : NpyArray → Option (List NpyArray)) (dims : List Int) :
    ∀ (rest : List NpyIndex) (st st1 : BindState) (rc rc1 : RefCounts),
      BindInv dims st → bindLoop nz dims st rc rest = .ok st1 rc1 →
      st.result - st.n_new + countConsuming rest ≤ (dims.length : Int) := by
  intro rest
  induction rest with
  | nil =>
    intro st st1 rc rc1 hinv _
    have := hinv.2.2
    simp only [countConsuming]
    omega
  | cons idx rest ih =>
    intro st st1 rc rc1 hinv h
    obtain ⟨st2, rc2, hstep, hloop⟩ := bindLoop_cons_ok h
    have hpost := bindEntry_stepPost rest hinv hstep
    have hroom := ih st2 st1 rc2 rc1 (stepPost_keeps hinv hpost).1 hloop
    by_cases hidx : idx = .ellipsis
    · rw [(countConsuming_cons idx rest).1 hidx]
      have := stepPost_mono hpost
      omega
    · obtain ⟨a, ha, hc2⟩ := (stepPost_consumed hpost).1 hidx
      rw [(countConsuming_cons idx rest).2 a hidx ha]
      omega

/-- The failure path sets the error it is called with. -/
theorem deallocFail_error_kind {e e1 : IndexError} {st : BindState} {rc rc1 : RefCounts}
    (h : deallocFail e st rc = .error e1 rc1) : e1 = e := by
  unfold deallocFail at h
  split at h
  · simp only [Outcome.error.injEq] at h
    exact h.1.symm
  · simp at h

/-- The fill loop of the ellipsis case sets no error. -/
theorem fillSlices_no_error (dims : List Int) (rc rc1 : RefCounts) (e : IndexError) :
    ∀ (k : Nat) (st : BindState), fillSlices dims rc k st ≠ .error e rc1 := by
  intro k
  induction k with
  | zero => intro st; simp [fillSlices]
  | succ k ih =>
    intro st
    rw [fillSlices]
    split
    · simp
    · exact ih _

/-- A round that fails with `InvalidIndex` has read a scalar that is out of
range, after wraparound, for the source dimension in turn. -/
theorem bindEntry_invalid_reads {nz : NpyArray → Option (List NpyArray)} {dims : List Int}
    {st : BindState} {rc rc1 : RefCounts} {idx : NpyIndex} {rest : List NpyIndex}
    (h : bindEntry nz dims st rc idx rest = .error .InvalidIndex rc1) :
    ∃ v d, scalarVal idx = some v ∧ readDim dims (st.result - st.n_new) = some d ∧
      ¬ (-d ≤ v ∧ v < d) := by
  have hscalar : ∀ v, bindScalar dims st rc v = .error .InvalidIndex rc1 →
      ∃ d, readDim dims (st.result - st.n_new) = some d ∧ ¬ (-d ≤ v ∧ v < d) := by
    intro v hv
    by_cases hfull : st.result ≥ (dims.length : Int) + st.n_new
    · rw [bindScalar, if_pos hfull] at hv
      exact absurd (deallocFail_error_kind hv) (by decide)
    · cases hread : readDim dims (st.result - st.n_new) with
      | none => simp [bindScalar, if_neg hfull, hread] at hv
      | some d =>
        rw [bindScalar_eq dims st rc d v hread] at hv
        by_cases hr : -d ≤ v ∧ v < d
        · rw [if_pos hr] at hv
          simp at hv
        · exact ⟨d, rfl, hr⟩
  cases idx with
  | intp v =>
    obtain ⟨d, hd, hr⟩ := hscalar v h
    exact ⟨v, d, rfl, hd, hr⟩
  | bool flag =>
    obtain ⟨d, hd, hr⟩ := hscalar (boolVal flag) h
    exact ⟨boolVal flag, d, rfl, hd, hr⟩
  | string => simp [bindEntry] at h
  | newaxis => simp [bindEntry] at h
  | ellipsis =>
    simp only [bindEntry] at h
    split at h
    · simp at h
    · split_ifs at h
      · exact absurd (deallocFail_error_kind h) (by decide)
      · exact absurd h (fillSlices_no_error _ _ _ _ _ _)
  | slice start stop step =>
    simp only [bindEntry] at h
    split_ifs at h
    · exact absurd (deallocFail_error_kind h) (by decide)
    · split at h <;> simp at h
  | slice_nostop start step =>
    simp only [bindEntry] at h
    split_ifs at h
    · exact absurd (deallocFail_error_kind h) (by decide)
    · split at h <;> simp at h
  | intp_array a =>
    simp only [bindEntry] at h
    split_ifs at h
    · exact absurd (deallocFail_error_kind h) (by decide)
    · split at h <;> simp at h
  | bool_array a =>
    cases a with
    | none => simp [bindEntry] at h
    | some b =>
      simp only [bindEntry] at h
      split_ifs at h
      · exact absurd (deallocFail_error_kind h) (by decide)
      · split at h
        · exact absurd (deallocFail_error_kind h) (by decide)
        · split_ifs at h

/-- The entries that consume a dimension are among those `count_non_new`
counts. -/
theorem countConsuming_le_count_non_new : ∀ (l : List NpyIndex) (m : Int),
    count_non_new l = some m → countConsuming l ≤ m := by
  intro l
  induction l with
  | nil =>
    intro m h
    simp only [count_non_new, Option.some.injEq] at h
    simp only [countConsuming]
    omega
  | cons e l ih =>
    intro m h
    cases e with
    | newaxis => exact ih m h
    | bool_array a =>
      cases a with
      | none => simp [count_non_new] at h
      | some a =>
        simp only [count_non_new, Option.map_eq_some'] at h
        obtain ⟨r, hr, hm⟩ := h
        have := ih r hr
        simp only [countConsuming]
        omega
    | ellipsis =>
      simp only [count_non_new, Option.map_eq_some'] at h
      obtain ⟨r, hr, hm⟩ := h
      have := ih r hr
      simp only [countConsuming]
      omega
    | _ =>
      simp only [count_non_new, Option.map_eq_some'] at h
      obtain ⟨r, hr, hm⟩ := h
      have := ih r hr
      simp only [countConsuming]
      omega

/-- The loop on a well-formed list without string whose entries still to be
read consume more dimensions than are left fails: with `TooManyIndices`, or
before that with `InvalidIndex` on a scalar that stands before every ellipsis
and is out of range, after wraparound, for the dimension it is checked against,
which is the number of dimensions consumed before it. -/
theorem bindLoop_many (nz : NpyArray → Option (List NpyArray)) (dims : List Int) :
    ∀ (rest : List NpyIndex) (st : BindState) (rc : RefCounts),
      BindInv dims st → NpyIndex.string ∉ rest → (∀ e ∈ rest, e.live = true) →
      (∀ e ∈ rest, finderSucceeds nz e) →
      st.result - st.n_new + countConsuming rest > (dims.length : Int) →
      (∃ rc1, bindLoop nz dims st rc rest = .error .TooManyIndices rc1) ∨
      (∃ rc1, bindLoop nz dims st rc rest = .error .InvalidIndex rc1 ∧
        ∃ (i : Nat) (v d : Int), (rest[i]?).bind scalarVal = some v ∧
          NpyIndex.ellipsis ∉ rest.take i ∧
          readDim dims (st.result - st.n_new + countConsuming (rest.take i)) = some d ∧
          ¬ (-d ≤ v ∧ v < d)) := by
  intro rest
  induction rest with
  | nil =>
    intro st rc hinv _ _ _ hmany
    have := hinv.2.2
    simp only [countConsuming] at hmany
    omega
  | cons idx rest ih =>
    intro st rc hinv hstr hlive hnz hmany
    have hstr1 : idx ≠ .string := fun h => hstr (h ▸ List.mem_cons_self _ _)
    have hrest : ∀ e ∈ rest, e.live = true := fun e he => hlive e (List.mem_cons_of_mem _ he)
    by_cases hidx : idx = .ellipsis
    · subst hidx
      left
      obtain ⟨m, hm⟩ := count_non_new_defined rest hrest
      have hle := countConsuming_le_count_non_new rest m hm
      have hcc : countConsuming (.ellipsis :: rest) = countConsuming rest := rfl
      rw [hcc] at hmany
      obtain ⟨rc1, h1⟩ := deallocFail_error .TooManyIndices st rc hinv.1
      refine ⟨rc1, ?_⟩
      rw [bindLoop]
      simp only [bindEntry, hm, if_pos (show (dims.length : Int) + st.n_new - m - st.result < 0
        by omega), h1]
    · rcases bindEntry_outcomes nz dims st rc idx rest hinv hstr1
          (hlive idx (List.mem_cons_self _ _)) hrest (hnz idx (List.mem_cons_self _ _)) with
        ⟨st2, rc2, h2⟩ | ⟨rc2, h2⟩ | ⟨rc2, h2, _⟩
      · have hpost := bindEntry_stepPost rest hinv h2
        obtain ⟨a, ha, hc2⟩ := (stepPost_consumed hpost).1 hidx
        have hcons : ∀ l, countConsuming (idx :: l) = a + countConsuming l :=
          fun l => (countConsuming_cons idx l).2 a hidx ha
        rw [hcons] at hmany
        rcases ih st2 rc2 (stepPost_keeps hinv hpost).1
            (fun h => hstr (List.mem_cons_of_mem _ h)) hrest
            (fun e he => hnz e (List.mem_cons_of_mem _ he)) (by omega) with
          ⟨rc1, h1⟩ | ⟨rc1, h1, i, v, d, hv, hell, hd, hr⟩
        · left; exact ⟨rc1, by rw [bindLoop, h2]; exact h1⟩
        · right
          refine ⟨rc1, by rw [bindLoop, h2]; exact h1, i + 1, v, d, ?_, ?_, ?_, hr⟩
          · simpa using hv
          · rw [List.take_succ_cons, List.mem_cons, not_or]
            exact ⟨fun h => hidx h.symm, hell⟩
          · rw [List.take_succ_cons, hcons]
            rw [hc2] at hd
            rw [← hd]
            congr 1
            ring
      · left; exact ⟨rc2, by rw [bindLoop, h2]⟩
      · right
        obtain ⟨v, d, hv, hd, hr⟩ := bindEntry_invalid_reads h2
        refine ⟨rc2, by rw [bindLoop, h2], 0, v, d, by simpa using hv, by simp, ?_, hr⟩
        simpa [countConsuming] using hd

/-- C8: let an index list hold no string and no `NULL` handle, let the
non-zero finder succeed on its masks, and let its entries that are neither
`Ellipsis` nor `NewAxis` (a boolean array counting as its rank) outnumber the
rank.  Let every scalar of the list that stands before every ellipsis be in
range, after wraparound, for the dimension it is checked against, if there is
one: the dimension whose number is the count of the entries before it that are
neither `Ellipsis` nor `NewAxis`.  Then `NpyArray_IndexBind` fails with
`TooManyIndices`, whether or not the list holds `Ellipsis` or `NewAxis`
entries. -/
theorem too_many_indices_fails (nz : NpyArray → Option (List NpyArray))
    (indexes : List NpyIndex) (dims : List Int) (rc : RefCounts)
    (hstr : NpyIndex.string ∉ indexes) (hlive : ∀ e ∈ indexes, e.live = true)
    (hnz : ∀ e ∈ indexes, finderSucceeds nz e)
    (hmany : countConsuming indexes > (dims.length : Int))
    (hrange : ∀ (i : Nat) (v d : Int), (indexes[i]?).bind scalarVal = some v →
      NpyIndex.ellipsis ∉ indexes.take i →
      readDim dims (countConsuming (indexes.take i)) = some d → -d ≤ v ∧ v < d) :
    (NpyArray_IndexBind nz indexes dims rc).error? = some .TooManyIndices := by
  rcases bindLoop_many nz dims indexes { out := [], n_new := 0 } rc (bindInv_init dims)
      hstr hlive hnz
      (by simpa [BindState.result] using hmany) with
    ⟨rc1, h1⟩ | ⟨rc1, _, i, v, d, hv, hell, hd, hr⟩
  · rw [NpyArray_IndexBind, h1]
    rfl
  · refine absurd (hrange i v d hv hell ?_) hr
    simpa [BindState.result] using hd

/-- C8 for `[Integer(2), NewAxis, Integer(0), Ellipsis, Integer(5), IntegerArray]`
on sizes `[3, 1]`: four entries consume a dimension, the rank is two; the
scalars 2 and 0 are in range for the dimensions 0 and 1 they are checked
against, though 2 is out of range for dimension 1, and the scalar 5 stands
after the ellipsis. -/
theorem too_many_indices_fails_witness :
    (NpyArray_IndexBind (fun _ => none)
      [.intp 2, .newaxis, .intp 0, .ellipsis, .intp 5, .intp_array (some ⟨7, [3], [1]⟩)]
      [3, 1] (fun _ => 1)).error? = some .TooManyIndices :=
  too_many_indices_fails (fun _ => none)
    [.intp 2, .newaxis, .intp 0, .ellipsis, .intp 5, .intp_array (some ⟨7, [3], [1]⟩)]
    [3, 1] (fun _ => 1) (by decide) (by decide)
    (by intro e he b hb; subst hb; simp at he) (by decide)
    (by
      intro i v d hv hell hd
      rcases i with _ | _ | _ | _ | i
      · simp [scalarVal, countConsuming, readDim] at hv hd
        omega
      · simp [scalarVal] at hv
      · simp [scalarVal, countConsuming, readDim] at hv hd
        omega
      · simp [scalarVal] at hv
      · simp at hell)

/-! ## Failure paths and reference counts -/

/-- C9, the code at a failing input: with an `IntegerArray` of reference count
1 already copied to the output, the "Invalid index." return and the "String
index not allowed." return leave its count at 2, while the "too many indices"
return, which calls `NpyArray_IndexDealloc`, restores it to 1. -/
theorem failure_returns_without_release :
    (NpyArray_IndexBind (fun _ => none)
        [.intp_array (some ⟨7, [4], [1]⟩), .intp 5] [3, 3] (fun _ => 1)).error?
      = some .InvalidIndex ∧
    (NpyArray_IndexBind (fun _ => none)
        [.intp_array (some ⟨7, [4], [1]⟩), .intp 5] [3, 3] (fun _ => 1)).rcAt 7
      = some 2 ∧
    (NpyArray_IndexBind (fun _ => none)
        [.intp_array (some ⟨7, [4], [1]⟩), .string] [3, 3] (fun _ => 1)).error?
      = some .UnsupportedIndexKind ∧
    (NpyArray_IndexBind (fun _ => none)
        [.intp_array (some ⟨7, [4], [1]⟩), .string] [3, 3] (fun _ => 1)).rcAt 7
      = some 2 ∧
    (NpyArray_IndexBind (fun _ => none)
        [.intp_array (some ⟨7, [4], [1]⟩), .intp 0, .intp 0] [3, 3] (fun _ => 1)).error?
      = some .TooManyIndices ∧
    (NpyArray_IndexBind (fun _ => none)
        [.intp_array (some ⟨7, [4], [1]⟩), .intp 0, .intp 0] [3, 3] (fun _ => 1)).rcAt 7
      = some 1 := by
  decide

/-- C10, the code at the failing inputs: a mask of the shape of the array, used
as the only index, is rejected with `TooManyIndices` whatever the finder would
return (the test is `result + r >= nd + n_new`); so is a mask of rank 1 after
an ellipsis that has left exactly one dimension for it, while an
`IntegerArray` in the same place is accepted. -/
theorem mask_that_fits_is_rejected (nz : NpyArray → Option (List NpyArray))
    (id : Nat) (dims strides : List Int) (rc : RefCounts) :
    (NpyArray_IndexBind nz [.bool_array (some ⟨id, dims, strides⟩)] dims rc).error?
      = some .TooManyIndices ∧
    (NpyArray_IndexBind (fun _ => some [⟨8, [1], [1]⟩])
        [.ellipsis, .bool_array (some ⟨7, [3], [1]⟩)] [2, 3] (fun _ => 1)).error?
      = some .TooManyIndices ∧
    (NpyArray_IndexBind (fun _ => some [⟨8, [1], [1]⟩])
        [.ellipsis, .intp_array (some ⟨8, [1], [1]⟩)] [2, 3] (fun _ => 1)).value?
      = some [.slice 0 2 1, .intp_array (some ⟨8, [1], [1]⟩)] := by
  refine ⟨?_, by decide, by decide⟩
  simp [NpyArray_IndexBind, bindLoop, bindEntry, BindState.result, NpyArray.nd, deallocFail,
    NpyArray_IndexDealloc, Outcome.map, Outcome.error?]

/-! ## Boolean expansion -/

/-- C11, the code at the failing input: for a scalar `Boolean` the expander
writes the `Integer` and then, running into the `default:` statements, the
`Boolean` itself, so `[Boolean(b)]` expands to two entries and `[Boolean(b),
Slice(0, 2, 1)]` has the `Boolean` where the slice is expected; a list without
`Boolean` such as `[Integer(3), NewAxis]` comes out unchanged. -/
theorem expand_bool_writes_boolean_twice (nz : NpyArray → Option (List NpyArray))
    (flag : Bool) (rc : RefCounts) :
    NpyArray_IndexExpandBool nz [.bool flag] rc
      = .ok [.intp (boolVal flag), .bool flag] rc ∧
    (NpyArray_IndexExpandBool nz [.bool true, .slice 0 2 1] rc).value?
      = some [.intp 1, .bool true, .slice 0 2 1] ∧
    (NpyArray_IndexExpandBool nz [.intp 3, .newaxis] rc).value?
      = some [.intp 3, .newaxis] :=
  ⟨rfl, rfl, rfl⟩

/-! ## Open-stop slices -/

/-- The start of an open-stop slice is computed as the start of a slice. -/
theorem bindNoStopStart_eq (dim start step : Int) :
    bindNoStopStart dim start step = bindSliceStart dim start step := rfl

/-- What the `NPY_INDEX_SLICE_NOSTOP` case does where `dimensions` can be
read. -/
theorem bindEntry_slice_nostop (nz : NpyArray → Option (List NpyArray)) (dims : List Int)
    (st : BindState) (rc : RefCounts) (rest : List NpyIndex) (dim start step : Int)
    (hread : readDim dims (st.result - st.n_new) = some dim) :
    bindEntry nz dims st rc (.slice_nostop start step) rest
      = .ok (st.push (.slice (bindNoStopStart dim start step)
          (bindNoStopStop dim step) step)) rc := by
  simp only [bindEntry, if_neg (not_full_of_readDim hread), hread]

/-- An open-stop slice, once bound, visits exactly the indices of the dimension
that lie on its way. -/
theorem noStop_lt_iff (dim start step : Int) (hdim : 0 ≤ dim) (hstep : step ≠ 0) (k : Nat) :
    (k : Int) < NpyArray_SliceSteps (bindNoStopStart dim start step)
        (bindNoStopStop dim step) step ↔
      0 ≤ bindNoStopStart dim start step + k * step ∧
        bindNoStopStart dim start step + k * step < dim := by
  have hS := bindSliceStart_bounds dim start step hdim
  rw [bindNoStopStart_eq] at *
  generalize bindSliceStart dim start step = s at hS ⊢
  rcases lt_or_gt_of_ne hstep with hs | hs
  · have hk : (k : Int) * step ≤ 0 :=
      mul_nonpos_of_nonneg_of_nonpos (Int.ofNat_nonneg k) hs.le
    have h1 := hS.2 hs
    rw [SliceSteps_lt_iff_neg _ _ _ hs, bindNoStopStop, if_neg (by omega)]
    constructor <;> intro h <;> omega
  · have hk : 0 ≤ (k : Int) * step := mul_nonneg (Int.ofNat_nonneg k) hs.le
    have h1 := hS.1 hs.le
    rw [SliceSteps_lt_iff_pos _ _ _ hs, bindNoStopStop, if_pos hs]
    constructor <;> intro h <;> omega

/-- C15: where the source dimension read has size `dim ≥ 0` and the step is not
zero, `SliceOpenStop(start, step)` is bound to a `Slice` with the same step,
with the start that `Slice(start, stop, step)` is bound to for every `stop`,
and with stop `dim` for a positive and `-1` for a negative step; the indices
`start' + k*step` it counts are exactly those inside `[0, dim)`, and the slices
bound from `SliceOpenStop(0, 1)` and `SliceOpenStop(-1, -1)` have length
`dim`. -/
theorem bind_open_slice_runs_to_end (nz : NpyArray → Option (List NpyArray))
    (dims : List Int) (st : BindState) (rc : RefCounts) (rest : List NpyIndex)
    (dim start step : Int) (hdim : 0 ≤ dim) (hstep : step ≠ 0)
    (hread : readDim dims (st.result - st.n_new) = some dim) :
    (∃ s : Int,
      bindEntry nz dims st rc (.slice_nostop start step) rest
        = .ok (st.push (.slice s (if step > 0 then dim else -1) step)) rc ∧
      (∀ stop : Int, ∃ e : Int,
        bindEntry nz dims st rc (.slice start stop step) rest
          = .ok (st.push (.slice s e step)) rc) ∧
      ∀ k : Nat, (k : Int) < NpyArray_SliceSteps s (if step > 0 then dim else -1) step ↔
        0 ≤ s + k * step ∧ s + k * step < dim) ∧
    (∃ s e : Int,
      bindEntry nz dims st rc (.slice_nostop 0 1) rest = .ok (st.push (.slice s e 1)) rc ∧
      NpyArray_SliceSteps s e 1 = dim) ∧
    (∃ s e : Int,
      bindEntry nz dims st rc (.slice_nostop (-1) (-1)) rest
        = .ok (st.push (.slice s e (-1))) rc ∧
      NpyArray_SliceSteps s e (-1) = dim) := by
  refine ⟨⟨bindNoStopStart dim start step,
    bindEntry_slice_nostop nz dims st rc rest dim start step hread,
    fun stop => ⟨_, bindEntry_slice nz dims st rc rest dim start stop step hread⟩,
    noStop_lt_iff dim start step hdim hstep⟩,
    ⟨_, _, bindEntry_slice_nostop nz dims st rc rest dim 0 1 hread, ?_⟩,
    ⟨_, _, bindEntry_slice_nostop nz dims st rc rest dim (-1) (-1) hread, ?_⟩⟩
  · simp only [NpyArray_SliceSteps, bindNoStopStart, bindNoStopStop, Int.tdiv_one]
    split_ifs <;> omega
  · have hneg : ∀ a : Int, a.tdiv (-1) = -a := by
      intro a
      rw [Int.tdiv_neg, Int.tdiv_one]
    simp only [NpyArray_SliceSteps, bindNoStopStart, bindNoStopStop, hneg]
    split_ifs <;> omega

/-- C15 at the second dimension of sizes `[4, 6]`, for `SliceOpenStop(-2, -3)`. -/
theorem bind_open_slice_runs_to_end_witness :
    (∃ s : Int,
      bindEntry (fun _ => none) [4, 6] ⟨[.intp 1], 0⟩ (fun _ => 0) (.slice_nostop (-2) (-3)) []
        = .ok (BindState.push ⟨[.intp 1], 0⟩
            (.slice s (if (-3 : Int) > 0 then 6 else -1) (-3))) (fun _ => 0) ∧
      (∀ stop : Int, ∃ e : Int,
        bindEntry (fun _ => none) [4, 6] ⟨[.intp 1], 0⟩ (fun _ => 0)
            (.slice (-2) stop (-3)) []
          = .ok (BindState.push ⟨[.intp 1], 0⟩ (.slice s e (-3))) (fun _ => 0)) ∧
      ∀ k : Nat, (k : Int) < NpyArray_SliceSteps s (if (-3 : Int) > 0 then 6 else -1) (-3) ↔
        0 ≤ s + k * (-3) ∧ s + k * (-3) < 6) ∧
    (∃ s e : Int,
      bindEntry (fun _ => none) [4, 6] ⟨[.intp 1], 0⟩ (fun _ => 0) (.slice_nostop 0 1) []
        = .ok (BindState.push ⟨[.intp 1], 0⟩ (.slice s e 1)) (fun _ => 0) ∧
      NpyArray_SliceSteps s e 1 = 6) ∧
    (∃ s e : Int,
      bindEntry (fun _ => none) [4, 6] ⟨[.intp 1], 0⟩ (fun _ => 0) (.slice_nostop (-1) (-1)) []
        = .ok (BindState.push ⟨[.intp 1], 0⟩ (.slice s e (-1))) (fun _ => 0) ∧
      NpyArray_SliceSteps s e (-1) = 6) :=
  bind_open_slice_runs_to_end (fun _ => none) [4, 6] ⟨[.intp 1], 0⟩ (fun _ => 0) []
    6 (-2) (-3) (by decide) (by decide) (by decide)

/-! ## Bulk release -/

/-- The release of the first `n` entries, computed: the entries left and the
reference counts left. -/
theorem dealloc_eq (l : List NpyIndex) :
    ∀ (n : Nat) (rc : RefCounts), n ≤ l.length → (∀ e ∈ l.take n, e.live = true) →
      ∃ rc1, NpyArray_IndexDealloc l n rc
          = some ((l.take n).map NpyIndex.clearHandle ++ l.drop n, rc1) ∧
        ∀ h, rc1 h = rc h - (countHandle h (l.take n) : Int) := by
  induction l with
  | nil =>
    intro n rc hn _
    have : n = 0 := by simpa using hn
    subst this
    exact ⟨rc, rfl, by simp [countHandle]⟩
  | cons e l ih =>
    intro n rc hn hlive
    cases n with
    | zero => exact ⟨rc, by simp [NpyArray_IndexDealloc], by simp [countHandle]⟩
    | succ n =>
      have hn1 : n ≤ l.length := by simpa using hn
      have hl1 : ∀ x ∈ l.take n, x.live = true := fun x hx =>
        hlive x (by rw [List.take_succ_cons]; exact List.mem_cons_of_mem _ hx)
      have he : e.live = true := hlive e (by rw [List.take_succ_cons]; exact List.mem_cons_self _ _)
      cases e with
      | intp_array a =>
        cases a with
        | none => simp [NpyIndex.live] at he
        | some a =>
          obtain ⟨rc1, hr, hrc⟩ := ih n (Npy_DECREF rc a) hn1 hl1
          refine ⟨rc1, by simp [NpyArray_IndexDealloc, hr, NpyIndex.clearHandle], fun h => ?_⟩
          rw [hrc h]
          simp only [Npy_DECREF, countHandle, List.take_succ_cons, List.countP_cons,
            NpyIndex.handleId?, beq_iff_eq, Option.some.injEq, Nat.cast_add]
          by_cases hh : h = a.id
          · rw [if_pos hh, if_pos hh.symm]; push_cast; ring
          · rw [if_neg hh, if_neg (fun h1 => hh h1.symm)]; push_cast; ring
      | bool_array a =>
        cases a with
        | none => simp [NpyIndex.live] at he
        | some a =>
          obtain ⟨rc1, hr, hrc⟩ := ih n (Npy_DECREF rc a) hn1 hl1
          refine ⟨rc1, by simp [NpyArray_IndexDealloc, hr, NpyIndex.clearHandle], fun h => ?_⟩
          rw [hrc h]
          simp only [Npy_DECREF, countHandle, List.take_succ_cons, List.countP_cons,
            NpyIndex.handleId?, beq_iff_eq, Option.some.injEq, Nat.cast_add]
          by_cases hh : h = a.id
          · rw [if_pos hh, if_pos hh.symm]; push_cast; ring
          · rw [if_neg hh, if_neg (fun h1 => hh h1.symm)]; push_cast; ring
      | _ =>
        obtain ⟨rc1, hr, hrc⟩ := ih n rc hn1 hl1
        refine ⟨rc1, by simp [NpyArray_IndexDealloc, hr, NpyIndex.clearHandle], fun h => ?_⟩
        rw [hrc h]
        simp [countHandle, NpyIndex.handleId?]

/-- Clearing a handle keeps the type tag. -/
theorem type_clearHandle (e : NpyIndex) : e.clearHandle.type = e.type := by
  cases e <;> rfl

/-- C16: on a list whose first `n` entries exist and hold live handles,
`NpyArray_IndexDealloc(list, n)` is defined; it takes from the reference count
of every array one for each `IntegerArray` or `BooleanArray` entry among the
first `n` that holds it, leaves entry `i` for `i < n` with its handle cleared
(an entry of another kind as it was) and entry `i` for `i ≥ n` as it was, and
keeps every type tag. -/
theorem IndexDealloc_releases_first_n (l : List NpyIndex) (n : Nat) (rc : RefCounts)
    (hn : n ≤ l.length) (hlive : ∀ e ∈ l.take n, e.live = true) :
    ∃ l1 rc1, NpyArray_IndexDealloc l n rc = some (l1, rc1) ∧
      (∀ h, rc1 h = rc h - (countHandle h (l.take n) : Int)) ∧
      l1 = (l.take n).map NpyIndex.clearHandle ++ l.drop n ∧
      (∀ (i : Nat) (e : NpyIndex), l[i]? = some e →
        l1[i]? = some (if i < n then e.clearHandle else e)) ∧
      (∀ (i : Nat) (e : NpyIndex), i < n → l[i]? = some e → e.handleId? = none →
        l1[i]? = some e) ∧
      l1.map NpyIndex.type = l.map NpyIndex.type := by
  obtain ⟨rc1, hr, hrc⟩ := dealloc_eq l n rc hn hlive
  have hidx : ∀ (i : Nat) (e : NpyIndex), l[i]? = some e →
      ((l.take n).map NpyIndex.clearHandle ++ l.drop n)[i]?
        = some (if i < n then e.clearHandle else e) := by
    intro i e hi
    by_cases hlt : i < n
    · rw [if_pos hlt, List.getElem?_append_left (by simp; omega), List.getElem?_map,
        List.getElem?_take_of_lt hlt, hi]
      rfl
    · rw [if_neg hlt, List.getElem?_append_right (by simp; omega), List.getElem?_drop]
      simp only [List.length_map, List.length_take]
      rw [← hi]
      congr 1
      omega
  refine ⟨_, rc1, hr, hrc, rfl, hidx, ?_, ?_⟩
  · intro i e hlt hi hnone
    rw [hidx i e hi, if_pos hlt]
    cases e with
    | intp_array a =>
      cases a with
      | none => rfl
      | some a => simp [NpyIndex.handleId?] at hnone
    | bool_array a =>
      cases a with
      | none => rfl
      | some a => simp [NpyIndex.handleId?] at hnone
    | _ => rfl
  · rw [List.map_append, List.map_map]
    have hcomp : NpyIndex.type ∘ NpyIndex.clearHandle = NpyIndex.type :=
      funext type_clearHandle
    rw [hcomp, ← List.map_append, List.take_append_drop]

/-- C16 for a list of four entries of which the first three are released. -/
theorem IndexDealloc_releases_first_n_witness :
    ∃ l1 rc1, NpyArray_IndexDealloc
        [.intp_array (some ⟨7, [2], [1]⟩), .slice 0 2 1, .bool_array (some ⟨7, [2], [1]⟩),
          .intp_array (some ⟨9, [2], [1]⟩)] 3 (fun _ => 5) = some (l1, rc1) ∧
      (∀ h, rc1 h = (fun _ => 5) h - (countHandle h
        (([.intp_array (some ⟨7, [2], [1]⟩), .slice 0 2 1,
          .bool_array (some ⟨7, [2], [1]⟩),
          .intp_array (some ⟨9, [2], [1]⟩)] : List NpyIndex).take 3) : Int)) ∧
      l1 = (([.intp_array (some ⟨7, [2], [1]⟩), .slice 0 2 1,
          .bool_array (some ⟨7, [2], [1]⟩),
          .intp_array (some ⟨9, [2], [1]⟩)] : List NpyIndex).take 3).map
            NpyIndex.clearHandle
        ++ ([.intp_array (some ⟨7, [2], [1]⟩), .slice 0 2 1,
          .bool_array (some ⟨7, [2], [1]⟩),
          .intp_array (some ⟨9, [2], [1]⟩)] : List NpyIndex).drop 3 ∧
      (∀ (i : Nat) (e : NpyIndex),
        ([.intp_array (some ⟨7, [2], [1]⟩), .slice 0 2 1,
          .bool_array (some ⟨7, [2], [1]⟩),
          .intp_array (some ⟨9, [2], [1]⟩)] : List NpyIndex)[i]? = some e →
        l1[i]? = some (if i < 3 then e.clearHandle else e)) ∧
      (∀ (i : Nat) (e : NpyIndex), i < 3 →
        ([.intp_array (some ⟨7, [2], [1]⟩), .slice 0 2 1,
          .bool_array (some ⟨7, [2], [1]⟩),
          .intp_array (some ⟨9, [2], [1]⟩)] : List NpyIndex)[i]? = some e →
        e.handleId? = none → l1[i]? = some e) ∧
      l1.map NpyIndex.type
        = ([.intp_array (some ⟨7, [2], [1]⟩), .slice 0 2 1,
          .bool_array (some ⟨7, [2], [1]⟩),
          .intp_array (some ⟨9, [2], [1]⟩)] : List NpyIndex).map NpyIndex.type :=
  IndexDealloc_releases_first_n _ 3 (fun _ => 5) (by decide) (by decide)

/-! ## The resolver on basic entries -/

/-- The stride read for source dimension `i`. -/
theorem strides_read (str : List Int) (i : Nat) (h : i < str.length) :
    str[i]? = some ((str.drop i).headD 0) ∧ (str.drop i).tail = str.drop (i + 1) := by
  rw [List.drop_eq_getElem_cons h]
  exact ⟨by simp [List.getElem?_eq_getElem h], rfl⟩

/-- The first loop of the resolver on basic entries that find a source
dimension each: it succeeds with the outputs the specification gives. -/
theorem resolveLoop_basic (array : NpyArray) (allow : Bool)
    (hstr : array.strides.length = array.dimensions.length) :
    ∀ (l : List NpyIndex) (st : ResolveState), (∀ e ∈ l, e.isBasic = true) →
      st.iDim + (countIntp l + countSlices l) ≤ array.dimensions.length →
      resolveLoop array allow st l
        = .ok { iDim := st.iDim + (countIntp l + countSlices l),
                dimensions := st.dimensions ++ viewDims l,
                strides := st.strides ++ viewStrides (array.strides.drop st.iDim) l,
                offset := st.offset + viewOffset (array.strides.drop st.iDim) l } := by
  intro l
  induction l with
  | nil =>
    intro st _ _
    simp [resolveLoop, countIntp, countSlices, viewDims, viewStrides, viewOffset]
  | cons e l ih =>
    intro st hb hc
    have hbl : ∀ x ∈ l, x.isBasic = true := fun x hx => hb x (List.mem_cons_of_mem _ hx)
    have he := hb e (List.mem_cons_self _ _)
    cases e with
    | intp v =>
      have hI : countIntp (.intp v :: l) = countIntp l + 1 := by simp [countIntp]
      have hS : countSlices (.intp v :: l) = countSlices l := by simp [countSlices]
      rw [hI, hS] at hc ⊢
      have hlt : st.iDim < array.strides.length := by omega
      obtain ⟨hread, htail⟩ := strides_read array.strides st.iDim hlt
      have hnd : ¬ ((st.iDim : Int) ≥ array.nd) := by
        simp only [NpyArray.nd]; omega
      rw [resolveLoop]
      simp only [resolveEntry, if_neg hnd, hread]
      rw [ih _ hbl (by simp only []; omega)]
      simp only [viewDims, viewStrides, viewOffset, htail, Result.ok.injEq,
        ResolveState.mk.injEq, true_and, and_true]
      exact ⟨by omega, by ring⟩
    | slice start stop step =>
      have hI : countIntp (.slice start stop step :: l) = countIntp l := by simp [countIntp]
      have hS : countSlices (.slice start stop step :: l) = countSlices l + 1 := by
        simp [countSlices]
      rw [hI, hS] at hc ⊢
      have hlt : st.iDim < array.strides.length := by omega
      obtain ⟨hread, htail⟩ := strides_read array.strides st.iDim hlt
      have hnd : ¬ ((st.iDim : Int) ≥ array.nd) := by
        simp only [NpyArray.nd]; omega
      have hstep : step ≠ 0 := by simpa [NpyIndex.isBasic] using he
      rw [resolveLoop]
      simp only [resolveEntry, if_neg hnd, if_neg hstep, hread]
      rw [ih _ hbl (by simp only []; omega)]
      simp only [viewDims, viewStrides, viewOffset, htail, List.append_assoc,
        List.singleton_append, Result.ok.injEq, ResolveState.mk.injEq, true_and, and_true]
      exact ⟨by omega, by ring⟩
    | newaxis =>
      have hI : countIntp (.newaxis :: l) = countIntp l := by simp [countIntp]
      have hS : countSlices (.newaxis :: l) = countSlices l := by simp [countSlices]
      rw [hI, hS] at hc ⊢
      rw [resolveLoop]
      simp only [resolveEntry]
      rw [ih _ hbl (by simp only []; omega)]
      simp only [viewDims, viewStrides, viewOffset, List.append_assoc,
        List.singleton_append]
    | _ => simp [NpyIndex.isBasic] at he

/-- The second loop of the resolver appends the sizes and strides of the source
dimensions not yet consumed. -/
theorem resolveRest_spec (array : NpyArray)
    (hstr : array.strides.length = array.dimensions.length) :
    ∀ (k : Nat) (st : ResolveState), st.iDim + k = array.dimensions.length →
      resolveRest array k st
        = .ok { iDim := array.dimensions.length,
                dimensions := st.dimensions ++ array.dimensions.drop st.iDim,
                strides := st.strides ++ array.strides.drop st.iDim,
                offset := st.offset } := by
  intro k
  induction k with
  | zero =>
    intro st h
    have h1 : array.dimensions.length ≤ st.iDim := by omega
    have h2 : array.strides.length ≤ st.iDim := by omega
    simp only [resolveRest, List.drop_eq_nil_of_le h1, List.drop_eq_nil_of_le h2,
      List.append_nil]
    cases st
    simp only [Nat.add_zero] at h
    simp [h]
  | succ k ih =>
    intro st h
    have hd : st.iDim < array.dimensions.length := by omega
    have hs : st.iDim < array.strides.length := by omega
    rw [resolveRest, List.getElem?_eq_getElem hd, List.getElem?_eq_getElem hs]
    simp only []
    rw [ih _ (by simp only []; omega), List.drop_eq_getElem_cons hd,
      List.drop_eq_getElem_cons hs]
    simp

/-- The resolver on a list of basic entries that find a source dimension each:
the call succeeds with the outputs the specification gives, followed by the
sizes and strides of the dimensions left. -/
theorem IndexToDimsEtc_basic_eq (array : NpyArray) (allow : Bool) (l : List NpyIndex)
    (hstr : array.strides.length = array.dimensions.length)
    (hb : ∀ e ∈ l, e.isBasic = true)
    (hc : countIntp l + countSlices l ≤ array.dimensions.length) :
    NpyArray_IndexToDimsEtc array l allow
      = .ok { iDim := array.dimensions.length,
              dimensions := viewDims l
                ++ array.dimensions.drop (countIntp l + countSlices l),
              strides := viewStrides array.strides l
                ++ array.strides.drop (countIntp l + countSlices l),
              offset := viewOffset array.strides l } := by
  rw [NpyArray_IndexToDimsEtc, resolveLoop_basic array allow hstr l _ hb (by simpa using hc)]
  simp only []
  rw [resolveRest_spec array hstr _ _ (by simp only []; omega)]
  simp

/-- The number of output dimensions the specification gives for the entries of
a list: one for each `Slice` and each `NewAxis`. -/
theorem viewDims_length : ∀ (l : List NpyIndex),
    (viewDims l).length = countSlices l + countNewAxis l := by
  intro l
  induction l with
  | nil => rfl
  | cons e l ih =>
    cases e <;>
      simp [viewDims, countSlices, countNewAxis, List.countP_cons, List.count_cons, ih] <;>
      simp only [countSlices, countNewAxis] at ih ⊢ <;> omega

/-- The offence of entry `i + 1` of a list is the offence of entry `i` of its
tail, the head counted among the entries before. -/
theorem offence_succ (allow : Bool) (nd before : Nat) (e : NpyIndex) (l : List NpyIndex)
    (i : Nat) :
    offence allow nd before (e :: l) (i + 1)
      = offence allow nd (before + (if e.usesDim then 1 else 0)) l i := by
  have hcount : (List.take (i + 1) (e :: l)).countP NpyIndex.usesDim + before
      = (List.take i l).countP NpyIndex.usesDim
        + (before + (if e.usesDim then 1 else 0)) := by
    rw [List.take_succ_cons, List.countP_cons]
    omega
  simp only [offence, List.getElem?_cons_succ, hcount]

/-- The first offence of a non-empty list: that of its head, or else the first
one of its tail. -/
theorem first_offence_cons (allow : Bool) (nd before : Nat) (e : NpyIndex)
    (l : List NpyIndex) :
    (List.range (e :: l).length).findSome? (offence allow nd before (e :: l))
      = match offence allow nd before (e :: l) 0 with
        | some x => some x
        | none => (List.range l.length).findSome?
            (offence allow nd (before + (if e.usesDim then 1 else 0)) l) := by
  rw [List.length_cons, List.range_succ_eq_map, List.findSome?_cons, List.findSome?_map]
  have hfun : offence allow nd before (e :: l) ∘ Nat.succ
      = offence allow nd (before + (if e.usesDim then 1 else 0)) l :=
    funext (fun i => offence_succ allow nd before e l i)
  rw [hfun]
  cases offence allow nd before (e :: l) 0 <;> rfl

/-- The first loop of the resolver, on a list without scalar `Boolean` and
without slice of step zero, reports the first offence, and succeeds when there
is none. -/
theorem resolveLoop_error (array : NpyArray) (allow : Bool)
    (hstr : array.strides.length = array.dimensions.length) :
    ∀ (l : List NpyIndex) (st : ResolveState), st.iDim ≤ array.dimensions.length →
      (∀ flag, NpyIndex.bool flag ∉ l) → (∀ a b, NpyIndex.slice a b 0 ∉ l) →
      (resolveLoop array allow st l).error?
          = (List.range l.length).findSome?
              (offence allow array.dimensions.length st.iDim l) ∧
        ((resolveLoop array allow st l).error? = none →
          ∃ st1, resolveLoop array allow st l = .ok st1 ∧
            st1.iDim ≤ array.dimensions.length) := by
  intro l
  induction l with
  | nil =>
    intro st hle _ _
    exact ⟨rfl, fun _ => ⟨st, rfl, hle⟩⟩
  | cons e l ih =>
    intro st hle hbool hstep
    have hbool1 : ∀ flag, NpyIndex.bool flag ∉ l := fun f h =>
      hbool f (List.mem_cons_of_mem _ h)
    have hstep1 : ∀ a b, NpyIndex.slice a b 0 ∉ l := fun a b h =>
      hstep a b (List.mem_cons_of_mem _ h)
    have hnd : ((st.iDim : Int) ≥ array.nd) ↔ st.iDim = array.dimensions.length := by
      simp only [NpyArray.nd]
      omega
    have hfail : ∀ x : IndexError,
        resolveEntry array allow st e = .error x →
        offence allow array.dimensions.length st.iDim (e :: l) 0 = some x →
        (resolveLoop array allow st (e :: l)).error?
            = (List.range (e :: l).length).findSome?
                (offence allow array.dimensions.length st.iDim (e :: l)) ∧
          ((resolveLoop array allow st (e :: l)).error? = none →
            ∃ st1, resolveLoop array allow st (e :: l) = .ok st1 ∧
              st1.iDim ≤ array.dimensions.length) := by
      intro x hE hO
      rw [first_offence_cons, resolveLoop, hE, hO]
      exact ⟨rfl, fun h => by simp [Result.error?] at h⟩
    have hnext : ∀ st1 : ResolveState,
        resolveEntry array allow st e = .ok st1 →
        offence allow array.dimensions.length st.iDim (e :: l) 0 = none →
        st1.iDim = st.iDim + (if e.usesDim then 1 else 0) →
        st1.iDim ≤ array.dimensions.length →
        (resolveLoop array allow st (e :: l)).error?
            = (List.range (e :: l).length).findSome?
                (offence allow array.dimensions.length st.iDim (e :: l)) ∧
          ((resolveLoop array allow st (e :: l)).error? = none →
            ∃ st2, resolveLoop array allow st (e :: l) = .ok st2 ∧
              st2.iDim ≤ array.dimensions.length) := by
      intro st1 hE hO hi hle1
      rw [first_offence_cons, resolveLoop, hE, hO, ← hi]
      exact ih st1 hle1 hbool1 hstep1
    cases e with
    | bool flag => exact absurd (List.mem_cons_self _ _) (hbool flag)
    | string => exact hfail _ rfl (by simp [offence])
    | ellipsis => exact hfail _ rfl (by simp [offence])
    | slice_nostop a b => exact hfail _ rfl (by simp [offence])
    | bool_array a => exact hfail _ rfl (by simp [offence])
    | newaxis =>
      exact hnext { st with dimensions := st.dimensions ++ [1], strides := st.strides ++ [0] }
        rfl (by simp [offence]) rfl hle
    | intp v =>
      by_cases hfull : st.iDim = array.dimensions.length
      · exact hfail .TooManyIndices (by simp only [resolveEntry, if_pos (hnd.2 hfull)])
          (by simp [offence, hfull])
      · have hlt : st.iDim < array.strides.length := by omega
        obtain ⟨hread, _⟩ := strides_read array.strides st.iDim hlt
        exact hnext
          { st with offset := st.offset + (array.strides.drop st.iDim).headD 0 * v,
                    iDim := st.iDim + 1 }
          (by simp only [resolveEntry, if_neg (mt hnd.1 hfull), hread])
          (by simp [offence, hfull]) rfl (by simp only []; omega)
    | slice a b c =>
      have hc : c ≠ 0 := fun h0 => hstep a b (h0 ▸ List.mem_cons_self _ _)
      by_cases hfull : st.iDim = array.dimensions.length
      · exact hfail .TooManyIndices (by simp only [resolveEntry, if_pos (hnd.2 hfull)])
          (by simp [offence, hfull])
      · have hlt : st.iDim < array.strides.length := by omega
        obtain ⟨hread, _⟩ := strides_read array.strides st.iDim hlt
        exact hnext
          { iDim := st.iDim + 1,
            dimensions := st.dimensions ++ [NpyArray_SliceSteps a b c],
            strides := st.strides ++ [c * (array.strides.drop st.iDim).headD 0],
            offset := st.offset + (array.strides.drop st.iDim).headD 0 * a }
          (by simp only [resolveEntry, if_neg (mt hnd.1 hfull), if_neg hc, hread])
          (by simp [offence, hfull]) rfl (by simp only []; omega)
    | intp_array a =>
      cases allow with
      | false => exact hfail .ArrayIndicesNotAllowed rfl (by simp [offence])
      | true =>
        by_cases hfull : st.iDim = array.dimensions.length
        · exact hfail .TooManyIndices
            (by simp only [resolveEntry, if_pos (hnd.2 hfull), if_true])
            (by simp [offence, hfull])
        · exact hnext { st with iDim := st.iDim + 1 }
            (by simp only [resolveEntry, if_neg (mt hnd.1 hfull), if_true])
            (by simp [offence, hfull]) rfl (by simp only []; omega)

/-- The first `some` of a function over `0, ..., n-1`. -/
theorem findSome_range_first {β : Type} : ∀ (n : Nat) (f : Nat → Option β) (i : Nat) (x : β),
    i < n → f i = some x → (∀ j, j < i → f j = none) →
    (List.range n).findSome? f = some x := by
  intro n
  induction n with
  | zero => intro f i x hi; omega
  | succ n ih =>
    intro f i x hi hx hbefore
    rw [List.range_succ_eq_map, List.findSome?_cons, List.findSome?_map]
    cases i with
    | zero => rw [hx]
    | succ i =>
      rw [hbefore 0 (by omega)]
      exact ih (f ∘ Nat.succ) i x (by omega) hx (fun j hj => hbefore (j + 1) (by omega))

/-- Only an entry of the list has an offence. -/
theorem offence_lt_length (allow : Bool) (nd before : Nat) (l : List NpyIndex) (i : Nat)
    (x : IndexError) (h : offence allow nd before l i = some x) : i < l.length := by
  by_contra hge
  have hnone : l[i]? = none := List.getElem?_eq_none (by omega)
  simp [offence, hnone] at h

/-- The resolver, with the error and the success of its first loop. -/
theorem IndexToDimsEtc_of_loop (array : NpyArray) (allow : Bool) (l : List NpyIndex)
    (hstr : array.strides.length = array.dimensions.length) :
    (NpyArray_IndexToDimsEtc array l allow).error?
        = (resolveLoop array allow ⟨0, [], [], 0⟩ l).error? ∧
      (∀ st1, resolveLoop array allow ⟨0, [], [], 0⟩ l = .ok st1 →
        st1.iDim ≤ array.dimensions.length →
        ∃ st, NpyArray_IndexToDimsEtc array l allow = .ok st) := by
  unfold NpyArray_IndexToDimsEtc
  cases hl : resolveLoop array allow ⟨0, [], [], 0⟩ l with
  | ok st1 =>
    refine ⟨?_, fun st2 h2 hle => ?_⟩
    · by_cases hle : st1.iDim ≤ array.dimensions.length
      · simp only []
        rw [resolveRest_spec array hstr _ st1 (by omega)]
        rfl
      · have h0 : array.dimensions.length - st1.iDim = 0 := by omega
        simp only [h0, resolveRest]
    · simp only [Result.ok.injEq] at h2
      subst h2
      exact ⟨_, resolveRest_spec array hstr _ st1 (by omega)⟩
  | error e => exact ⟨rfl, fun st1 h => by simp at h⟩
  | undefined => exact ⟨rfl, fun st1 h => by simp at h⟩

/-- C13: for an array whose strides are as many as its sizes and an index list
without scalar `Boolean` (and without slice of step zero),
`NpyArray_IndexToDimsEtc` fails exactly when some entry has an offence: it is a
string, or an ellipsis, open-stop slice or boolean array, or an integer array
while `allow_arrays` is false, or it consumes a dimension when the consuming
entries before it already number `nd`.  The error is the one of the first such
entry, a `NewAxis` has no offence, and without offence the call succeeds. -/
theorem resolver_fails_at_first_offence (array : NpyArray) (l : List NpyIndex)
    (allow : Bool) (hstr : array.strides.length = array.dimensions.length)
    (hbool : ∀ flag, NpyIndex.bool flag ∉ l) (hstep : ∀ a b, NpyIndex.slice a b 0 ∉ l) :
    ((∃ x, NpyArray_IndexToDimsEtc array l allow = .error x) ↔
      ∃ i, i < l.length ∧ (offence allow array.dimensions.length 0 l i).isSome = true) ∧
    (∀ i x, offence allow array.dimensions.length 0 l i = some x →
      (∀ j, j < i → offence allow array.dimensions.length 0 l j = none) →
      NpyArray_IndexToDimsEtc array l allow = .error x) ∧
    ((∀ i, offence allow array.dimensions.length 0 l i = none) →
      ∃ st, NpyArray_IndexToDimsEtc array l allow = .ok st) ∧
    (∀ i, l[i]? = some .newaxis → offence allow array.dimensions.length 0 l i = none) := by
  obtain ⟨hloop, hok⟩ := resolveLoop_error array allow hstr l ⟨0, [], [], 0⟩
    (Nat.zero_le _) hbool hstep
  obtain ⟨herr, hsucc⟩ := IndexToDimsEtc_of_loop array allow l hstr
  have hfind : (NpyArray_IndexToDimsEtc array l allow).error?
      = (List.range l.length).findSome? (offence allow array.dimensions.length 0 l) := by
    rw [herr, hloop]
  have herror : ∀ x, (NpyArray_IndexToDimsEtc array l allow).error? = some x →
      NpyArray_IndexToDimsEtc array l allow = .error x := by
    intro x hx
    cases hr : NpyArray_IndexToDimsEtc array l allow with
    | ok st => rw [hr] at hx; simp [Result.error?] at hx
    | error e => rw [hr] at hx; simp only [Result.error?, Option.some.injEq] at hx; rw [hx]
    | undefined => rw [hr] at hx; simp [Result.error?] at hx
  refine ⟨⟨?_, ?_⟩, ?_, ?_, ?_⟩
  · rintro ⟨x, hx⟩
    have h1 : ((List.range l.length).findSome?
        (offence allow array.dimensions.length 0 l)).isSome = true := by
      rw [← hfind, hx]
      rfl
    obtain ⟨i, hi, hsome⟩ := List.findSome?_isSome_iff.1 h1
    exact ⟨i, List.mem_range.1 hi, hsome⟩
  · rintro ⟨i, hi, hsome⟩
    have h1 : ((List.range l.length).findSome?
        (offence allow array.dimensions.length 0 l)).isSome = true :=
      List.findSome?_isSome_iff.2 ⟨i, List.mem_range.2 hi, hsome⟩
    obtain ⟨x, hx⟩ := Option.isSome_iff_exists.1 h1
    exact ⟨x, herror x (by rw [hfind, hx])⟩
  · intro i x hx hbefore
    apply herror
    rw [hfind]
    exact findSome_range_first _ _ i x (offence_lt_length _ _ _ _ _ _ hx) hx hbefore
  · intro hnone
    have h1 : (resolveLoop array allow ⟨0, [], [], 0⟩ l).error? = none := by
      rw [hloop]
      exact List.findSome?_eq_none_iff.2 (fun i _ => hnone i)
    obtain ⟨st1, hst1, hle⟩ := hok h1
    exact hsucc st1 hst1 hle
  · intro i hi
    simp [offence, hi]

/-- C13 for `[Integer(0), NewAxis, Ellipsis, StringLabel]` over a rank-2 array:
the ellipsis is the first entry with an offence. -/
theorem resolver_fails_at_first_offence_witness :
    ((∃ x, NpyArray_IndexToDimsEtc ⟨1, [3, 4], [4, 1]⟩
        [.intp 0, .newaxis, .ellipsis, .string] false = .error x) ↔
      ∃ i, i < ([.intp 0, .newaxis, .ellipsis, .string] : List NpyIndex).length ∧
        (offence false (⟨1, [3, 4], [4, 1]⟩ : NpyArray).dimensions.length 0
          [.intp 0, .newaxis, .ellipsis, .string] i).isSome = true) ∧
    (∀ i x, offence false (⟨1, [3, 4], [4, 1]⟩ : NpyArray).dimensions.length 0
        [.intp 0, .newaxis, .ellipsis, .string] i = some x →
      (∀ j, j < i → offence false (⟨1, [3, 4], [4, 1]⟩ : NpyArray).dimensions.length 0
        [.intp 0, .newaxis, .ellipsis, .string] j = none) →
      NpyArray_IndexToDimsEtc ⟨1, [3, 4], [4, 1]⟩
        [.intp 0, .newaxis, .ellipsis, .string] false = .error x) ∧
    ((∀ i, offence false (⟨1, [3, 4], [4, 1]⟩ : NpyArray).dimensions.length 0
        [.intp 0, .newaxis, .ellipsis, .string] i = none) →
      ∃ st, NpyArray_IndexToDimsEtc ⟨1, [3, 4], [4, 1]⟩
        [.intp 0, .newaxis, .ellipsis, .string] false = .ok st) ∧
    (∀ i, ([.intp 0, .newaxis, .ellipsis, .string] : List NpyIndex)[i]? = some .newaxis →
      offence false (⟨1, [3, 4], [4, 1]⟩ : NpyArray).dimensions.length 0
        [.intp 0, .newaxis, .ellipsis, .string] i = none) :=
  resolver_fails_at_first_offence ⟨1, [3, 4], [4, 1]⟩
    [.intp 0, .newaxis, .ellipsis, .string] false (by decide) (by decide)
    (by intro a b h; simp at h)

/-! ## From the binder to the resolver -/

/-- A view list starting with an entry other than `NewAxis`. -/
theorem isViewList_cons (e : NpyIndex) (l : List NpyIndex) (d : Int) (ds : List Int)
    (hne : e ≠ .newaxis) :
    isViewList (e :: l) (d :: ds) = (isViewEntry d e && isViewList l ds) := by
  cases e <;> first | rfl | exact absurd rfl hne

/-- A list whose first entry needs a dimension is no view list over no
dimension. -/
theorem isViewList_cons_nil (e : NpyIndex) (l : List NpyIndex) (hne : e ≠ .newaxis) :
    isViewList (e :: l) [] = false := by
  cases e <;> first | rfl | exact absurd rfl hne

/-- A view list stays one when a run that is a view list over the remaining
dimensions is appended. -/
theorem isViewList_append : ∀ (l w : List NpyIndex) (dims : List Int),
    isViewList l dims = true →
    isViewList w (dims.drop (l.length - countNewAxis l)) = true →
    isViewList (l ++ w) dims = true := by
  intro l
  induction l with
  | nil => intro w dims _ hw; simpa [countNewAxis] using hw
  | cons e l ih =>
    intro w dims hl hw
    have hle : countNewAxis l ≤ l.length := List.count_le_length _ _
    by_cases hne : e = .newaxis
    · subst hne
      have hcnt : countNewAxis (.newaxis :: l) = countNewAxis l + 1 := by
        simp [countNewAxis]
      rw [hcnt] at hw
      simp only [List.length_cons, Nat.add_sub_add_right] at hw
      simp only [List.cons_append, isViewList] at hl ⊢
      exact ih w dims hl hw
    · have hcnt : countNewAxis (e :: l) = countNewAxis l := by
        simp only [countNewAxis]
        exact List.count_cons_of_ne (fun h => hne h.symm) _
      cases dims with
      | nil => rw [isViewList_cons_nil e l hne] at hl; simp at hl
      | cons d ds =>
        rw [isViewList_cons e l d ds hne, Bool.and_eq_true] at hl
        rw [hcnt] at hw
        have hsub : (e :: l).length - countNewAxis l = (l.length - countNewAxis l) + 1 := by
          simp only [List.length_cons]
          omega
        rw [hsub, List.drop_succ_cons] at hw
        rw [List.cons_append, isViewList_cons e (l ++ w) d ds hne, Bool.and_eq_true]
        exact ⟨hl.1, ih w ds hl.2 hw⟩

/-- Full slices over dimensions of size at least zero stay inside them. -/
theorem isViewList_take_slices : ∀ (ds : List Int) (k : Nat), (∀ d ∈ ds, 0 ≤ d) →
    isViewList ((ds.take k).map (fun d => NpyIndex.slice 0 d 1)) ds = true := by
  intro ds
  induction ds with
  | nil => intro k _; simp [isViewList]
  | cons d ds ih =>
    intro k hd
    cases k with
    | zero => simp [isViewList]
    | succ k =>
      have := ih k (fun x hx => hd x (List.mem_cons_of_mem _ hx))
      simp only [List.take_succ_cons, List.map_cons, isViewList, isViewEntry, this,
        Bool.and_true, decide_eq_true_eq]
      exact ⟨fun _ => ⟨le_refl _, le_refl _⟩, fun h => absurd h (by decide)⟩

/-- The success of a case that writes the single entry `e`, as `PlainPost`
sees it. -/
theorem plainPost_single {dims : List Int} {st : BindState} {idx : NpyIndex} {dim : Int}
    (e : NpyIndex) (hinv : BindInv dims st)
    (hread : readDim dims (st.result - st.n_new) = some dim)
    (hne : e ≠ .newaxis)
    (hbasic : idx.stepNonzero = true → e.isBasic = true)
    (hcount : countIntp [e] = countScalars [idx])
    (hview : 0 ≤ dim → isViewEntry dim e = true) :
    PlainPost dims st idx (st.push e) := by
  refine ⟨[e], rfl, fun hs x hx => ?_, hcount, fun hd => ?_⟩
  · rw [List.mem_singleton.1 hx]
    exact hbasic hs
  · have hr := (readDim_some_iff _ _ _).1 hread
    rw [bindInv_consumed hinv, Int.toNat_ofNat] at hr
    obtain ⟨hlt, hget⟩ := List.getElem?_eq_some_iff.1 hr.2.2
    rw [List.drop_eq_getElem_cons hlt, isViewList_cons _ _ _ _ hne, hget,
      hview (hd dim (hget ▸ List.getElem_mem hlt))]
    rfl

/-- Every successful round of the loop on an entry that is no array, started
under the invariant, does what `PlainPost` says. -/
theorem bindEntry_plainPost {nz : NpyArray → Option (List NpyArray)} {dims : List Int}
    {st st1 : BindState} {rc rc1 : RefCounts} {idx : NpyIndex} (rest : List NpyIndex)
    (hinv : BindInv dims st) (hidx : idx.isPlain = true)
    (h : bindEntry nz dims st rc idx rest = .ok st1 rc1) :
    PlainPost dims st idx st1 := by
  cases idx with
  | intp v =>
    obtain ⟨dim, val, hread, h0, h1, hst, _⟩ :=
      bindScalar_ok (show bindScalar dims st rc v = _ from h)
    subst hst
    exact plainPost_single _ hinv hread (by simp) (fun _ => rfl) rfl
      (fun _ => by simp [isViewEntry, h0, h1])
  | bool flag =>
    obtain ⟨dim, val, hread, h0, h1, hst, _⟩ :=
      bindScalar_ok (show bindScalar dims st rc (boolVal flag) = _ from h)
    subst hst
    exact plainPost_single _ hinv hread (by simp) (fun _ => rfl) rfl
      (fun _ => by simp [isViewEntry, h0, h1])
  | slice start stop step =>
    cases hread : readDim dims (st.result - st.n_new) with
    | none =>
      simp only [bindEntry, hread] at h
      split at h
      · exact absurd h (deallocFail_ne_ok _ _ _ _ _)
      · simp at h
    | some dim =>
      rw [bindEntry_slice nz dims st rc rest dim start stop step hread] at h
      simp only [Outcome.ok.injEq] at h
      obtain ⟨hst, _⟩ := h
      subst hst
      refine plainPost_single _ hinv hread (by simp) (fun hs => hs) rfl (fun hd => ?_)
      have hS := bindSliceStart_bounds dim start step hd
      have hE := bindSliceStop_bounds dim stop hd
      simp only [isViewEntry, decide_eq_true_eq]
      exact ⟨fun hs => ⟨(hS.1 hs.le).1, hE.2⟩, fun hs => ⟨by have := hS.2 hs; omega, hE.1⟩⟩
  | slice_nostop start step =>
    cases hread : readDim dims (st.result - st.n_new) with
    | none =>
      simp only [bindEntry, hread] at h
      split at h
      · exact absurd h (deallocFail_ne_ok _ _ _ _ _)
      · simp at h
    | some dim =>
      rw [bindEntry_slice_nostop nz dims st rc rest dim start step hread] at h
      simp only [Outcome.ok.injEq] at h
      obtain ⟨hst, _⟩ := h
      subst hst
      refine plainPost_single _ hinv hread (by simp) (fun hs => hs) rfl (fun hd => ?_)
      have hS := bindSliceStart_bounds dim start step hd
      rw [← bindNoStopStart_eq] at hS
      simp only [isViewEntry, decide_eq_true_eq, bindNoStopStop]
      refine ⟨fun hs => ⟨(hS.1 hs.le).1, ?_⟩, fun hs => ⟨by have := hS.2 hs; omega, ?_⟩⟩
      · rw [if_pos hs]
      · rw [if_neg (by omega)]
  | string => simp [bindEntry] at h
  | ellipsis =>
    simp only [bindEntry] at h
    split at h
    · simp at h
    · rename_i m hm
      split at h
      · exact absurd h (deallocFail_ne_ok _ _ _ _ _)
      · rename_i hn2
        have hm0 := count_non_new_nonneg rest m hm
        have hc := bindInv_consumed hinv
        have hk : (st.out.length - countNewAxis st.out)
            + ((dims.length : Int) + st.n_new - m - st.result).toNat ≤ dims.length := by
          omega
        rw [fillSlices_spec dims rc _ st _ hc hk] at h
        simp only [Outcome.ok.injEq] at h
        obtain ⟨hst, _⟩ := h
        subst hst
        refine ⟨_, rfl, fun _ e he => ?_, ?_, fun hd => ?_⟩
        · obtain ⟨d, rfl⟩ := mem_fullSlices _ _ _ _ he
          rfl
        · simp only [countIntp, countScalars, fullSlices]
          rw [List.countP_eq_zero.2]
          · rfl
          · intro e he
            simp only [List.mem_map] at he
            obtain ⟨d, _, rfl⟩ := he
            simp
        · exact isViewList_take_slices _ _ (fun d hmem => hd d (List.mem_of_mem_drop hmem))
  | newaxis =>
    simp only [bindEntry, Outcome.ok.injEq] at h
    obtain ⟨hst, _⟩ := h
    subst hst
    exact ⟨[.newaxis], rfl, fun _ e he => by rw [List.mem_singleton.1 he]; rfl, rfl,
      fun _ => by simp [isViewList]⟩
  | intp_array a => simp [NpyIndex.isPlain] at hidx
  | bool_array a => simp [NpyIndex.isPlain] at hidx

/-- A loop that succeeds on entries that are no arrays has written basic
entries (the steps not being zero), one `Integer` for each scalar, and entries
that stay inside the dimensions they consume. -/
theorem bindLoop_plain (nz : NpyArray → Option (List NpyArray)) (dims : List Int) :
    ∀ (rest : List NpyIndex) (st st1 : BindState) (rc rc1 : RefCounts),
      BindInv dims st → (∀ e ∈ rest, e.isPlain = true) →
      bindLoop nz dims st rc rest = .ok st1 rc1 →
      ((∀ e ∈ rest, e.stepNonzero = true) → (∀ e ∈ st.out, e.isBasic = true) →
        ∀ e ∈ st1.out, e.isBasic = true) ∧
      countIntp st1.out = countIntp st.out + countScalars rest ∧
      ((∀ d ∈ dims, 0 ≤ d) → isViewList st.out dims = true →
        isViewList st1.out dims = true) := by
  intro rest
  induction rest with
  | nil =>
    intro st st1 rc rc1 _ _ h
    simp only [bindLoop, Outcome.ok.injEq] at h
    obtain ⟨rfl, _⟩ := h
    exact ⟨fun _ hb => hb, by simp [countScalars], fun _ hv => hv⟩
  | cons idx rest ih =>
    intro st st1 rc rc1 hinv hplain h
    obtain ⟨st2, rc2, hstep, hloop⟩ := bindLoop_cons_ok h
    have hinv2 := (stepPost_keeps hinv (bindEntry_stepPost rest hinv hstep)).1
    obtain ⟨w, hout, hbasic, hcount, hview⟩ :=
      bindEntry_plainPost rest hinv (hplain idx (List.mem_cons_self _ _)) hstep
    obtain ⟨hb1, hc1, hv1⟩ := ih st2 st1 rc2 rc1 hinv2
      (fun e he => hplain e (List.mem_cons_of_mem _ he)) hloop
    refine ⟨fun hs hb => ?_, ?_, fun hd hv => ?_⟩
    · refine hb1 (fun e he => hs e (List.mem_cons_of_mem _ he)) (fun e he => ?_)
      rw [hout, List.mem_append] at he
      exact he.elim (hb e) (hbasic (hs idx (List.mem_cons_self _ _)) e)
    · have hsc : countScalars (idx :: rest) = countScalars [idx] + countScalars rest := by
        simp only [countScalars, List.countP_cons, List.countP_nil]
        omega
      rw [hc1, hout, hsc, ← hcount]
      simp only [countIntp, List.countP_append]
      omega
    · refine hv1 hd ?_
      rw [hout]
      exact isViewList_append _ _ _ hv (hview hd)

/-- A list of basic entries is made of its `Integer`, `Slice` and `NewAxis`
entries. -/
theorem length_of_basic : ∀ (l : List NpyIndex), (∀ e ∈ l, e.isBasic = true) →
    l.length = countIntp l + countSlices l + countNewAxis l := by
  intro l
  induction l with
  | nil => intro _; rfl
  | cons e l ih =>
    intro hb
    have h1 := ih (fun x hx => hb x (List.mem_cons_of_mem _ hx))
    have he := hb e (List.mem_cons_self _ _)
    simp only [countIntp, countSlices, countNewAxis] at h1
    cases e with
    | intp v =>
      simp [countIntp, countSlices, countNewAxis, List.countP_cons, List.count_cons]
      omega
    | slice a b c =>
      simp [countIntp, countSlices, countNewAxis, List.countP_cons, List.count_cons]
      omega
    | newaxis =>
      simp [countIntp, countSlices, countNewAxis, List.countP_cons, List.count_cons]
      omega
    | _ => simp [NpyIndex.isBasic] at he

/-- The bound list of entries that are no arrays and have no step zero resolves:
the outputs of the resolver are those the specification gives for it. -/
theorem bound_list_resolves_eq (nz : NpyArray → Option (List NpyArray)) (array : NpyArray)
    (indexes : List NpyIndex) (rc rc1 : RefCounts) (out : List NpyIndex) (allow : Bool)
    (hstr : array.strides.length = array.dimensions.length)
    (hplain : ∀ e ∈ indexes, e.isPlain = true)
    (hsteps : ∀ e ∈ indexes, e.stepNonzero = true)
    (h : NpyArray_IndexBind nz indexes array.dimensions rc = .ok out rc1) :
    NpyArray_IndexToDimsEtc array out allow
        = .ok { iDim := array.dimensions.length,
                dimensions := viewDims out
                  ++ array.dimensions.drop (countIntp out + countSlices out),
                strides := viewStrides array.strides out
                  ++ array.strides.drop (countIntp out + countSlices out),
                offset := viewOffset array.strides out } ∧
      countIntp out + countSlices out ≤ array.dimensions.length ∧
      countIntp out = countScalars indexes ∧
      countNewAxis out = countNewAxis indexes := by
  obtain ⟨st, hloop, rfl⟩ := IndexBind_ok h
  obtain ⟨hinv, hnew, _⟩ :=
    bindLoop_ok_keeps nz array.dimensions indexes _ st rc rc1 (bindInv_init _) hloop
  obtain ⟨hb, hc, _⟩ :=
    bindLoop_plain nz array.dimensions indexes _ st rc rc1 (bindInv_init _) hplain hloop
  have hbasic : ∀ e ∈ st.out, e.isBasic = true := hb hsteps (by simp)
  have hlen := length_of_basic st.out hbasic
  have hle := hinv.2.2
  have hn := hinv.2.1
  simp only [BindState.result] at hle
  have hroom : countIntp st.out + countSlices st.out ≤ array.dimensions.length := by omega
  refine ⟨IndexToDimsEtc_basic_eq array allow st.out hstr hbasic hroom, hroom, ?_, ?_⟩
  · simpa [countIntp] using hc
  · rw [hn] at hnew
    simp only [zero_add, Nat.cast_inj] at hnew
    exact hnew

/-- C14: for an array whose strides are as many as its sizes and an index list
without `IntegerArray` and `BooleanArray` (and without step zero) on which
`NpyArray_IndexBind` succeeds, `NpyArray_IndexToDimsEtc` on the bound list with
`allow_arrays` false succeeds and returns the rank plus the number of `NewAxis`
entries minus the number of `Integer` and `Boolean` entries of the list.
`[Integer(1), Ellipsis, Integer(0)]` on sizes `[2,3,4,5]` resolves to the shape
`[3, 4]`. -/
theorem bound_list_feeds_resolver (nz : NpyArray → Option (List NpyArray))
    (array : NpyArray) (indexes : List NpyIndex) (rc rc1 : RefCounts)
    (out : List NpyIndex)
    (hstr : array.strides.length = array.dimensions.length)
    (hplain : ∀ e ∈ indexes, e.isPlain = true)
    (hsteps : ∀ e ∈ indexes, e.stepNonzero = true)
    (h : NpyArray_IndexBind nz indexes array.dimensions rc = .ok out rc1) :
    (∃ st, NpyArray_IndexToDimsEtc array out false = .ok st ∧
      st.nd_new = (array.dimensions.length : Int) + (countNewAxis indexes : Int)
        - (countScalars indexes : Int)) ∧
    (((NpyArray_IndexBind nz [.intp 1, .ellipsis, .intp 0] [2, 3, 4, 5] rc).value?.bind
        (fun bound => (NpyArray_IndexToDimsEtc ⟨1, [2, 3, 4, 5], [60, 20, 5, 1]⟩
          bound false).value?)).map (fun st => st.dimensions) = some [3, 4]) := by
  obtain ⟨heq, hroom, hci, hcn⟩ :=
    bound_list_resolves_eq nz array indexes rc rc1 out false hstr hplain hsteps h
  refine ⟨⟨_, heq, ?_⟩, rfl⟩
  simp only [ResolveState.nd_new, List.length_append, viewDims_length, List.length_drop,
    Nat.cast_add]
  omega

/-- C14 for `[NewAxis, Boolean(true), SliceOpenStop(1, 2)]` on sizes
`[2, 5, 7]`. -/
theorem bound_list_feeds_resolver_witness :
    (∃ st, NpyArray_IndexToDimsEtc ⟨1, [2, 5, 7], [35, 7, 1]⟩
        [.newaxis, .intp 1, .slice 1 5 2] false = .ok st ∧
      st.nd_new = ((⟨1, [2, 5, 7], [35, 7, 1]⟩ : NpyArray).dimensions.length : Int)
        + (countNewAxis [.newaxis, .bool true, .slice_nostop 1 2] : Int)
        - (countScalars [.newaxis, .bool true, .slice_nostop 1 2] : Int)) ∧
    (((NpyArray_IndexBind (fun _ => none) [.intp 1, .ellipsis, .intp 0] [2, 3, 4, 5]
        (fun _ => 0)).value?.bind
        (fun bound => (NpyArray_IndexToDimsEtc ⟨1, [2, 3, 4, 5], [60, 20, 5, 1]⟩
          bound false).value?)).map (fun st => st.dimensions) = some [3, 4]) :=
  bound_list_feeds_resolver (fun _ => none) ⟨1, [2, 5, 7], [35, 7, 1]⟩
    [.newaxis, .bool true, .slice_nostop 1 2] (fun _ => 0) (fun _ => 0)
    [.newaxis, .intp 1, .slice 1 5 2] (by decide) (by decide) (by decide) rfl

/-! ## The identity view -/

/-- The full slice of a dimension of size at least zero has the length of the
dimension. -/
theorem SliceSteps_full (d : Int) (hd : 0 ≤ d) : NpyArray_SliceSteps 0 d 1 = d := by
  simp only [NpyArray_SliceSteps, Int.tdiv_one]
  split_ifs <;> omega

/-- The specification's outputs for the full slices of all dimensions: the
sizes, the strides, and the offset zero; all entries are slices. -/
theorem view_of_full_slices : ∀ (ds str : List Int), (∀ d ∈ ds, 0 ≤ d) →
    str.length = ds.length →
    viewDims (ds.map (fun d => NpyIndex.slice 0 d 1)) = ds ∧
    viewStrides str (ds.map (fun d => NpyIndex.slice 0 d 1)) = str ∧
    viewOffset str (ds.map (fun d => NpyIndex.slice 0 d 1)) = 0 ∧
    countIntp (ds.map (fun d => NpyIndex.slice 0 d 1)) = 0 ∧
    countSlices (ds.map (fun d => NpyIndex.slice 0 d 1)) = ds.length := by
  intro ds
  induction ds with
  | nil =>
    intro str _ hlen
    have : str = [] := List.length_eq_zero.1 (by simpa using hlen)
    subst this
    exact ⟨rfl, rfl, rfl, rfl, rfl⟩
  | cons d ds ih =>
    intro str hd hlen
    cases str with
    | nil => simp at hlen
    | cons s str =>
      obtain ⟨h1, h2, h3, h4, h5⟩ := ih str
        (fun x hx => hd x (List.mem_cons_of_mem _ hx)) (by simpa using hlen)
      have h0 := SliceSteps_full d (hd d (List.mem_cons_self _ _))
      simp only [countIntp, countSlices] at h4 h5
      refine ⟨?_, ?_, ?_, ?_, ?_⟩
      · simp only [List.map_cons, viewDims, h0, h1]
      · simp only [List.map_cons, viewStrides, List.headD_cons, List.tail_cons, h2, one_mul]
      · simp only [List.map_cons, viewOffset, List.headD_cons, List.tail_cons, h3, mul_zero,
          add_zero]
      · simp only [countIntp, List.map_cons, List.countP_cons, h4]
        rfl
      · simp only [countSlices, List.map_cons, List.countP_cons, h5, List.length_cons]
        rfl

/-- A lone ellipsis is bound to the full slices of all dimensions. -/
theorem IndexBind_lone_ellipsis (nz : NpyArray → Option (List NpyArray)) (dims : List Int)
    (rc : RefCounts) :
    NpyArray_IndexBind nz [.ellipsis] dims rc
      = .ok (dims.map (fun d => NpyIndex.slice 0 d 1)) rc := by
  have hspec := fillSlices_spec dims rc dims.length { out := [], n_new := 0 } 0
    (by simp [BindState.result]) (by simp)
  have hfull : fullSlices dims 0 dims.length = dims.map (fun d => NpyIndex.slice 0 d 1) := by
    simp [fullSlices]
  rw [hfull] at hspec
  simp only [NpyArray_IndexBind, bindLoop, bindEntry, count_non_new, BindState.result,
    List.length_nil, Nat.cast_zero, add_zero, sub_zero, Int.toNat_ofNat]
  rw [if_neg (by omega), hspec]
  simp [Outcome.map, bindLoop]

/-- C20: for an array with sizes at least zero and as many strides as sizes,
binding the empty index list, or the list `[Ellipsis]`, and resolving the
result succeeds, returns `nd`, and gives the sizes of the array as output
dimensions, its strides as output strides, and the offset `0`. -/
theorem empty_and_ellipsis_are_identity (nz : NpyArray → Option (List NpyArray))
    (array : NpyArray) (rc : RefCounts) (allow : Bool)
    (hstr : array.strides.length = array.dimensions.length)
    (hdims : ∀ d ∈ array.dimensions, 0 ≤ d) :
    (∃ bound st, NpyArray_IndexBind nz [] array.dimensions rc = .ok bound rc ∧
      NpyArray_IndexToDimsEtc array bound allow = .ok st ∧
      st.nd_new = (array.dimensions.length : Int) ∧
      st.dimensions = array.dimensions ∧ st.strides = array.strides ∧ st.offset = 0) ∧
    (∃ bound st, NpyArray_IndexBind nz [.ellipsis] array.dimensions rc = .ok bound rc ∧
      NpyArray_IndexToDimsEtc array bound allow = .ok st ∧
      st.nd_new = (array.dimensions.length : Int) ∧
      st.dimensions = array.dimensions ∧ st.strides = array.strides ∧ st.offset = 0) := by
  constructor
  · refine ⟨[], _, rfl,
      IndexToDimsEtc_basic_eq array allow [] hstr (by simp) (by simp [countIntp, countSlices]),
      ?_, ?_, ?_, rfl⟩
    · simp [ResolveState.nd_new, viewDims, countIntp, countSlices]
    · simp [viewDims, countIntp, countSlices]
    · simp [viewStrides, countIntp, countSlices]
  · obtain ⟨h1, h2, h3, h4, h5⟩ := view_of_full_slices array.dimensions array.strides hdims hstr
    have hb : ∀ e ∈ array.dimensions.map (fun d => NpyIndex.slice 0 d 1),
        e.isBasic = true := by
      intro e he
      simp only [List.mem_map] at he
      obtain ⟨d, _, rfl⟩ := he
      rfl
    refine ⟨_, _, IndexBind_lone_ellipsis nz array.dimensions rc,
      IndexToDimsEtc_basic_eq array allow _ hstr hb (by rw [h4, h5]; omega), ?_, ?_, ?_, h3⟩
    · simp [ResolveState.nd_new, h1, h4, h5]
    · simp [h1, h4, h5]
    · simp [h2, h4, h5, ← hstr]

/-- C20 for an array of sizes `[2, 0, 3]` and strides `[0, 3, 1]`. -/
theorem empty_and_ellipsis_are_identity_witness :
    (∃ bound st, NpyArray_IndexBind (fun _ => none) []
        (⟨1, [2, 0, 3], [0, 3, 1]⟩ : NpyArray).dimensions (fun _ => 0)
          = .ok bound (fun _ => 0) ∧
      NpyArray_IndexToDimsEtc ⟨1, [2, 0, 3], [0, 3, 1]⟩ bound false = .ok st ∧
      st.nd_new = ((⟨1, [2, 0, 3], [0, 3, 1]⟩ : NpyArray).dimensions.length : Int) ∧
      st.dimensions = (⟨1, [2, 0, 3], [0, 3, 1]⟩ : NpyArray).dimensions ∧
      st.strides = (⟨1, [2, 0, 3], [0, 3, 1]⟩ : NpyArray).strides ∧ st.offset = 0) ∧
    (∃ bound st, NpyArray_IndexBind (fun _ => none) [.ellipsis]
        (⟨1, [2, 0, 3], [0, 3, 1]⟩ : NpyArray).dimensions (fun _ => 0)
          = .ok bound (fun _ => 0) ∧
      NpyArray_IndexToDimsEtc ⟨1, [2, 0, 3], [0, 3, 1]⟩ bound false = .ok st ∧
      st.nd_new = ((⟨1, [2, 0, 3], [0, 3, 1]⟩ : NpyArray).dimensions.length : Int) ∧
      st.dimensions = (⟨1, [2, 0, 3], [0, 3, 1]⟩ : NpyArray).dimensions ∧
      st.strides = (⟨1, [2, 0, 3], [0, 3, 1]⟩ : NpyArray).strides ∧ st.offset = 0) :=
  empty_and_ellipsis_are_identity (fun _ => none) ⟨1, [2, 0, 3], [0, 3, 1]⟩ (fun _ => 0)
    false (by decide) (by decide)

/-! ## The reads of `dimensions` -/

/-- Every state in which the loop starts a round or ends satisfies the
invariant. -/
theorem bindStates_inv (nz : NpyArray → Option (List NpyArray)) (dims : List Int) :
    ∀ (rest : List NpyIndex) (st : BindState) (rc : RefCounts), BindInv dims st →
      ∀ s ∈ bindStates nz dims st rc rest, BindInv dims s := by
  intro rest
  induction rest with
  | nil =>
    intro st rc hinv s hs
    rw [bindStates, List.mem_singleton] at hs
    rw [hs]
    exact hinv
  | cons idx rest ih =>
    intro st rc hinv s hs
    rw [bindStates, List.mem_cons] at hs
    rcases hs with hs | hs
    · rw [hs]
      exact hinv
    · cases hstep : bindEntry nz dims st rc idx rest with
      | ok st1 rc1 =>
        rw [hstep] at hs
        exact ih st1 rc1 (stepPost_keeps hinv (bindEntry_stepPost rest hinv hstep)).1 s hs
      | error e rc1 => rw [hstep] at hs; simp at hs
      | undefined => rw [hstep] at hs; simp at hs

/-- A round of the loop on an entry without `NULL` handle, with a sound finder,
started under the invariant, does nothing undefined. -/
theorem bindEntry_defined (nz : NpyArray → Option (List NpyArray)) (dims : List Int)
    (st : BindState) (rc : RefCounts) (idx : NpyIndex) (rest : List NpyIndex)
    (hinv : BindInv dims st) (hlive : idx.live = true)
    (hrest : ∀ e ∈ rest, e.live = true) (hnz : finderSound nz) :
    bindEntry nz dims st rc idx rest ≠ .undefined := by
  have hgen : idx ≠ .string → (∀ b, idx ≠ .bool_array (some b)) →
      bindEntry nz dims st rc idx rest ≠ .undefined := by
    intro hstr hmask
    rcases bindEntry_outcomes nz dims st rc idx rest hinv hstr hlive hrest
        (fun b hb => absurd hb (hmask b)) with
      ⟨st1, rc1, h⟩ | ⟨rc1, h⟩ | ⟨rc1, h, _⟩ <;> rw [h] <;> simp
  cases idx with
  | string => simp [bindEntry]
  | bool_array a =>
    cases a with
    | none => simp [NpyIndex.live] at hlive
    | some b =>
      obtain ⟨rc1, h1⟩ := deallocFail_error .TooManyIndices st rc hinv.1
      obtain ⟨rc2, h2⟩ := deallocFail_error .NonZeroFailed st rc hinv.1
      simp only [bindEntry]
      split
      · rw [h1]; simp
      · cases harrs : nz b with
        | none => simp only []; rw [h2]; simp
        | some arrs =>
          simp only []
          rw [if_neg (not_lt.2 (hnz b arrs harrs))]
          simp
  | _ => exact hgen (by simp) (by simp)

/-- The loop on entries without `NULL` handle, with a sound finder, started
under the invariant, does nothing undefined. -/
theorem bindLoop_defined (nz : NpyArray → Option (List NpyArray)) (dims : List Int)
    (hnz : finderSound nz) :
    ∀ (rest : List NpyIndex) (st : BindState) (rc : RefCounts), BindInv dims st →
      (∀ e ∈ rest, e.live = true) → bindLoop nz dims st rc rest ≠ .undefined := by
  intro rest
  induction rest with
  | nil => intro st rc _ _; simp [bindLoop]
  | cons idx rest ih =>
    intro st rc hinv hlive
    have hrest : ∀ e ∈ rest, e.live = true := fun e he => hlive e (List.mem_cons_of_mem _ he)
    have hdef := bindEntry_defined nz dims st rc idx rest hinv
      (hlive idx (List.mem_cons_self _ _)) hrest hnz
    rw [bindLoop]
    cases hstep : bindEntry nz dims st rc idx rest with
    | ok st1 rc1 =>
      exact ih st1 rc1 (stepPost_keeps hinv (bindEntry_stepPost rest hinv hstep)).1 hrest
    | error e rc1 => simp
    | undefined => exact absurd hstep hdef

/-- C18: in every state in which the loop of `NpyArray_IndexBind` starts a
round or ends, `n_new ≤ result ≤ nd + n_new`; the read
`dimensions[result - n_new]` made past the "too many indices" test is inside
the list, and so are the reads of the ellipsis fill loop for as many rounds as
there are dimensions left.  On a list without `NULL` handle, with a finder that
writes one array for each dimension of a mask, the call does nothing
undefined. -/
theorem bind_reads_stay_in_range (nz : NpyArray → Option (List NpyArray))
    (indexes : List NpyIndex) (dims : List Int) (rc : RefCounts) :
    (∀ st ∈ bindStates nz dims { out := [], n_new := 0 } rc indexes,
      st.n_new ≤ st.result ∧ st.result ≤ (dims.length : Int) + st.n_new ∧
      (st.result < (dims.length : Int) + st.n_new →
        ∃ d, readDim dims (st.result - st.n_new) = some d ∧
          0 ≤ st.result - st.n_new ∧ st.result - st.n_new < (dims.length : Int)) ∧
      (∀ (k : Nat) (rc1 : RefCounts), st.result + k ≤ (dims.length : Int) + st.n_new →
        ∃ st1, fillSlices dims rc1 k st = .ok st1 rc1)) ∧
    ((∀ e ∈ indexes, e.live = true) → finderSound nz →
      NpyArray_IndexBind nz indexes dims rc ≠ .undefined) := by
  constructor
  · intro st hst
    have hinv := bindStates_inv nz dims indexes _ rc (bindInv_init dims) st hst
    have hc := bindInv_consumed hinv
    have hle := hinv.2.2
    refine ⟨by omega, by omega, fun hroom => ?_, fun k rc1 hk => ?_⟩
    · obtain ⟨d, hd, _⟩ := readDim_of_not_full hinv (by omega)
      exact ⟨d, hd, by omega, by omega⟩
    · exact ⟨_, fillSlices_spec dims rc1 k st _ hc (by omega)⟩
  · intro hlive hnz h
    have hdef := bindLoop_defined nz dims hnz indexes _ rc (bindInv_init dims) hlive
    unfold NpyArray_IndexBind at h
    cases hl : bindLoop nz dims { out := [], n_new := 0 } rc indexes with
    | ok st1 rc1 => rw [hl] at h; simp [Outcome.map] at h
    | error e rc1 => rw [hl] at h; simp [Outcome.map] at h
    | undefined => exact hdef hl

/-- C18 for `[NewAxis, Integer(1), Ellipsis, BooleanArray, Slice(0, 2, 1)]` on
sizes `[2, 3, 4, 5]`, with a finder that fails. -/
theorem bind_reads_stay_in_range_witness :
    (∀ st ∈ bindStates (fun _ => none) [2, 3, 4, 5] { out := [], n_new := 0 } (fun _ => 1)
        [.newaxis, .intp 1, .ellipsis, .bool_array (some ⟨7, [2], [1]⟩), .slice 0 2 1],
      st.n_new ≤ st.result ∧ st.result ≤ (([2, 3, 4, 5] : List Int).length : Int) + st.n_new ∧
      (st.result < (([2, 3, 4, 5] : List Int).length : Int) + st.n_new →
        ∃ d, readDim [2, 3, 4, 5] (st.result - st.n_new) = some d ∧
          0 ≤ st.result - st.n_new ∧
          st.result - st.n_new < (([2, 3, 4, 5] : List Int).length : Int)) ∧
      (∀ (k : Nat) (rc1 : RefCounts),
        st.result + k ≤ (([2, 3, 4, 5] : List Int).length : Int) + st.n_new →
        ∃ st1, fillSlices [2, 3, 4, 5] rc1 k st = .ok st1 rc1)) ∧
    NpyArray_IndexBind (fun _ => none)
        [.newaxis, .intp 1, .ellipsis, .bool_array (some ⟨7, [2], [1]⟩), .slice 0 2 1]
        [2, 3, 4, 5] (fun _ => 1) ≠ .undefined :=
  ⟨(bind_reads_stay_in_range (fun _ => none)
      [.newaxis, .intp 1, .ellipsis, .bool_array (some ⟨7, [2], [1]⟩), .slice 0 2 1]
      [2, 3, 4, 5] (fun _ => 1)).1,
    (bind_reads_stay_in_range (fun _ => none)
      [.newaxis, .intp 1, .ellipsis, .bool_array (some ⟨7, [2], [1]⟩), .slice 0 2 1]
      [2, 3, 4, 5] (fun _ => 1)).2 (by decide) (by intro b arrs h; simp at h)⟩

/-! ## Lists with an ellipsis -/

/-- The count of a list followed by another. -/
theorem count_non_new_append : ∀ (l1 l2 : List NpyIndex) (a : Int),
    count_non_new l1 = some a →
    count_non_new (l1 ++ l2) = (count_non_new l2).map (fun r => a + r) := by
  intro l1
  induction l1 with
  | nil =>
    intro l2 a h
    simp only [count_non_new, Option.some.injEq] at h
    subst h
    rw [List.nil_append]
    cases count_non_new l2 <;> simp
  | cons e l ih =>
    intro l2 a h
    rw [List.cons_append]
    cases e with
    | newaxis =>
      simp only [count_non_new] at h ⊢
      exact ih l2 a h
    | bool_array b =>
      cases b with
      | none => simp [count_non_new] at h
      | some b =>
        simp only [count_non_new, Option.map_eq_some'] at h
        obtain ⟨r, hr, hra⟩ := h
        simp only [count_non_new]
        rw [ih l2 r hr, ← hra]
        cases count_non_new l2 <;> simp [add_assoc]
    | _ =>
      simp only [count_non_new, Option.map_eq_some'] at h
      obtain ⟨r, hr, hra⟩ := h
      simp only [count_non_new]
      rw [ih l2 r hr, ← hra]
      cases count_non_new l2 <;> simp [add_assoc]

/-- What the ellipsis case does when the rest of the list leaves room. -/
theorem bindEntry_ellipsis_eq (nz : NpyArray → Option (List NpyArray)) (dims : List Int)
    (st : BindState) (rc : RefCounts) (rest : List NpyIndex) (m : Int)
    (hinv : BindInv dims st) (hm : count_non_new rest = some m)
    (h0 : 0 ≤ (dims.length : Int) - (st.result - st.n_new) - m) :
    bindEntry nz dims st rc .ellipsis rest
      = .ok { out := st.out ++ fullSlices dims (st.result - st.n_new).toNat
                ((dims.length : Int) - (st.result - st.n_new) - m).toNat,
              n_new := st.n_new } rc := by
  have hc := bindInv_consumed hinv
  have hm0 := count_non_new_nonneg rest m hm
  have hk : (st.out.length - countNewAxis st.out)
      + ((dims.length : Int) - (st.result - st.n_new) - m).toNat ≤ dims.length := by
    omega
  have htoNat : (st.result - st.n_new).toNat = st.out.length - countNewAxis st.out := by
    omega
  have hn2 : (dims.length : Int) + st.n_new - m - st.result
      = (dims.length : Int) - (st.result - st.n_new) - m := by ring
  simp only [bindEntry, hm, hn2, if_neg (not_lt.2 h0)]
  rw [htoNat, fillSlices_spec dims rc _ st _ hc hk]

/-- C19: when `NpyArray_IndexBind` succeeds on a list that holds an ellipsis,
the number of entries written is the rank plus the number of `NewAxis` entries
of the list.  With two ellipses, `c` dimensions consumed before the first, and
`a` and `b` the counts of `count_non_new` for the entries between them and
after the second: the first writes `nd - c - (a + 1 + b)` full slices, leaving
one dimension to the second, and the second, reached with all dimensions but
`1 + b` consumed, writes exactly one full slice. -/
theorem ellipsis_binds_every_dimension (nz : NpyArray → Option (List NpyArray))
    (indexes : List NpyIndex) (dims : List Int) (rc rc1 : RefCounts) (out : List NpyIndex)
    (pre mid post : List NpyIndex) (st1 st2 : BindState) (rcA rcB : RefCounts)
    (a b : Int) :
    (NpyIndex.ellipsis ∈ indexes → NpyArray_IndexBind nz indexes dims rc = .ok out rc1 →
      (out.length : Int) = (dims.length : Int) + (countNewAxis indexes : Int)) ∧
    (NpyIndex.ellipsis ∉ pre → NpyIndex.ellipsis ∉ mid →
      count_non_new mid = some a → count_non_new post = some b →
      bindLoop nz dims { out := [], n_new := 0 } rc pre = .ok st1 rcA →
      0 ≤ (dims.length : Int) - (st1.result - st1.n_new) - (a + (1 + b)) →
      bindLoop nz dims
        { out := st1.out ++ fullSlices dims (st1.result - st1.n_new).toNat
            ((dims.length : Int) - (st1.result - st1.n_new) - (a + (1 + b))).toNat,
          n_new := st1.n_new } rcA mid = .ok st2 rcB →
      NpyArray_IndexBind nz (pre ++ .ellipsis :: (mid ++ .ellipsis :: post)) dims rc
          = (bindLoop nz dims
              { out := st2.out ++ fullSlices dims (st2.result - st2.n_new).toNat 1,
                n_new := st2.n_new } rcB post).map (fun s => s.out) ∧
        (fullSlices dims (st2.result - st2.n_new).toNat 1).length = 1 ∧
        st2.result - st2.n_new + 1 + b = (dims.length : Int)) := by
  constructor
  · intro hmem h
    obtain ⟨st, hloop, rfl⟩ := IndexBind_ok h
    obtain ⟨_, hnew, _⟩ :=
      bindLoop_ok_keeps nz dims indexes _ st rc rc1 (bindInv_init dims) hloop
    have := bindLoop_ok_ellipsis nz dims indexes _ st rc rc1 (bindInv_init dims) hmem hloop
    simp only [BindState.result, zero_add] at this hnew
    omega
  · intro hno1 hno2 hmid hpost hpre h0 hrun
    have hinv1 := (bindLoop_ok_keeps nz dims pre _ st1 rc rcA (bindInv_init dims) hpre).1
    have hb0 := count_non_new_nonneg post b hpost
    have hcount2 : count_non_new (NpyIndex.ellipsis :: post) = some (1 + b) := by
      simp only [count_non_new, hpost, Option.map_some']
    have hcount1 : count_non_new (mid ++ NpyIndex.ellipsis :: post) = some (a + (1 + b)) := by
      rw [count_non_new_append mid _ a hmid, hcount2]
      rfl
    have hE1 := bindEntry_ellipsis_eq nz dims st1 rcA _ _ hinv1 hcount1 h0
    have hpost1 := bindEntry_stepPost _ hinv1 hE1
    have hinv1' := (stepPost_keeps hinv1 hpost1).1
    obtain ⟨r, hr, hsum1⟩ := (stepPost_consumed hpost1).2 rfl
    rw [hcount1, Option.some.injEq] at hr
    obtain ⟨m, hm, hc2⟩ := bindLoop_ok_plain nz dims mid _ st2 rcA rcB hinv1' hno2 hrun
    rw [hmid, Option.some.injEq] at hm
    have hinv2 := (bindLoop_ok_keeps nz dims mid _ st2 rcA rcB hinv1' hrun).1
    have hsum2 : st2.result - st2.n_new + 1 + b = (dims.length : Int) := by omega
    have hone : (dims.length : Int) - (st2.result - st2.n_new) - b = 1 := by omega
    have hE2 := bindEntry_ellipsis_eq nz dims st2 rcB post b hinv2 hpost (by omega)
    rw [hone] at hE2
    have hc := bindInv_consumed hinv2
    refine ⟨?_, ?_, hsum2⟩
    · rw [NpyArray_IndexBind, bindLoop_append nz dims pre _ rc _ hno1, hpre]
      simp only []
      rw [bindLoop, hE1]
      simp only []
      rw [bindLoop_append nz dims mid _ rcA _ hno2, hrun]
      simp only []
      rw [bindLoop, hE2]
      rfl
    · apply fullSlices_length
      omega

/-- C19 for `[Integer(1), Ellipsis, Integer(0), Ellipsis, NewAxis]` on sizes
`[2, 3, 4, 5]`: the first ellipsis writes one slice, the second one slice, and
five entries are written. -/
theorem ellipsis_binds_every_dimension_witness :
    (([.intp 1, .slice 0 3 1, .intp 0, .slice 0 5 1, .newaxis] : List NpyIndex).length : Int)
      = (([2, 3, 4, 5] : List Int).length : Int)
        + (countNewAxis [.intp 1, .ellipsis, .intp 0, .ellipsis, .newaxis] : Int) ∧
    (NpyArray_IndexBind (fun _ => none)
        ([.intp 1] ++ .ellipsis :: ([.intp 0] ++ .ellipsis :: [.newaxis]))
        [2, 3, 4, 5] (fun _ => 0)
      = (bindLoop (fun _ => none) [2, 3, 4, 5]
          { out := [.intp 1, .slice 0 3 1, .intp 0]
              ++ fullSlices [2, 3, 4, 5]
                (BindState.result ⟨[.intp 1, .slice 0 3 1, .intp 0], 0⟩ - 0).toNat 1,
            n_new := 0 } (fun _ => 0) [.newaxis]).map (fun s => s.out) ∧
      (fullSlices [2, 3, 4, 5]
        (BindState.result ⟨[.intp 1, .slice 0 3 1, .intp 0], 0⟩ - 0).toNat 1).length = 1 ∧
      BindState.result ⟨[.intp 1, .slice 0 3 1, .intp 0], 0⟩ - 0 + 1 + 0
        = (([2, 3, 4, 5] : List Int).length : Int)) :=
  ⟨(ellipsis_binds_every_dimension (fun _ => none)
      [.intp 1, .ellipsis, .intp 0, .ellipsis, .newaxis] [2, 3, 4, 5] (fun _ => 0)
      (fun _ => 0) [.intp 1, .slice 0 3 1, .intp 0, .slice 0 5 1, .newaxis]
      [.intp 1] [.intp 0] [.newaxis] ⟨[.intp 1], 0⟩ ⟨[.intp 1, .slice 0 3 1, .intp 0], 0⟩
      (fun _ => 0) (fun _ => 0) 1 0).1 (by decide) rfl,
   (ellipsis_binds_every_dimension (fun _ => none)
      [.intp 1, .ellipsis, .intp 0, .ellipsis, .newaxis] [2, 3, 4, 5] (fun _ => 0)
      (fun _ => 0) [.intp 1, .slice 0 3 1, .intp 0, .slice 0 5 1, .newaxis]
      [.intp 1] [.intp 0] [.newaxis] ⟨[.intp 1], 0⟩ ⟨[.intp 1, .slice 0 3 1, .intp 0], 0⟩
      (fun _ => 0) (fun _ => 0) 1 0).2 (by decide) (by decide) rfl rfl rfl (by decide) rfl⟩

/-! ## The resolved view stays inside the array -/

/-- The sum of products of two lists, by first entries. -/
theorem dot_cons (x y : Int) (a b : List Int) : dot (x :: a) (y :: b) = x * y + dot a b := by
  simp [dot]

/-- A slice that stays inside a dimension visits indices of the dimension
only. -/
theorem slice_visits_in_dim (d start stop step k : Int)
    (hv : isViewEntry d (.slice start stop step) = true) (hstep : step ≠ 0)
    (hk0 : 0 ≤ k) (hk : k < NpyArray_SliceSteps start stop step) :
    0 ≤ start + k * step ∧ start + k * step < d := by
  simp only [isViewEntry, decide_eq_true_eq] at hv
  have hcast : ((k.toNat : Nat) : Int) = k := Int.toNat_of_nonneg hk0
  rcases lt_or_gt_of_ne hstep with hs | hs
  · have h1 := (SliceSteps_lt_iff_neg start stop step hs k.toNat).1 (by rw [hcast]; exact hk)
    rw [hcast] at h1
    have h2 : k * step ≤ 0 := mul_nonpos_of_nonneg_of_nonpos hk0 hs.le
    have := hv.2 hs
    omega
  · have h1 := (SliceSteps_lt_iff_pos start stop step hs k.toNat).1 (by rw [hcast]; exact hk)
    rw [hcast] at h1
    have h2 : 0 ≤ k * step := mul_nonneg hk0 hs.le
    have := hv.1 hs
    omega

/-- For a list of entries that stay inside the dimensions `ds` they consume,
with strides `ss`: every multi-index inside the shape the specification gives
addresses, through the strides and the offset it gives, an element whose
source coordinates are inside `ds`. -/
theorem view_in_bounds : ∀ (l : List NpyIndex) (ds ss : List Int),
    isViewList l ds = true → (∀ a b, NpyIndex.slice a b 0 ∉ l) → ds.length = ss.length →
    ∀ j, inShape j (viewDims l ++ ds.drop (countIntp l + countSlices l)) →
      ∃ c, inShape c ds ∧
        viewOffset ss l
          + dot j (viewStrides ss l ++ ss.drop (countIntp l + countSlices l)) = dot c ss := by
  intro l
  induction l with
  | nil =>
    intro ds ss _ _ _ j hj
    refine ⟨j, by simpa [viewDims, countIntp, countSlices] using hj, ?_⟩
    simp [viewOffset, viewStrides, countIntp, countSlices]
  | cons e l ih =>
    intro ds ss hv hstep hlen j hj
    have hstep1 : ∀ a b, NpyIndex.slice a b 0 ∉ l := fun a b h =>
      hstep a b (List.mem_cons_of_mem _ h)
    by_cases hne : e = .newaxis
    · subst hne
      simp only [isViewList] at hv
      have hI : countIntp (.newaxis :: l) = countIntp l := by simp [countIntp]
      have hS : countSlices (.newaxis :: l) = countSlices l := by simp [countSlices]
      rw [hI, hS] at hj ⊢
      simp only [viewDims, List.cons_append] at hj
      cases hj with
      | cons h0 hrest =>
        rename_i j0 j1
        obtain ⟨c, hc, heq⟩ := ih ds ss hv hstep1 hlen j1 hrest
        refine ⟨c, hc, ?_⟩
        simp only [viewOffset, viewStrides, List.cons_append, dot_cons]
        linear_combination heq
    · cases ds with
      | nil => rw [isViewList_cons_nil e l hne] at hv; simp at hv
      | cons d ds =>
        cases ss with
        | nil => simp at hlen
        | cons s0 ss =>
          rw [isViewList_cons e l d ds hne, Bool.and_eq_true] at hv
          have hlen1 : ds.length = ss.length := by simpa using hlen
          cases e with
          | intp v =>
            have hI : countIntp (.intp v :: l) = countIntp l + 1 := by simp [countIntp]
            have hS : countSlices (.intp v :: l) = countSlices l := by simp [countSlices]
            have hsum : countIntp l + 1 + countSlices l = (countIntp l + countSlices l) + 1 := by
              omega
            rw [hI, hS, hsum, List.drop_succ_cons] at hj ⊢
            simp only [viewDims] at hj
            obtain ⟨c, hc, heq⟩ := ih ds ss hv.2 hstep1 hlen1 j hj
            have hvd := hv.1
            simp only [isViewEntry, decide_eq_true_eq] at hvd
            refine ⟨v :: c, List.Forall₂.cons hvd hc, ?_⟩
            simp only [viewOffset, viewStrides, List.headD_cons, List.tail_cons, dot_cons]
            linear_combination heq
          | slice a b step =>
            have hs0 : step ≠ 0 := fun h0 => hstep a b (h0 ▸ List.mem_cons_self _ _)
            have hI : countIntp (.slice a b step :: l) = countIntp l := by simp [countIntp]
            have hS : countSlices (.slice a b step :: l) = countSlices l + 1 := by
              simp [countSlices]
            have hsum : countIntp l + (countSlices l + 1) = (countIntp l + countSlices l) + 1 := by
              omega
            rw [hI, hS, hsum, List.drop_succ_cons] at hj ⊢
            simp only [viewDims, List.cons_append] at hj
            cases hj with
            | cons h0 hrest =>
              rename_i j0 j1
              obtain ⟨c, hc, heq⟩ := ih ds ss hv.2 hstep1 hlen1 j1 hrest
              refine ⟨(a + j0 * step) :: c,
                List.Forall₂.cons (slice_visits_in_dim d a b step j0 hv.1 hs0 h0.1 h0.2) hc, ?_⟩
              simp only [viewOffset, viewStrides, List.headD_cons, List.tail_cons,
                List.cons_append, dot_cons]
              linear_combination heq
          | newaxis => exact absurd rfl hne
          | _ => simp [isViewEntry] at hv

/-- The first loop of the resolver does not succeed on a list that holds a
slice of step zero. -/
theorem resolveLoop_ok_steps (array : NpyArray) (allow : Bool) :
    ∀ (l : List NpyIndex) (st st1 : ResolveState),
      resolveLoop array allow st l = .ok st1 → ∀ a b, NpyIndex.slice a b 0 ∉ l := by
  intro l
  induction l with
  | nil => intro st st1 _ a b hmem; simp at hmem
  | cons e l ih =>
    intro st st1 h a b hmem
    rw [resolveLoop] at h
    cases hstep : resolveEntry array allow st e with
    | ok st2 =>
      rw [hstep] at h
      rcases List.mem_cons.1 hmem with he | hl
      · subst he
        simp only [resolveEntry] at hstep
        split at hstep
        · simp at hstep
        · simp at hstep
      · exact ih st2 st1 h a b hl
    | error x => rw [hstep] at h; simp at h
    | undefined => rw [hstep] at h; simp at h

/-- A resolver that succeeds has succeeded in its first loop. -/
theorem IndexToDimsEtc_ok_loop {array : NpyArray} {allow : Bool} {l : List NpyIndex}
    {st : ResolveState} (h : NpyArray_IndexToDimsEtc array l allow = .ok st) :
    ∃ st0, resolveLoop array allow ⟨0, [], [], 0⟩ l = .ok st0 := by
  unfold NpyArray_IndexToDimsEtc at h
  cases hl : resolveLoop array allow ⟨0, [], [], 0⟩ l with
  | ok st0 => exact ⟨st0, rfl⟩
  | error x => rw [hl] at h; simp at h
  | undefined => rw [hl] at h; simp at h

/-- The entries of a view list without slice of step zero are basic, and find a
dimension each. -/
theorem basic_of_view : ∀ (l : List NpyIndex) (ds : List Int),
    isViewList l ds = true → (∀ a b, NpyIndex.slice a b 0 ∉ l) →
    (∀ e ∈ l, e.isBasic = true) ∧ countIntp l + countSlices l ≤ ds.length := by
  intro l
  induction l with
  | nil => intro ds _ _; exact ⟨by simp, by simp [countIntp, countSlices]⟩
  | cons e l ih =>
    intro ds hv hstep
    have hstep1 : ∀ a b, NpyIndex.slice a b 0 ∉ l := fun a b h =>
      hstep a b (List.mem_cons_of_mem _ h)
    by_cases hne : e = .newaxis
    · subst hne
      simp only [isViewList] at hv
      obtain ⟨hb, hc⟩ := ih ds hv hstep1
      have hI : countIntp (.newaxis :: l) = countIntp l := by simp [countIntp]
      have hS : countSlices (.newaxis :: l) = countSlices l := by simp [countSlices]
      rw [hI, hS]
      refine ⟨fun x hx => ?_, hc⟩
      rcases List.mem_cons.1 hx with h | h
      · rw [h]; rfl
      · exact hb x h
    · cases ds with
      | nil => rw [isViewList_cons_nil e l hne] at hv; simp at hv
      | cons d ds =>
        rw [isViewList_cons e l d ds hne, Bool.and_eq_true] at hv
        obtain ⟨hb, hc⟩ := ih ds hv.2 hstep1
        cases e with
        | intp v =>
          have hI : countIntp (.intp v :: l) = countIntp l + 1 := by simp [countIntp]
          have hS : countSlices (.intp v :: l) = countSlices l := by simp [countSlices]
          rw [hI, hS, List.length_cons]
          refine ⟨fun x hx => ?_, by omega⟩
          rcases List.mem_cons.1 hx with h | h
          · rw [h]; rfl
          · exact hb x h
        | slice a b step =>
          have hs0 : step ≠ 0 := fun h0 => hstep a b (h0 ▸ List.mem_cons_self _ _)
          have hI : countIntp (.slice a b step :: l) = countIntp l := by simp [countIntp]
          have hS : countSlices (.slice a b step :: l) = countSlices l + 1 := by
            simp [countSlices]
          rw [hI, hS, List.length_cons]
          refine ⟨fun x hx => ?_, by omega⟩
          rcases List.mem_cons.1 hx with h | h
          · rw [h]; simp [NpyIndex.isBasic, hs0]
          · exact hb x h
        | newaxis => exact absurd rfl hne
        | _ => simp [isViewEntry] at hv

/-- C17: for an array with sizes at least zero and as many strides as sizes,
and an index list without `IntegerArray` and `BooleanArray` on which
`NpyArray_IndexBind` succeeds: if `NpyArray_IndexToDimsEtc` on the bound list
returns the dimensions `D`, the strides `S` and the offset `o`, then for every
multi-index `j` inside `D` there are source coordinates `c` inside the sizes of
the array with `o + Σ j[t]*S[t] = Σ c[d]*str[d]`. -/
theorem resolved_view_stays_in_array (nz : NpyArray → Option (List NpyArray))
    (array : NpyArray) (indexes : List NpyIndex) (rc rc1 : RefCounts)
    (bound : List NpyIndex) (allow : Bool) (st : ResolveState)
    (hstr : array.strides.length = array.dimensions.length)
    (hdims : ∀ d ∈ array.dimensions, 0 ≤ d)
    (hplain : ∀ e ∈ indexes, e.isPlain = true)
    (hbind : NpyArray_IndexBind nz indexes array.dimensions rc = .ok bound rc1)
    (hres : NpyArray_IndexToDimsEtc array bound allow = .ok st) :
    ∀ j, inShape j st.dimensions →
      ∃ c, inShape c array.dimensions ∧ st.offset + dot j st.strides = dot c array.strides := by
  obtain ⟨bst, hloop, rfl⟩ := IndexBind_ok hbind
  obtain ⟨_, _, hview⟩ :=
    bindLoop_plain nz array.dimensions indexes _ bst rc rc1 (bindInv_init _) hplain hloop
  have hv : isViewList bst.out array.dimensions = true := hview hdims rfl
  obtain ⟨st0, hst0⟩ := IndexToDimsEtc_ok_loop hres
  have hsteps := resolveLoop_ok_steps array allow bst.out _ st0 hst0
  obtain ⟨hbasic, hroom⟩ := basic_of_view bst.out array.dimensions hv hsteps
  have heq := IndexToDimsEtc_basic_eq array allow bst.out hstr hbasic hroom
  rw [hres, Result.ok.injEq] at heq
  subst heq
  intro j hj
  exact view_in_bounds bst.out array.dimensions array.strides hv hsteps hstr.symm j hj

/-- C17 for `[NewAxis, Boolean(true), SliceOpenStop(1, 2)]` on an array of sizes
`[2, 5, 7]` and strides `[35, 7, 1]`: the view has the shape `[1, 2, 7]`, the
strides `[0, 14, 1]` and the offset 42, and its element `[0, 1, 6]` is an
element of the array. -/
theorem resolved_view_stays_in_array_witness :
    inShape [0, 1, 6] (⟨3, [1, 2, 7], [0, 14, 1], 42⟩ : ResolveState).dimensions ∧
    ∃ c, inShape c (⟨1, [2, 5, 7], [35, 7, 1]⟩ : NpyArray).dimensions ∧
      (⟨3, [1, 2, 7], [0, 14, 1], 42⟩ : ResolveState).offset
          + dot [0, 1, 6] (⟨3, [1, 2, 7], [0, 14, 1], 42⟩ : ResolveState).strides
        = dot c (⟨1, [2, 5, 7], [35, 7, 1]⟩ : NpyArray).strides :=
  ⟨by simp [inShape],
    resolved_view_stays_in_array (fun _ => none) ⟨1, [2, 5, 7], [35, 7, 1]⟩
      [.newaxis, .bool true, .slice_nostop 1 2] (fun _ => 0) (fun _ => 0)
      [.newaxis, .intp 1, .slice 1 5 2] false ⟨3, [1, 2, 7], [0, 14, 1], 42⟩
      (by decide) (by decide) (by decide) rfl (by decide) [0, 1, 6] (by simp [inShape])⟩

end NpyIndexing
